import Mathlib

/-!
# The detection-rule client of `internal/kibana/rules.go`

A shallow embedding of the four operations `RulesBulkCreate`, `RulesBulkDelete`,
`RulesGetHits` and `RulesCloseSignals`, of the HTTP transport they call
(`c.post`, `c.delete`), and of the parts of Go's `encoding/json`, `unicode/utf8`,
`strconv`, `fmt` and `github.com/pkg/errors` that they run through.

Conventions:
* a Go `byte` is a `Fin 256`, a Go `string` is the list of its bytes;
* a Go slice is `Slice`, which keeps `nil` apart from an empty slice;
* a Go `int` is an `Int` (64-bit platforms: `strconv.ParseInt` is asked for 64 bits);
* a Go `error` is `Option GoError`, `none` being `nil`.
-/

namespace Kibana

/-! ## Bytes, strings, slices -/

/-- A Go `byte`. -/
abbrev Byte := Fin 256

/-- The contents of a Go `string`, or the elements of a `[]byte`. -/
abbrev Bytes := List Byte

/-- The bytes (UTF-8) of a string literal of the source. -/
def bytesOf (s : String) : Bytes :=
  s.data.flatMap (fun c => (String.utf8EncodeChar c).map (fun b => b.val))

/-- A Go slice: `nil`, or a (possibly empty) sequence of elements. -/
inductive Slice (α : Type) where
  | nil : Slice α
  | mk (elems : List α) : Slice α
deriving DecidableEq, Repr

/-- The elements of a slice; `nil` has none. -/
def Slice.toList {α : Type} : Slice α → List α
  | .nil => []
  | .mk elems => elems

/-- Go's `len`. -/
def Slice.len {α : Type} (s : Slice α) : Nat := s.toList.length

/-! ## Errors -/

/-- A Go error value, as far as this package can produce or receive one.
`foreign` is an error of any other dynamic type (what a transport hands back:
`*url.Error`, `*net.OpError`, ...), named by its type and its text.
`jsonSyntaxError` is `*json.SyntaxError`, `jsonUnmarshalTypeError` is
`*json.UnmarshalTypeError` with its `Value` field (offsets, messages and Go types
are left out). `errorString` is what `fmt.Errorf` returns for a format without
`%w`, with the formatted text. `withStack` is what `errors.Wrap err msg` of
`github.com/pkg/errors` returns (the recorded call stack is left out). -/
inductive GoError where
  | foreign (typeName : String) (text : Bytes)
  | jsonSyntaxError
  | jsonUnmarshalTypeError (value : Bytes)
  | errorString (text : Bytes)
  | withStack (cause : GoError) (msg : String)
deriving DecidableEq, Repr

/-- The dynamic type of an error value: what a Go type switch sees. -/
inductive ErrorKind where
  | foreign (typeName : String)
  | jsonSyntaxError
  | jsonUnmarshalTypeError
  | errorString
  | withStack
deriving DecidableEq, Repr

/-- The dynamic type of an error value. -/
def GoError.kind : GoError → ErrorKind
  | .foreign n _ => .foreign n
  | .jsonSyntaxError => .jsonSyntaxError
  | .jsonUnmarshalTypeError _ => .jsonUnmarshalTypeError
  | .errorString _ => .errorString
  | .withStack _ _ => .withStack

/-- The function `errors.Cause` of `github.com/pkg/errors`: the innermost wrapped error. -/
def GoError.rootCause : GoError → GoError
  | .withStack c _ => c.rootCause
  | e => e

/-- The function `errors.Wrap`: `nil` stays `nil`, another error is wrapped with the message. -/
def errorsWrap (err : Option GoError) (msg : String) : Option GoError :=
  match err with
  | none => none
  | some e => some (.withStack e msg)

/-! ## Decimal numbers: `%d` and `strconv.ParseInt` -/

/-- The ASCII digit of a number below ten. -/
def digitByte (d : Nat) : Byte := Fin.ofNat (48 + d % 10)

/-- The decimal digits of `n`, most significant first, in front of `acc`. -/
def natDigitsAux : Nat → Nat → Bytes → Bytes
  | 0, _, acc => acc
  | fuel + 1, n, acc =>
    if n < 10 then digitByte n :: acc
    else natDigitsAux fuel (n / 10) (digitByte (n % 10) :: acc)

/-- The decimal text of a natural number. -/
def fmtNat (n : Nat) : Bytes := natDigitsAux (n + 1) n []

/-- The verb `%d` of `fmt` on an `int`: decimal, with a minus sign when negative. -/
def fmtInt (n : Int) : Bytes :=
  if n < 0 then 0x2D :: fmtNat n.natAbs else fmtNat n.natAbs

/-- Whether a byte is an ASCII digit. -/
def isDigit (c : Byte) : Bool := 0x30 ≤ c.val && c.val ≤ 0x39

/-- The value of a run of decimal digits. -/
def digitsValue (ds : Bytes) : Nat := ds.foldl (fun a d => a * 10 + (d.val - 48)) 0

/-- The call `strconv.ParseInt(s, 10, 64)`: an optional sign, then decimal digits
only, and a value that fits 64 bits; `none` is a syntax or range error. -/
def parseInt64 (s : Bytes) : Option Int :=
  let go (neg : Bool) (ds : Bytes) : Option Int :=
    if ds = [] ∨ ds.all isDigit = false then none
    else if neg then (if digitsValue ds ≤ 2 ^ 63 then some (-(digitsValue ds : Int)) else none)
    else (if digitsValue ds < 2 ^ 63 then some (digitsValue ds : Int) else none)
  match s with
  | [] => none
  | c :: t => if c = 0x2D then go true t else if c = 0x2B then go false t else go false s

/-! ## `unicode/utf8` -/

/-- The rune `utf8.RuneError`, U+FFFD. -/
def runeError : Nat := 0xFFFD

/-- Whether a byte is a UTF-8 continuation byte, `0x80..0xBF`. -/
def isCont (b : Byte) : Bool := 0x80 ≤ b.val && b.val ≤ 0xBF

/-- The accepted range of the second byte after the leading byte `b0` of a three-byte
or four-byte sequence (no overlong forms, no surrogates, nothing above U+10FFFF). -/
def secondOk (b0 b1 : Byte) : Bool :=
  if b0.val = 0xE0 then 0xA0 ≤ b1.val && b1.val ≤ 0xBF
  else if b0.val = 0xED then 0x80 ≤ b1.val && b1.val ≤ 0x9F
  else if b0.val = 0xF0 then 0x90 ≤ b1.val && b1.val ≤ 0xBF
  else if b0.val = 0xF4 then 0x80 ≤ b1.val && b1.val ≤ 0x8F
  else isCont b1

/-- The function `utf8.DecodeRune`: the first rune of `s` and its width in bytes;
`(RuneError, 1)` for an invalid or truncated encoding, `(RuneError, 0)` for no input. -/
def decodeRune : Bytes → Nat × Nat
  | [] => (runeError, 0)
  | b0 :: t =>
    if b0.val < 0x80 then (b0.val, 1)
    else if 0xC2 ≤ b0.val ∧ b0.val ≤ 0xDF then
      match t with
      | b1 :: _ =>
        if isCont b1 then ((b0.val % 32) * 64 + b1.val % 64, 2) else (runeError, 1)
      | _ => (runeError, 1)
    else if 0xE0 ≤ b0.val ∧ b0.val ≤ 0xEF then
      match t with
      | b1 :: b2 :: _ =>
        if secondOk b0 b1 && isCont b2 then
          ((b0.val % 16) * 4096 + (b1.val % 64) * 64 + b2.val % 64, 3)
        else (runeError, 1)
      | _ => (runeError, 1)
    else if 0xF0 ≤ b0.val ∧ b0.val ≤ 0xF4 then
      match t with
      | b1 :: b2 :: b3 :: _ =>
        if secondOk b0 b1 && isCont b2 && isCont b3 then
          ((b0.val % 8) * 262144 + (b1.val % 64) * 4096 + (b2.val % 64) * 64 + b3.val % 64, 4)
        else (runeError, 1)
      | _ => (runeError, 1)
    else (runeError, 1)

/-- The function `utf8.EncodeRune` (`utf8.AppendRune`): surrogates and values above
U+10FFFF are written as U+FFFD. -/
def encodeRune (r : Nat) : Bytes :=
  if r < 0x80 then [Fin.ofNat r]
  else if r < 0x800 then [Fin.ofNat (0xC0 + r / 64), Fin.ofNat (0x80 + r % 64)]
  else if 0x10FFFF < r ∨ (0xD800 ≤ r ∧ r ≤ 0xDFFF) then [0xEF, 0xBF, 0xBD]
  else if r < 0x10000 then
    [Fin.ofNat (0xE0 + r / 4096), Fin.ofNat (0x80 + r / 64 % 64), Fin.ofNat (0x80 + r % 64)]
  else
    [Fin.ofNat (0xF0 + r / 262144), Fin.ofNat (0x80 + r / 4096 % 64),
     Fin.ofNat (0x80 + r / 64 % 64), Fin.ofNat (0x80 + r % 64)]

/-- The function `utf8.Valid`, read byte by byte: `skip` is how many bytes of the rune
in progress are still to be passed over. -/
def validUTF8Aux : Nat → Bytes → Bool
  | _, [] => true
  | skip + 1, _ :: t => validUTF8Aux skip t
  | 0, b :: t =>
    if b.val < 0x80 then validUTF8Aux 0 t
    else if (decodeRune (b :: t)).2 = 1 then false
    else validUTF8Aux ((decodeRune (b :: t)).2 - 1) t

/-- The function `utf8.Valid`. -/
def validUTF8 (s : Bytes) : Bool := validUTF8Aux 0 s

/-! ## `encoding/json`: string literals -/

/-- The table `hex` of `encoding/json`: a lower-case hexadecimal digit. -/
def hexDigit (n : Nat) : Byte :=
  if n % 16 < 10 then Fin.ofNat (48 + n % 16) else Fin.ofNat (87 + n % 16)

/-- The table `htmlSafeSet`: the ASCII bytes written as they are inside a string
literal (`0x20..0x7F` except the double quote, `&`, `<`, `>` and the backslash). -/
def htmlSafe (b : Byte) : Bool :=
  0x20 ≤ b.val && b.val < 0x80 &&
    !(b.val = 0x22 || b.val = 0x26 || b.val = 0x3C || b.val = 0x3E || b.val = 0x5C)

/-- The escape that `appendString` writes for an ASCII byte outside `htmlSafeSet`
(Go releases before 1.22; later ones shorten backspace and form feed). -/
def escapeAscii (b : Byte) : Bytes :=
  if b.val = 0x5C ∨ b.val = 0x22 then [0x5C, b]
  else if b.val = 0x0A then [0x5C, 0x6E]
  else if b.val = 0x0D then [0x5C, 0x72]
  else if b.val = 0x09 then [0x5C, 0x74]
  else [0x5C, 0x75, 0x30, 0x30, hexDigit (b.val / 16), hexDigit (b.val % 16)]

/-- The loop of `appendString` (with `escapeHTML`), read byte by byte: `skip` is how
many bytes of the rune just handled are still to be passed over. Invalid UTF-8 is
written as the escape of U+FFFD, U+2028 and U+2029 as their own escapes. -/
def appendStringAux : Nat → Bytes → Bytes
  | _, [] => []
  | skip + 1, _ :: t => appendStringAux skip t
  | 0, b :: t =>
    if b.val < 0x80 then
      (if htmlSafe b then [b] else escapeAscii b) ++ appendStringAux 0 t
    else if (decodeRune (b :: t)).1 = runeError ∧ (decodeRune (b :: t)).2 = 1 then
      [0x5C, 0x75, 0x66, 0x66, 0x66, 0x64] ++ appendStringAux 0 t
    else if (decodeRune (b :: t)).1 = 0x2028 ∨ (decodeRune (b :: t)).1 = 0x2029 then
      [0x5C, 0x75, 0x32, 0x30, 0x32, hexDigit ((decodeRune (b :: t)).1 % 16)]
        ++ appendStringAux ((decodeRune (b :: t)).2 - 1) t
    else
      (b :: t).take (decodeRune (b :: t)).2 ++ appendStringAux ((decodeRune (b :: t)).2 - 1) t

/-- The function `appendString` of `encoding/json`: a Go string as a JSON string literal. -/
def appendString (s : Bytes) : Bytes := 0x22 :: (appendStringAux 0 s ++ [0x22])

/-- The states of the scanner inside a string literal: `stateInString`,
`stateInStringEsc`, and `stateInStringEscU` with the count of hexadecimal digits read. -/
inductive StrState where
  | inString
  | esc
  | escU (seen : Nat)
deriving DecidableEq, Repr

/-- Whether a byte is a hexadecimal digit. -/
def isHex (c : Byte) : Bool :=
  (0x30 ≤ c.val && c.val ≤ 0x39) || (0x61 ≤ c.val && c.val ≤ 0x66) ||
    (0x41 ≤ c.val && c.val ≤ 0x46)

/-- The scanner over a string literal whose opening quote has been read: the text
up to the closing quote and the input after it, or `none` for a syntax error. -/
def scanStringAux : StrState → Bytes → Option (Bytes × Bytes)
  | _, [] => none
  | .inString, c :: t =>
    if c.val = 0x22 then some ([], t)
    else if c.val = 0x5C then (scanStringAux .esc t).map (fun p => (c :: p.1, p.2))
    else if c.val < 0x20 then none
    else (scanStringAux .inString t).map (fun p => (c :: p.1, p.2))
  | .esc, c :: t =>
    if c.val = 0x62 ∨ c.val = 0x66 ∨ c.val = 0x6E ∨ c.val = 0x72 ∨ c.val = 0x74 ∨
        c.val = 0x5C ∨ c.val = 0x2F ∨ c.val = 0x22 then
      (scanStringAux .inString t).map (fun p => (c :: p.1, p.2))
    else if c.val = 0x75 then (scanStringAux (.escU 0) t).map (fun p => (c :: p.1, p.2))
    else none
  | .escU seen, c :: t =>
    if isHex c then
      (scanStringAux (if seen < 3 then .escU (seen + 1) else .inString) t).map
        (fun p => (c :: p.1, p.2))
    else none

/-- The value of a hexadecimal digit. -/
def hexVal (c : Byte) : Option Nat :=
  if 0x30 ≤ c.val ∧ c.val ≤ 0x39 then some (c.val - 0x30)
  else if 0x61 ≤ c.val ∧ c.val ≤ 0x66 then some (c.val - 0x61 + 10)
  else if 0x41 ≤ c.val ∧ c.val ≤ 0x46 then some (c.val - 0x41 + 10)
  else none

/-- The function `getu4`: the code unit of a `\uXXXX` escape at the head of `s`;
`none` is its result `-1`. -/
def getu4 (s : Bytes) : Option Nat :=
  match s with
  | b :: u :: h1 :: h2 :: h3 :: h4 :: _ =>
    if b.val = 0x5C ∧ u.val = 0x75 then
      match hexVal h1, hexVal h2, hexVal h3, hexVal h4 with
      | some a, some b, some c, some d => some (((a * 16 + b) * 16 + c) * 16 + d)
      | _, _, _, _ => none
    else none
  | _ => none

/-- The function `utf16.IsSurrogate`. -/
def isSurrogate (r : Nat) : Bool := 0xD800 ≤ r && r < 0xE000

/-- The function `utf16.DecodeRune` on a code unit and the result of `getu4` for the
next one: the rune of a valid surrogate pair; `none` is U+FFFD. -/
def utf16Decode (r1 : Nat) (r2 : Option Nat) : Option Nat :=
  match r2 with
  | none => none
  | some r2 =>
    if 0xD800 ≤ r1 ∧ r1 < 0xDC00 ∧ 0xDC00 ≤ r2 ∧ r2 < 0xE000 then
      some ((r1 - 0xD800) * 1024 + (r2 - 0xDC00) + 0x10000)
    else none

/-- The loop of `unquoteBytes` over the text between the quotes, read byte by byte:
`skip` is how far the read index still has to advance over what was just decoded.
`none` is `ok = false`. -/
def unquoteAux : Nat → Bytes → Option Bytes
  | _, [] => some []
  | skip + 1, _ :: t => unquoteAux skip t
  | 0, c :: t =>
    if c.val = 0x5C then
      match t with
      | [] => none
      | e :: _ =>
        if e.val = 0x22 ∨ e.val = 0x5C ∨ e.val = 0x2F ∨ e.val = 0x27 then
          (unquoteAux 1 t).map (fun r => e :: r)
        else if e.val = 0x62 then (unquoteAux 1 t).map (fun r => 0x08 :: r)
        else if e.val = 0x66 then (unquoteAux 1 t).map (fun r => 0x0C :: r)
        else if e.val = 0x6E then (unquoteAux 1 t).map (fun r => 0x0A :: r)
        else if e.val = 0x72 then (unquoteAux 1 t).map (fun r => 0x0D :: r)
        else if e.val = 0x74 then (unquoteAux 1 t).map (fun r => 0x09 :: r)
        else if e.val = 0x75 then
          match getu4 (c :: t) with
          | none => none
          | some rr =>
            if isSurrogate rr then
              match utf16Decode rr (getu4 (t.drop 5)) with
              | some dec => (unquoteAux 11 t).map (fun r => encodeRune dec ++ r)
              | none => (unquoteAux 5 t).map (fun r => encodeRune runeError ++ r)
            else (unquoteAux 5 t).map (fun r => encodeRune rr ++ r)
        else none
    else if c.val = 0x22 ∨ c.val < 0x20 then none
    else if c.val < 0x80 then (unquoteAux 0 t).map (fun r => c :: r)
    else
      (unquoteAux ((decodeRune (c :: t)).2 - 1) t).map
        (fun r => encodeRune (decodeRune (c :: t)).1 ++ r)

/-! ## `encoding/json`: the scanner, as a parser to a syntax tree -/

/-- A JSON value as the scanner delimits it: a number keeps its literal text, a
string and an object key are unquoted (`unquoteBytes`). -/
inductive JValue where
  | null
  | bool (b : Bool)
  | num (lit : Bytes)
  | str (s : Bytes)
  | arr (elems : List JValue)
  | obj (members : List (Bytes × JValue))

/-- Why the scanner refuses an input. Go reports the first two as a
`*json.SyntaxError`; `fuel` is the bound of the loops below, never reached
(`parseJSON_fuel_free`). -/
inductive ScanError where
  | invalid
  | maxDepth
  | fuel
deriving DecidableEq, Repr

/-- The constant `maxNestingDepth` of the scanner. -/
def maxNestingDepth : Nat := 10000

/-- The scanner passes over blanks: space, tab, carriage return, line feed. -/
def skipSpace : Bytes → Bytes
  | [] => []
  | c :: t =>
    if c.val = 0x20 ∨ c.val = 0x09 ∨ c.val = 0x0D ∨ c.val = 0x0A then skipSpace t else c :: t

/-- The longest run of digits at the head of the input, and what follows it. -/
def spanDigits : Bytes → Bytes × Bytes
  | [] => ([], [])
  | c :: t => if isDigit c then ((c :: (spanDigits t).1), (spanDigits t).2) else ([], c :: t)

/-- The exponent of a number (`stateE`, `stateESign`, `stateE0`), `acc` being the
literal so far. -/
def scanExp (acc : Bytes) (s : Bytes) : Option (Bytes × Bytes) :=
  match s with
  | [] => some (acc, [])
  | c :: t =>
    if c.val = 0x65 ∨ c.val = 0x45 then
      match t with
      | [] => none
      | c1 :: t1 =>
        if c1.val = 0x2B ∨ c1.val = 0x2D then
          (if (spanDigits t1).1 = [] then none
           else some (acc ++ c :: c1 :: (spanDigits t1).1, (spanDigits t1).2))
        else
          (if (spanDigits t).1 = [] then none
           else some (acc ++ c :: (spanDigits t).1, (spanDigits t).2))
    else some (acc, s)

/-- The fraction of a number (`state0`, `stateDot`, `stateDot0`), then its exponent. -/
def scanFrac (acc : Bytes) (s : Bytes) : Option (Bytes × Bytes) :=
  match s with
  | [] => some (acc, [])
  | c :: t =>
    if c.val = 0x2E then
      (if (spanDigits t).1 = [] then none
       else scanExp (acc ++ c :: (spanDigits t).1) (spanDigits t).2)
    else scanExp acc s

/-- The integer part of a number after its sign (`stateNeg`, `state0`, `state1`). -/
def scanIntPart (acc : Bytes) (s : Bytes) : Option (Bytes × Bytes) :=
  match s with
  | [] => none
  | c :: t =>
    if c.val = 0x30 then scanFrac (acc ++ [c]) t
    else if 0x31 ≤ c.val ∧ c.val ≤ 0x39 then
      scanFrac (acc ++ c :: (spanDigits t).1) (spanDigits t).2
    else none

/-- A number literal at the head of the input: its text and what follows it. -/
def scanNumber (s : Bytes) : Option (Bytes × Bytes) :=
  match s with
  | [] => none
  | c :: t => if c.val = 0x2D then scanIntPart [c] t else scanIntPart [] s

/-- A string literal whose opening quote has been read: the unquoted string and the
input after the closing quote. The scanner decides; `unquoteBytes` refuses nothing the
scanner has let through (`unquote_of_literal`). -/
def parseStringLit (t : Bytes) : Except ScanError (Bytes × Bytes) :=
  match scanStringAux .inString t with
  | none => .error .invalid
  | some (lit, rest) =>
    match unquoteAux 0 lit with
    | none => .error .invalid
    | some s => .ok (s, rest)

/-- The elements of an array after the first has been found to exist: a value, then
a comma and the remaining elements, or the closing bracket. `pv` reads one value. -/
def parseElems (pv : Bytes → Except ScanError (JValue × Bytes)) :
    Nat → Bytes → Except ScanError (List JValue × Bytes)
  | 0, _ => .error .fuel
  | fuel + 1, s =>
    match pv s with
    | .error e => .error e
    | .ok (v, r) =>
      match skipSpace r with
      | [] => .error .invalid
      | c :: r1 =>
        if c.val = 0x2C then
          match parseElems pv fuel r1 with
          | .error e => .error e
          | .ok (vs, r2) => .ok (v :: vs, r2)
        else if c.val = 0x5D then .ok ([v], r1)
        else .error .invalid

/-- The members of an object after the first has been found to exist: a key string,
a colon, a value, then a comma and the remaining members, or the closing brace. -/
def parseMembers (pv : Bytes → Except ScanError (JValue × Bytes)) :
    Nat → Bytes → Except ScanError (List (Bytes × JValue) × Bytes)
  | 0, _ => .error .fuel
  | fuel + 1, s =>
    match skipSpace s with
    | [] => .error .invalid
    | q :: t =>
      if q.val = 0x22 then
        match parseStringLit t with
        | .error e => .error e
        | .ok (key, r) =>
          match skipSpace r with
          | [] => .error .invalid
          | c :: r1 =>
            if c.val = 0x3A then
              match pv r1 with
              | .error e => .error e
              | .ok (v, r2) =>
                match skipSpace r2 with
                | [] => .error .invalid
                | c2 :: r3 =>
                  if c2.val = 0x2C then
                    match parseMembers pv fuel r3 with
                    | .error e => .error e
                    | .ok (ms, r4) => .ok ((key, v) :: ms, r4)
                  else if c2.val = 0x7D then .ok ([(key, v)], r3)
                  else .error .invalid
            else .error .invalid
      else .error .invalid

/-- One of the words `true`, `false`, `null` at the head of the input. -/
def parseWord (w : Bytes) (v : JValue) (s : Bytes) : Except ScanError (JValue × Bytes) :=
  if s.take w.length = w then .ok (v, s.drop w.length) else .error .invalid

/-- One JSON value at the head of the input (after blanks) and the input after it.
`depth` is how many more arrays and objects may be opened inside one another. -/
def parseValue : Nat → Bytes → Except ScanError (JValue × Bytes)
  | depth, s =>
    match skipSpace s with
    | [] => .error .invalid
    | c :: t =>
      if c.val = 0x5B then
        match depth with
        | 0 => .error .maxDepth
        | d + 1 =>
          match skipSpace t with
          | [] => .error .invalid
          | c1 :: t1 =>
            if c1.val = 0x5D then .ok (.arr [], t1)
            else
              match parseElems (parseValue d) (t.length + 1) t with
              | .error e => .error e
              | .ok (vs, r) => .ok (.arr vs, r)
      else if c.val = 0x7B then
        match depth with
        | 0 => .error .maxDepth
        | d + 1 =>
          match skipSpace t with
          | [] => .error .invalid
          | c1 :: t1 =>
            if c1.val = 0x7D then .ok (.obj [], t1)
            else
              match parseMembers (parseValue d) (t.length + 1) t with
              | .error e => .error e
              | .ok (ms, r) => .ok (.obj ms, r)
      else if c.val = 0x22 then
        match parseStringLit t with
        | .error e => .error e
        | .ok (str, r) => .ok (.str str, r)
      else if c.val = 0x74 then parseWord [0x74, 0x72, 0x75, 0x65] (.bool true) (c :: t)
      else if c.val = 0x66 then parseWord [0x66, 0x61, 0x6C, 0x73, 0x65] (.bool false) (c :: t)
      else if c.val = 0x6E then parseWord [0x6E, 0x75, 0x6C, 0x6C] .null (c :: t)
      else
        match scanNumber (c :: t) with
        | none => .error .invalid
        | some (lit, r) => .ok (.num lit, r)

/-- The function `checkValid` together with the delimiting of values: the whole input
is one JSON value between blanks. -/
def parseJSON (data : Bytes) : Except ScanError JValue :=
  match parseValue maxNestingDepth data with
  | .error e => .error e
  | .ok (v, rest) => if skipSpace rest = [] then .ok v else .error .invalid

/-! ## The data model of `rules.go` -/

/-- The Go struct `RuleIDOnly`. -/
structure RuleIDOnly where
  RuleID : Bytes
deriving DecidableEq, Repr

/-- The Go struct `RuleNameOnly`. -/
structure RuleNameOnly where
  Name : Bytes
deriving DecidableEq, Repr

/-- The Go struct `SearchResultSignal`. -/
structure SearchResultSignal where
  Rule : RuleNameOnly
deriving DecidableEq, Repr

/-- The Go struct `SearchResultSource`. -/
structure SearchResultSource where
  Signal : SearchResultSignal
deriving DecidableEq, Repr

/-- The Go struct `SearchResultInnerHit`. -/
structure SearchResultInnerHit where
  Source : SearchResultSource
deriving DecidableEq, Repr

/-- The Go struct `SearchResultHitsTotal`. -/
structure SearchResultHitsTotal where
  Value : Int
deriving DecidableEq, Repr

/-- The Go struct `SearchResultHits`. -/
structure SearchResultHits where
  Total : SearchResultHitsTotal
  Hits : Slice SearchResultInnerHit
deriving DecidableEq, Repr

/-- The Go struct `SearchResult`. -/
structure SearchResult where
  Hits : SearchResultHits
deriving DecidableEq, Repr

/-- The zero value `RuleIDOnly{}`. -/
def RuleIDOnly.zero : RuleIDOnly := ⟨[]⟩

/-- The zero value `SearchResultInnerHit{}`. -/
def SearchResultInnerHit.zero : SearchResultInnerHit := ⟨⟨⟨⟨[]⟩⟩⟩⟩

/-- The zero value `SearchResult{}`. -/
def SearchResult.zero : SearchResult := ⟨⟨⟨0⟩, .nil⟩⟩

/-! ## `encoding/json`: storing a value into a Go variable -/

/-- An `*json.UnmarshalTypeError` with the given `Value`. -/
def typeError (value : String) : GoError := .jsonUnmarshalTypeError (bytesOf value)

/-- The method `saveError` of the decoder: the first error is the one kept. -/
def saveError (saved new : Option GoError) : Option GoError :=
  match saved with
  | some e => some e
  | none => new

/-- Storing a JSON value into a Go variable of some type: the new contents and the
error saved on the way, the variable being left alone where the value does not fit. -/
abbrev Store (σ : Type) := JValue → σ → σ × Option GoError

/-- Storing into a `string`. -/
def storeString : Store Bytes
  | .null, cur => (cur, none)
  | .str s, _ => (s, none)
  | .bool _, cur => (cur, some (typeError "bool"))
  | .num _, cur => (cur, some (typeError "number"))
  | .arr _, cur => (cur, some (typeError "array"))
  | .obj _, cur => (cur, some (typeError "object"))

/-- Storing into an `int`. -/
def storeInt : Store Int
  | .null, cur => (cur, none)
  | .num lit, cur =>
    match parseInt64 lit with
    | some n => (n, none)
    | none => (cur, some (.jsonUnmarshalTypeError (bytesOf "number " ++ lit)))
  | .bool _, cur => (cur, some (typeError "bool"))
  | .str _, cur => (cur, some (typeError "string"))
  | .arr _, cur => (cur, some (typeError "array"))
  | .obj _, cur => (cur, some (typeError "object"))

/-- The folding of an object key for the case-insensitive match of field names, read
byte by byte (`skip` bytes of the rune just folded are passed over): ASCII letters to
upper case, the long s (U+017F) to `S`, the Kelvin sign (U+212A) to `K`. The folding
of other runes is left out: no field name of this package has them. -/
def foldNameAux : Nat → Bytes → Bytes
  | _, [] => []
  | skip + 1, _ :: t => foldNameAux skip t
  | 0, c :: t =>
    if 0x61 ≤ c.val ∧ c.val ≤ 0x7A then Fin.ofNat (c.val - 0x20) :: foldNameAux 0 t
    else if c.val = 0xC5 ∧ t.take 1 = [0xBF] then 0x53 :: foldNameAux 1 t
    else if c.val = 0xE2 ∧ t.take 2 = [0x84, 0xAA] then 0x4B :: foldNameAux 2 t
    else c :: foldNameAux 0 t

/-- The folding of an object key or a field name. -/
def foldName (s : Bytes) : Bytes := foldNameAux 0 s

/-- A field of a Go struct as the decoder sees it: the name of its `json` tag, and
how a value is stored into it, `σ` being the struct. -/
structure Field (σ : Type) where
  name : Bytes
  store : Store σ

/-- The field an object key selects: one whose name is the key, else the first one
whose name matches it under folding. -/
def findField {σ : Type} (fields : List (Field σ)) (key : Bytes) : Option (Field σ) :=
  match fields.find? (fun f => f.name = key) with
  | some f => some f
  | none => fields.find? (fun f => foldName f.name = foldName key)

/-- The members of an object stored into a struct in the order of the input; a key
that selects no field is passed over. -/
def storeMembers {σ : Type} (fields : List (Field σ)) : List (Bytes × JValue) → σ →
    σ × Option GoError
  | [], cur => (cur, none)
  | (key, v) :: rest, cur =>
    match findField fields key with
    | none => storeMembers fields rest cur
    | some f =>
      (((storeMembers fields rest (f.store v cur).1)).1,
        saveError (f.store v cur).2 (storeMembers fields rest (f.store v cur).1).2)

/-- Storing into a struct. -/
def storeStruct {σ : Type} (fields : List (Field σ)) : Store σ
  | .null, cur => (cur, none)
  | .obj members, cur => storeMembers fields members cur
  | .bool _, cur => (cur, some (typeError "bool"))
  | .num _, cur => (cur, some (typeError "number"))
  | .str _, cur => (cur, some (typeError "string"))
  | .arr _, cur => (cur, some (typeError "array"))

/-- The elements of an array stored one by one into the slots of a slice. `backing`
is what the backing array already holds from the slot in turn onwards (the elements
in place, then what was left beyond the length); a slot it does not reach is a zero
value. -/
def storeElems {α : Type} (store : Store α) (zero : α) : List JValue → List α →
    List α × Option GoError
  | [], _ => ([], none)
  | v :: vs, backing =>
    ((store v (backing.headD zero)).1 :: (storeElems store zero vs backing.tail).1,
      saveError (store v (backing.headD zero)).2 (storeElems store zero vs backing.tail).2)

/-- Storing into a slice whose elements are not bytes. The variable is the slice
together with what its backing array holds beyond the length. `null` makes the slice
`nil`; an empty array makes a fresh empty slice; another array is stored slot by slot
and the slice is cut to its length. -/
def storeSlice {α : Type} (store : Store α) (zero : α) : Store (Slice α × List α)
  | .null, _ => ((.nil, []), none)
  | .arr [], _ => ((.mk [], []), none)
  | .arr (v :: vs), cur =>
    ((.mk (storeElems store zero (v :: vs) (cur.1.toList ++ cur.2)).1,
        (cur.1.toList ++ cur.2).drop (v :: vs).length),
      (storeElems store zero (v :: vs) (cur.1.toList ++ cur.2)).2)
  | .bool _, cur => (cur, some (typeError "bool"))
  | .num _, cur => (cur, some (typeError "number"))
  | .str _, cur => (cur, some (typeError "string"))
  | .obj _, cur => (cur, some (typeError "object"))

/-- The field `RuleID` of `RuleIDOnly`, tagged `rule_id`. -/
def ruleIDField : Field RuleIDOnly :=
  ⟨bytesOf "rule_id", fun v cur =>
    ((⟨(storeString v cur.RuleID).1⟩ : RuleIDOnly), (storeString v cur.RuleID).2)⟩

/-- The fields of `RuleIDOnly`. -/
def ruleIDOnlyFields : List (Field RuleIDOnly) := [ruleIDField]

/-- The field `Name` of `RuleNameOnly`, tagged `name`. -/
def nameField : Field RuleNameOnly :=
  ⟨bytesOf "name", fun v cur =>
    ((⟨(storeString v cur.Name).1⟩ : RuleNameOnly), (storeString v cur.Name).2)⟩

/-- The fields of `RuleNameOnly`. -/
def ruleNameOnlyFields : List (Field RuleNameOnly) := [nameField]

/-- The field `Rule` of `SearchResultSignal`, tagged `rule`. -/
def ruleField : Field SearchResultSignal :=
  ⟨bytesOf "rule", fun v cur =>
    ((⟨(storeStruct ruleNameOnlyFields v cur.Rule).1⟩ : SearchResultSignal),
      (storeStruct ruleNameOnlyFields v cur.Rule).2)⟩

/-- The fields of `SearchResultSignal`. -/
def signalFields : List (Field SearchResultSignal) := [ruleField]

/-- The field `Signal` of `SearchResultSource`, tagged `signal`. -/
def signalField : Field SearchResultSource :=
  ⟨bytesOf "signal", fun v cur =>
    ((⟨(storeStruct signalFields v cur.Signal).1⟩ : SearchResultSource),
      (storeStruct signalFields v cur.Signal).2)⟩

/-- The fields of `SearchResultSource`. -/
def sourceFields : List (Field SearchResultSource) := [signalField]

/-- The field `Source` of `SearchResultInnerHit`, tagged `_source`. -/
def sourceField : Field SearchResultInnerHit :=
  ⟨bytesOf "_source", fun v cur =>
    ((⟨(storeStruct sourceFields v cur.Source).1⟩ : SearchResultInnerHit),
      (storeStruct sourceFields v cur.Source).2)⟩

/-- The fields of `SearchResultInnerHit`. -/
def innerHitFields : List (Field SearchResultInnerHit) := [sourceField]

/-- The field `Value` of `SearchResultHitsTotal`, tagged `value`. -/
def valueField : Field SearchResultHitsTotal :=
  ⟨bytesOf "value", fun v cur =>
    ((⟨(storeInt v cur.Value).1⟩ : SearchResultHitsTotal), (storeInt v cur.Value).2)⟩

/-- The fields of `SearchResultHitsTotal`. -/
def hitsTotalFields : List (Field SearchResultHitsTotal) := [valueField]

/-- The field `Total` of `SearchResultHits`, tagged `total`; the struct comes with
what the backing array of its slice `Hits` holds beyond the length. -/
def totalField : Field (SearchResultHits × List SearchResultInnerHit) :=
  ⟨bytesOf "total", fun v cur =>
    (((⟨(storeStruct hitsTotalFields v cur.1.Total).1, cur.1.Hits⟩ : SearchResultHits), cur.2),
      (storeStruct hitsTotalFields v cur.1.Total).2)⟩

/-- The field `Hits` of `SearchResultHits`, tagged `hits`. -/
def hitsField : Field (SearchResultHits × List SearchResultInnerHit) :=
  ⟨bytesOf "hits", fun v cur =>
    (((⟨cur.1.Total,
        (storeSlice (storeStruct innerHitFields) SearchResultInnerHit.zero v
          (cur.1.Hits, cur.2)).1.1⟩ : SearchResultHits),
      (storeSlice (storeStruct innerHitFields) SearchResultInnerHit.zero v
          (cur.1.Hits, cur.2)).1.2),
      (storeSlice (storeStruct innerHitFields) SearchResultInnerHit.zero v
          (cur.1.Hits, cur.2)).2)⟩

/-- The fields of `SearchResultHits`. -/
def hitsFields : List (Field (SearchResultHits × List SearchResultInnerHit)) :=
  [totalField, hitsField]

/-- The field `Hits` of `SearchResult`, tagged `hits`. -/
def searchHitsField : Field (SearchResult × List SearchResultInnerHit) :=
  ⟨bytesOf "hits", fun v cur =>
    (((⟨(storeStruct hitsFields v (cur.1.Hits, cur.2)).1.1⟩ : SearchResult),
      (storeStruct hitsFields v (cur.1.Hits, cur.2)).1.2),
      (storeStruct hitsFields v (cur.1.Hits, cur.2)).2)⟩

/-- The fields of `SearchResult`. -/
def searchResultFields : List (Field (SearchResult × List SearchResultInnerHit)) :=
  [searchHitsField]

/-- The call `json.Unmarshal(data, &results)` for `results` of type `[]RuleIDOnly`:
the new contents of `results` and the returned error. A syntax error leaves
`results` alone. -/
def unmarshalRuleIDs (data : Bytes) (results : Slice RuleIDOnly) :
    Slice RuleIDOnly × Option GoError :=
  match parseJSON data with
  | .error _ => (results, some .jsonSyntaxError)
  | .ok v =>
    ((storeSlice (storeStruct ruleIDOnlyFields) RuleIDOnly.zero v (results, [])).1.1,
      (storeSlice (storeStruct ruleIDOnlyFields) RuleIDOnly.zero v (results, [])).2)

/-- The call `json.Unmarshal(data, &results)` for `results` of type `SearchResult`. -/
def unmarshalSearchResult (data : Bytes) (results : SearchResult) :
    SearchResult × Option GoError :=
  match parseJSON data with
  | .error _ => (results, some .jsonSyntaxError)
  | .ok v =>
    ((storeStruct searchResultFields v (results, [])).1.1,
      (storeStruct searchResultFields v (results, [])).2)

/-! ## `encoding/json`: encoding `[]RuleIDOnly` -/

/-- The encoding of one `RuleIDOnly`: an object with the one member `rule_id`. -/
def encodeRuleIDOnly (r : RuleIDOnly) : Bytes :=
  bytesOf "\x7b\"rule_id\":" ++ appendString r.RuleID ++ bytesOf "\x7d"

/-- The encoded elements of an array, with a comma between two of them. -/
def joinComma : List Bytes → Bytes
  | [] => []
  | [x] => x
  | x :: y :: rest => x ++ 0x2C :: joinComma (y :: rest)

/-- The call `json.Marshal(rules)` for `rules` of type `[]RuleIDOnly`: `null` for a
`nil` slice, else the array of the encoded elements; the error is always `nil`. -/
def marshalRuleIDs (rules : Slice RuleIDOnly) : Slice Byte × Option GoError :=
  match rules with
  | .nil => (.mk (bytesOf "null"), none)
  | .mk elems => (.mk (0x5B :: (joinComma (elems.map encodeRuleIDOnly) ++ [0x5D])), none)

/-! ## The transport -/

/-- The HTTP method of a request. -/
inductive Method where
  | POST
  | DELETE
deriving DecidableEq, Repr

/-- One call of the transport: `c.post(path, body)` or `c.delete(path, body)`. -/
structure Request where
  method : Method
  path : String
  body : Slice Byte
deriving DecidableEq, Repr

/-- What the transport returns: `(statusCode, respBody, err)`. -/
structure Reply where
  statusCode : Int
  respBody : Slice Byte
  err : Option GoError
deriving DecidableEq, Repr

/-- The client `c`, as far as `rules.go` uses it: the answer of its transport to a
request, given the requests it has answered before (oldest first). -/
structure Client where
  send : List Request → Request → Reply

/-- The method `c.post`: one request goes to the transport and onto the record of
the requests made. -/
def Client.post (c : Client) (path : String) (body : Slice Byte) (log : List Request) :
    Reply × List Request :=
  (c.send log ⟨.POST, path, body⟩, log ++ [⟨.POST, path, body⟩])

/-- The method `c.delete`. -/
def Client.delete (c : Client) (path : String) (body : Slice Byte) (log : List Request) :
    Reply × List Request :=
  (c.send log ⟨.DELETE, path, body⟩, log ++ [⟨.DELETE, path, body⟩])

/-- The constant `http.StatusOK`. -/
def statusOK : Int := 200

/-- The call `fmt.Errorf(lead + "%d" + mid + "%s", statusCode, respBody)`. -/
def fmtErrorf (lead : String) (statusCode : Int) (mid : String) (respBody : Slice Byte) :
    GoError :=
  .errorString (bytesOf lead ++ fmtInt statusCode ++ bytesOf mid ++ respBody.toList)

/-! ## The four operations of `rules.go` -/

/-- The method `RulesBulkCreate`: the returned `([]RuleIDOnly, error)` and the record
of the requests made, `log` being the requests made before the call. -/
def RulesBulkCreate (c : Client) (rules : Slice Byte) (log : List Request) :
    (Slice RuleIDOnly × Option GoError) × List Request :=
  if rules.len = 0 then ((.nil, none), log)
  else
    let r1 := c.post "api/detection_engine/index" .nil log
    if r1.1.err ≠ none then
      ((.nil, errorsWrap r1.1.err "could not create detection index"), r1.2)
    else if r1.1.statusCode ≠ statusOK then
      ((.nil, some (fmtErrorf "could not create detection index; API status code = "
        r1.1.statusCode "; response body = " r1.1.respBody)), r1.2)
    else
      let r2 := c.post "api/detection_engine/rules/_bulk_create" rules r1.2
      if r2.1.err ≠ none then
        ((.nil, errorsWrap r2.1.err "could not bulk create rules"), r2.2)
      else if r2.1.statusCode ≠ statusOK then
        ((.nil, some (fmtErrorf "could not bulk create rules; API status code = "
          r2.1.statusCode "; response body = " r2.1.respBody)), r2.2)
      else
        let u := unmarshalRuleIDs r2.1.respBody.toList (.mk [])
        if u.2 ≠ none then
          ((.nil, errorsWrap u.2 "could not unmarshal bulk create response"), r2.2)
        else ((u.1, none), r2.2)

/-- The method `RulesBulkDelete`: the returned `error` and the record of the requests
made. -/
def RulesBulkDelete (c : Client) (rules : Slice RuleIDOnly) (log : List Request) :
    Option GoError × List Request :=
  if rules.len = 0 then (none, log)
  else
    let m := marshalRuleIDs rules
    if m.2 ≠ none then (errorsWrap m.2 "could not marshal bulk detection rules", log)
    else
      let r := c.delete "api/detection_engine/rules/_bulk_delete" m.1 log
      if r.1.err ≠ none then (errorsWrap r.1.err "could not bulk delete rules", r.2)
      else if r.1.statusCode ≠ statusOK then
        (some (fmtErrorf "could not bulk delete rules; API status code = "
          r.1.statusCode "; response body = " r.1.respBody), r.2)
      else (none, r.2)

/-- The request body of `RulesGetHits`. -/
def getHitsBody : Bytes :=
  bytesOf "\x7b\"query\":\x7b\"match\":\x7b\"signal.status\":\"open\"\x7d\x7d\x7d"

/-- The method `RulesGetHits`: the returned `(SearchResult, error)` and the record of
the requests made. -/
def RulesGetHits (c : Client) (log : List Request) :
    (SearchResult × Option GoError) × List Request :=
  let results := SearchResult.zero
  let r := c.post "api/detection_engine/signals/search" (.mk getHitsBody) log
  if r.1.err ≠ none then ((results, errorsWrap r.1.err "could not search for hits"), r.2)
  else if r.1.statusCode ≠ statusOK then
    ((results, some (fmtErrorf "could not search for hits; API status code = "
      r.1.statusCode "; response body = " r.1.respBody)), r.2)
  else
    let u := unmarshalSearchResult r.1.respBody.toList results
    if u.2 ≠ none then ((u.1, errorsWrap u.2 "could not unmarshal search results"), r.2)
    else ((u.1, none), r.2)

/-- The request body of `RulesCloseSignals`. -/
def closeSignalsBody : Bytes :=
  bytesOf "\x7b\"query\":\x7b\"match\":\x7b\"signal.status\":\"open\"\x7d\x7d,\"status\":\"closed\"\x7d"

/-- The method `RulesCloseSignals`: the returned `error` and the record of the
requests made. -/
def RulesCloseSignals (c : Client) (log : List Request) : Option GoError × List Request :=
  let r := c.post "api/detection_engine/signals/status" (.mk closeSignalsBody) log
  if r.1.err ≠ none then (errorsWrap r.1.err "could not close signals", r.2)
  else if r.1.statusCode ≠ statusOK then
    (some (fmtErrorf "could not close signals; API status code = "
      r.1.statusCode "; response body = " r.1.respBody), r.2)
  else (none, r.2)

/-! ## Transports to try the operations on -/

/-- A transport that gives every request the same reply. -/
def constClient (r : Reply) : Client := ⟨fun _ _ => r⟩

/-- A transport that gives its requests the replies of a script, one after the other
(counting the requests on record), and `fallback` once the script is used up. -/
def scriptClient (script : List Reply) (fallback : Reply) : Client :=
  ⟨fun log _ => script.getD log.length fallback⟩

/-! ## Notions the statements below are written with -/

/-- A byte list is the decimal numeral of `n`: digits only, at least one, no leading
zero unless it is `0` itself, and of value `n`. -/
structure IsNumeral (ds : Bytes) (n : Nat) : Prop where
  nonempty : ds ≠ []
  digits : ∀ c ∈ ds, isDigit c = true
  canonical : ∀ t, ds = 0x30 :: t → t = []
  value : digitsValue ds = n

/-- A byte that ends a value inside an array or an object: a comma, a closing bracket
or a closing brace. -/
def isDelim (c : Byte) : Prop := c.val = 0x2C ∨ c.val = 0x5D ∨ c.val = 0x7D

/-- The text `x` is read by `pv` as the value `v` whatever follows it. -/
def ReadsAs (pv : Bytes → Except ScanError (JValue × Bytes)) (x : Bytes) (v : JValue) : Prop :=
  ∀ rest, pv (x ++ rest) = .ok (v, rest)

/-- The text `x` is read by `pv` as the value `v` in front of a comma, a closing
bracket or a closing brace. -/
def ReadsAsInside (pv : Bytes → Except ScanError (JValue × Bytes)) (x : Bytes) (v : JValue) :
    Prop :=
  ∀ c rest, isDelim c → pv (x ++ c :: rest) = .ok (v, c :: rest)

/-- The loop with which `encoding/json` makes a Go string valid UTF-8 when it writes
it (`skip` as in `appendStringAux`): each byte that starts no valid encoding becomes
U+FFFD, everything else stays. -/
def coerceUTF8Aux : Nat → Bytes → Bytes
  | _, [] => []
  | skip + 1, _ :: t => coerceUTF8Aux skip t
  | 0, b :: t =>
    if b.val < 0x80 then b :: coerceUTF8Aux 0 t
    else if (decodeRune (b :: t)).2 = 1 then 0xEF :: 0xBF :: 0xBD :: coerceUTF8Aux 0 t
    else (b :: t).take (decodeRune (b :: t)).2 ++ coerceUTF8Aux ((decodeRune (b :: t)).2 - 1) t

/-- A Go string as JSON can carry it: invalid bytes replaced by U+FFFD. -/
def coerceUTF8 (s : Bytes) : Bytes := coerceUTF8Aux 0 s

/-- The bytes `chunk` are the UTF-8 encoding of the rune `r`, of two bytes or more:
`utf8.DecodeRune` reads them as `r` whatever follows, `utf8.EncodeRune` writes them
for `r`, and none of them is ASCII. -/
structure IsRune (chunk : Bytes) (r : Nat) : Prop where
  long : 2 ≤ chunk.length
  high : ∀ c ∈ chunk, 0x80 ≤ c.val
  decode : ∀ x, decodeRune (chunk ++ x) = (r, chunk.length)
  encode : encodeRune r = chunk

/-- The text of a JSON array with the given element texts, as `encoding/json` writes
it: no blanks, a comma between two elements. -/
def arrayText (xs : List Bytes) : Bytes := 0x5B :: (joinComma xs ++ [0x5D])

/-- The text of one member of a JSON object: the key as a string literal, a colon,
the text of the value. -/
def memberText (kx : Bytes × Bytes) : Bytes := appendString kx.1 ++ 0x3A :: kx.2

/-- The text of a JSON object with the given keys and value texts, as `encoding/json`
writes it. -/
def objectText (items : List (Bytes × Bytes)) : Bytes :=
  0x7B :: (joinComma (items.map memberText) ++ [0x7D])

/-- A string between two quotes, every character as it is. -/
def quoted (s : Bytes) : Bytes := 0x22 :: (s ++ [0x22])

/-- The text of one entry of the `hits` array for a rule name, without blanks and with
the name as it is between its quotes. -/
def hitText (name : Bytes) : Bytes :=
  0x7B :: ((quoted (bytesOf "_source") ++ 0x3A ::
    (0x7B :: ((quoted (bytesOf "signal") ++ 0x3A ::
      (0x7B :: ((quoted (bytesOf "rule") ++ 0x3A ::
        (0x7B :: ((quoted (bytesOf "name") ++ 0x3A :: quoted name) ++ [0x7D]))) ++ [0x7D])))
      ++ [0x7D]))) ++ [0x7D])

/-- The `SearchResultInnerHit` whose rule has the given name. -/
def hitOfName (name : Bytes) : SearchResultInnerHit := ⟨⟨⟨⟨name⟩⟩⟩⟩

/-- The syntax tree of one entry of the `hits` array, for a rule name. -/
def hitTree (name : Bytes) : JValue :=
  .obj [(bytesOf "_source",
    .obj [(bytesOf "signal", .obj [(bytesOf "rule", .obj [(bytesOf "name", .str name)])])])]

/-- The syntax tree of a search response with the total `n` and one entry per name. -/
def searchResultTree (n : Int) (names : List Bytes) : JValue :=
  .obj [(bytesOf "hits",
    .obj [(bytesOf "total", .obj [(bytesOf "value", .num (fmtInt n))]),
      (bytesOf "hits", .arr (names.map hitTree))])]

/-- The syntax tree of a `rule_id` object. -/
def ruleIDTree (id : Bytes) : JValue := .obj [(bytesOf "rule_id", .str id)]

/-- Whether an object key selects the field `rule_id`: it is the name itself, or it
matches the name under folding (`RULE_ID`, `Rule_Id`, ...). -/
def isRuleIDKey (key : Bytes) : Bool :=
  decide (key = bytesOf "rule_id") || decide (foldName (bytesOf "rule_id") = foldName key)

/-- Whether a JSON value is a string or `null`. -/
def isStringOrNull : JValue → Bool
  | .str _ => true
  | .null => true
  | _ => false

/-- What `json.Unmarshal` takes for one `RuleIDOnly` without complaint: `null`, or an
object whose members selecting `rule_id` are all strings or `null` (other members are
passed over). -/
def elemAccepted : JValue → Bool
  | .null => true
  | .obj members => members.all (fun kv => !isRuleIDKey kv.1 || isStringOrNull kv.2)
  | _ => false

/-- What `json.Unmarshal` takes for a `[]RuleIDOnly` without complaint: `null`, or an
array of elements it takes for a `RuleIDOnly`. -/
def bodyAccepted : JValue → Bool
  | .null => true
  | .arr elems => elems.all elemAccepted
  | _ => false

/-- A store that fails only with an `*json.UnmarshalTypeError`. -/
def OnlyTypeErrors {σ : Type} (store : Store σ) : Prop :=
  ∀ v cur e, (store v cur).2 = some e → e.kind = ErrorKind.jsonUnmarshalTypeError

/-! ## JSON texts (RFC 8259), to state what a response body is

These follow the grammar of JSON, not the code of the scanner: blanks may stand
between any two tokens, and a string may be spelled with any mix of raw characters and
escapes. Numbers are covered as far as the statements need them (decimal integers). -/

/-- A blank of JSON: space, horizontal tab, line feed, carriage return. -/
def isBlank (c : Byte) : Bool :=
  decide (c.val = 0x20) || decide (c.val = 0x09) || decide (c.val = 0x0A) ||
    decide (c.val = 0x0D)

/-- A run of blanks, possibly empty. -/
def Blank (w : Bytes) : Prop := ∀ c ∈ w, isBlank c = true

instance Blank.decidable (w : Bytes) : Decidable (Blank w) := by
  unfold Blank
  infer_instance

/-- The character that a two-character escape stands for: the quote, the backslash
and the slash stand for themselves, `b`, `f`, `n`, `r`, `t` for a control character. -/
def shortEscape (e : Byte) : Option Byte :=
  if e.val = 0x22 ∨ e.val = 0x5C ∨ e.val = 0x2F then some e
  else if e.val = 0x62 then some 0x08
  else if e.val = 0x66 then some 0x0C
  else if e.val = 0x6E then some 0x0A
  else if e.val = 0x72 then some 0x0D
  else if e.val = 0x74 then some 0x09
  else none

/-- The code unit that four hexadecimal digits (of either case) write. -/
def hex4 (a b c d : Byte) : Option Nat :=
  match hexVal a, hexVal b, hexVal c, hexVal d with
  | some va, some vb, some vc, some vd => some (((va * 16 + vb) * 16 + vc) * 16 + vd)
  | _, _, _, _ => none

/-- The code point of a surrogate pair: `hi` in `D800..DBFF`, `lo` in `DC00..DFFF`. -/
def pairRune (hi lo : Nat) : Nat := 0x10000 + (hi - 0xD800) * 0x400 + (lo - 0xDC00)

/-- The text `lit`, standing between two quotes, spells the string `s`: a run of raw
characters (valid UTF-8, no control character, quote or backslash) spells itself, a
two-character escape its character, a `u` escape the UTF-8 of its code point, and two
`u` escapes that form a surrogate pair the UTF-8 of the code point of the pair. -/
inductive Spells : Bytes → Bytes → Prop
  | done : Spells [] []
  | raw (run lit s : Bytes)
      (hplain : ∀ c ∈ run, ¬ c.val = 0x22 ∧ ¬ c.val = 0x5C ∧ ¬ c.val < 0x20)
      (hvalid : validUTF8 run = true) (h : Spells lit s) : Spells (run ++ lit) (run ++ s)
  | short (e d : Byte) (lit s : Bytes) (he : shortEscape e = some d) (h : Spells lit s) :
      Spells (0x5C :: e :: lit) (d :: s)
  | unit (a b c d : Byte) (r : Nat) (lit s : Bytes) (hr : hex4 a b c d = some r)
      (hns : isSurrogate r = false) (h : Spells lit s) :
      Spells (0x5C :: 0x75 :: a :: b :: c :: d :: lit) (encodeRune r ++ s)
  | pair (a b c d a2 b2 c2 d2 : Byte) (hi lo : Nat) (lit s : Bytes)
      (hhi : hex4 a b c d = some hi) (hlo : hex4 a2 b2 c2 d2 = some lo)
      (h1 : 0xD800 ≤ hi ∧ hi < 0xDC00) (h2 : 0xDC00 ≤ lo ∧ lo < 0xE000) (h : Spells lit s) :
      Spells (0x5C :: 0x75 :: a :: b :: c :: d :: 0x5C :: 0x75 :: a2 :: b2 :: c2 :: d2 :: lit)
        (encodeRune (pairRune hi lo) ++ s)

/-- The texts of the string `s`: a spelling of it between two quotes. -/
def StringOf (s : Bytes) (x : Bytes) : Prop :=
  ∃ lit, Spells lit s ∧ x = 0x22 :: (lit ++ [0x22])

/-- The text of the integer `n`: its decimal numeral, with a minus sign when negative. -/
def IntOf (n : Int) (x : Bytes) : Prop := x = fmtInt n

/-- The text `y` lists the items `items`, each in one of its texts (`T a` are the texts
of the item `a`), each between optional blanks, with a comma between two of them. -/
inductive ItemsText {α : Type} (T : α → Bytes → Prop) : List α → Bytes → Prop
  | last (a : α) (w1 x w2 : Bytes) (h1 : Blank w1) (hx : T a x) (h2 : Blank w2) :
      ItemsText T [a] (w1 ++ (x ++ w2))
  | more (a : α) (rest : List α) (w1 x w2 y : Bytes) (h1 : Blank w1) (hx : T a x)
      (h2 : Blank w2) (h : ItemsText T rest y) :
      ItemsText T (a :: rest) (w1 ++ (x ++ (w2 ++ 0x2C :: y)))

/-- The texts of a bracketed list: the opening byte, the items (or only blanks when
there is none), the closing byte. -/
def ListOf {α : Type} (T : α → Bytes → Prop) (opening closing : Byte) (items : List α)
    (x : Bytes) : Prop :=
  (items = [] ∧ ∃ w, Blank w ∧ x = opening :: (w ++ [closing])) ∨
    ∃ y, ItemsText T items y ∧ x = opening :: (y ++ [closing])

/-- The texts of the array whose elements have the texts `elems`, in order. -/
def ArrayOf (elems : List (Bytes → Prop)) : Bytes → Prop :=
  ListOf (fun (P : Bytes → Prop) x => P x) 0x5B 0x5D elems

/-- The texts of one member of an object: a text of the name, a colon, a text of the
value, with optional blanks around the colon. -/
def MemberOf (m : Bytes × (Bytes → Prop)) (x : Bytes) : Prop :=
  ∃ kx w1 w2 vx, StringOf m.1 kx ∧ Blank w1 ∧ Blank w2 ∧ m.2 vx ∧
    x = kx ++ (w1 ++ 0x3A :: (w2 ++ vx))

/-- The texts of the object with the given members (name, texts of the value), in order. -/
def ObjectOf (members : List (Bytes × (Bytes → Prop))) : Bytes → Prop :=
  ListOf MemberOf 0x7B 0x7D members

/-- A whole JSON text: one value between optional blanks. -/
def Document (P : Bytes → Prop) (x : Bytes) : Prop :=
  ∃ w1 y w2, Blank w1 ∧ P y ∧ Blank w2 ∧ x = w1 ++ (y ++ w2)

/-- The JSON texts of the array of the objects whose one member `rule_id` is an
identifier of `ids`, in order. -/
def ruleIDsDocument (ids : List RuleIDOnly) : Bytes → Prop :=
  Document (ArrayOf (ids.map fun r => ObjectOf [(bytesOf "rule_id", StringOf r.RuleID)]))

/-- The texts of one entry of the `hits` array of a search response, for a rule name:
the objects `_source`, `signal`, `rule` and `name` inside one another. -/
def HitOf (name : Bytes) : Bytes → Prop :=
  ObjectOf [(bytesOf "_source",
    ObjectOf [(bytesOf "signal",
      ObjectOf [(bytesOf "rule", ObjectOf [(bytesOf "name", StringOf name)])])])]

/-- The JSON texts of a search response with the total `n` and one entry per rule
name, in order. -/
def searchDocument (n : Int) (names : List Bytes) : Bytes → Prop :=
  Document (ObjectOf [(bytesOf "hits",
    ObjectOf [(bytesOf "total", ObjectOf [(bytesOf "value", IntOf n)]),
      (bytesOf "hits", ArrayOf (names.map HitOf))])])

/-- A byte that may follow a value inside an array or an object: a blank, a comma, a
closing bracket or a closing brace. -/
def isEnd (c : Byte) : Prop := isBlank c = true ∨ isDelim c

/-- Every text of the class `P` is read by `pv` as the value `v`, whatever follows. -/
def Reads (pv : Bytes → Except ScanError (JValue × Bytes)) (P : Bytes → Prop) (v : JValue) :
    Prop :=
  ∀ x, P x → ∀ rest, pv (x ++ rest) = .ok (v, rest)

/-- Every text of the class `P` is read by `pv` as the value `v` in front of a blank,
a comma, a closing bracket or a closing brace. -/
def ReadsInside (pv : Bytes → Except ScanError (JValue × Bytes)) (P : Bytes → Prop)
    (v : JValue) : Prop :=
  ∀ x, P x → ∀ c rest, isEnd c → pv (x ++ c :: rest) = .ok (v, c :: rest)

/-! ## Empty input, the order of the calls, and failures before any decoding -/

/-- C1: with an empty input (a `nil` or zero-length slice) `RulesBulkCreate` and
`RulesBulkDelete` leave the record of requests as it was, whatever the transport,
and return no error; `RulesBulkCreate` returns the `nil` slice. -/
theorem empty_input_makes_no_call (c : Client) (log : List Request) (rules : Slice Byte)
    (ids : Slice RuleIDOnly) (hrules : rules.len = 0) (hids : ids.len = 0) :
    RulesBulkCreate c rules log = ((Slice.nil, none), log) ∧
      RulesBulkDelete c ids log = (none, log) := by
  simp [RulesBulkCreate, RulesBulkDelete, hrules, hids]

/-- C1 at a zero-length (not `nil`) byte slice and a `nil` list of identifiers, with
a transport that would answer 500. -/
theorem empty_input_makes_no_call_witness :
    (Slice.mk ([] : List Byte)).len = 0 ∧ (Slice.nil : Slice RuleIDOnly).len = 0 ∧
      RulesBulkCreate (constClient ⟨500, .nil, none⟩) (Slice.mk []) [] = ((Slice.nil, none), []) ∧
      RulesBulkDelete (constClient ⟨500, .nil, none⟩) Slice.nil [] = (none, []) :=
  ⟨rfl, rfl, empty_input_makes_no_call (constClient ⟨500, .nil, none⟩) [] (Slice.mk []) Slice.nil
    rfl rfl⟩

/-- C2: for a non-empty input, when the transport answers the index-ensure call with a
status code other than 200, `RulesBulkCreate` makes that one call only, returns the
`nil` slice, and returns the error of the detection-index step: the formatted text
with the decimal status code and the response body when the transport reported no
error of its own, and the transport's error wrapped with `could not create detection
index` when it did. -/
theorem index_failure_stops_bulk_create (c : Client) (log : List Request)
    (rules : Slice Byte) (r : Reply) (hrules : rules.len ≠ 0)
    (hreply : c.send log ⟨.POST, "api/detection_engine/index", .nil⟩ = r)
    (hcode : r.statusCode ≠ 200) :
    RulesBulkCreate c rules log =
      ((Slice.nil,
        some (match r.err with
          | some e => GoError.withStack e "could not create detection index"
          | none => GoError.errorString
              (bytesOf "could not create detection index; API status code = " ++
                fmtInt r.statusCode ++ bytesOf "; response body = " ++ r.respBody.toList))),
       log ++ [⟨.POST, "api/detection_engine/index", .nil⟩]) := by
  subst hreply
  simp only [RulesBulkCreate, Client.post, if_neg hrules]
  cases herr : (c.send log ⟨.POST, "api/detection_engine/index", .nil⟩).err with
  | none => simp [statusOK, hcode, fmtErrorf]
  | some e => simp [errorsWrap]

set_option maxRecDepth 100000 in
/-- C2 at the input `[]` (two bytes) and a transport answering 503 with the body `down`. -/
theorem index_failure_stops_bulk_create_witness :
    RulesBulkCreate (constClient ⟨503, .mk (bytesOf "down"), none⟩) (.mk (bytesOf "[]")) [] =
      ((Slice.nil,
        some (GoError.errorString
          (bytesOf "could not create detection index; API status code = 503; response body = down"))),
       [⟨.POST, "api/detection_engine/index", .nil⟩]) :=
  index_failure_stops_bulk_create (constClient ⟨503, .mk (bytesOf "down"), none⟩) []
    (.mk (bytesOf "[]")) ⟨503, .mk (bytesOf "down"), none⟩ (by decide) rfl (by decide)

/-- C3: for a non-empty input, when the transport answers the index-ensure call with
status 200 and no error, the requests `RulesBulkCreate` makes are exactly two, in this
order: `POST api/detection_engine/index` with a `nil` body, then
`POST api/detection_engine/rules/_bulk_create` with the caller's bytes as they are. -/
theorem bulk_create_calls_in_order (c : Client) (log : List Request) (rules : Slice Byte)
    (hrules : rules.len ≠ 0)
    (hstatus : (c.send log ⟨.POST, "api/detection_engine/index", .nil⟩).statusCode = 200)
    (herr : (c.send log ⟨.POST, "api/detection_engine/index", .nil⟩).err = none) :
    (RulesBulkCreate c rules log).2 =
      log ++ [⟨.POST, "api/detection_engine/index", .nil⟩,
        ⟨.POST, "api/detection_engine/rules/_bulk_create", rules⟩] := by
  simp only [RulesBulkCreate, Client.post, if_neg hrules, herr, hstatus, statusOK]
  simp only [ne_eq, not_true_eq_false, if_false]
  split
  · simp
  · split
    · simp
    · split <;> simp

/-- C3 at the input `[]` (two bytes) and a transport answering 200 to the first request
and 500 to the second. -/
theorem bulk_create_calls_in_order_witness :
    (RulesBulkCreate (scriptClient [⟨200, .nil, none⟩] ⟨500, .nil, none⟩)
        (.mk (bytesOf "[]")) []).2 =
      [⟨.POST, "api/detection_engine/index", .nil⟩,
        ⟨.POST, "api/detection_engine/rules/_bulk_create", .mk (bytesOf "[]")⟩] :=
  bulk_create_calls_in_order (scriptClient [⟨200, .nil, none⟩] ⟨500, .nil, none⟩) []
    (.mk (bytesOf "[]")) (by decide) rfl rfl

/-- C8: `RulesCloseSignals` makes exactly one request, a `POST` to
`api/detection_engine/signals/status` with the fixed body, whatever the transport
answers. When the transport reports no error of its own, the result is no error for
status 200 whatever the response body, and for any other status (201 and 204 too) the
formatted error with the decimal status code and the response body as it came; a
transport error comes back wrapped. -/
theorem close_signals_outcome (c : Client) (log : List Request) (r : Reply)
    (hreply : c.send log ⟨.POST, "api/detection_engine/signals/status",
      .mk (bytesOf "\x7b\"query\":\x7b\"match\":\x7b\"signal.status\":\"open\"\x7d\x7d,\"status\":\"closed\"\x7d")⟩ = r) :
    RulesCloseSignals c log =
      (match r.err with
        | some e => some (GoError.withStack e "could not close signals")
        | none =>
          if r.statusCode = 200 then none
          else some (GoError.errorString
            (bytesOf "could not close signals; API status code = " ++ fmtInt r.statusCode ++
              bytesOf "; response body = " ++ r.respBody.toList)),
       log ++ [⟨.POST, "api/detection_engine/signals/status",
        .mk (bytesOf "\x7b\"query\":\x7b\"match\":\x7b\"signal.status\":\"open\"\x7d\x7d,\"status\":\"closed\"\x7d")⟩]) := by
  have hbody : closeSignalsBody =
      bytesOf "\x7b\"query\":\x7b\"match\":\x7b\"signal.status\":\"open\"\x7d\x7d,\"status\":\"closed\"\x7d" := rfl
  subst hreply
  simp only [RulesCloseSignals, Client.post, hbody]
  cases herr : (c.send log ⟨.POST, "api/detection_engine/signals/status",
      .mk (bytesOf "\x7b\"query\":\x7b\"match\":\x7b\"signal.status\":\"open\"\x7d\x7d,\"status\":\"closed\"\x7d")⟩).err with
  | some e => simp [errorsWrap]
  | none =>
    by_cases h : (c.send log ⟨.POST, "api/detection_engine/signals/status",
        .mk (bytesOf "\x7b\"query\":\x7b\"match\":\x7b\"signal.status\":\"open\"\x7d\x7d,\"status\":\"closed\"\x7d")⟩).statusCode = 200
    · simp [h, statusOK]
    · simp [h, statusOK, fmtErrorf]

set_option maxRecDepth 100000 in
/-- C8 at a transport answering 204 with the body `gone`: an error, although 204 is a
success code of HTTP. -/
theorem close_signals_outcome_witness :
    RulesCloseSignals (constClient ⟨204, .mk (bytesOf "gone"), none⟩) [] =
      (some (GoError.errorString
        (bytesOf "could not close signals; API status code = 204; response body = gone")),
       [⟨.POST, "api/detection_engine/signals/status",
        .mk (bytesOf "\x7b\"query\":\x7b\"match\":\x7b\"signal.status\":\"open\"\x7d\x7d,\"status\":\"closed\"\x7d")⟩]) :=
  close_signals_outcome (constClient ⟨204, .mk (bytesOf "gone"), none⟩) []
    ⟨204, .mk (bytesOf "gone"), none⟩ rfl

/-- C10: when the transport call of `RulesGetHits` fails, or its status code is not
200, the `SearchResult` returned with the error is the zero value (total 0, `Hits`
the `nil` slice) whatever the response body holds, and the error is built from the
transport's error or from the status code and the raw body alone. -/
theorem get_hits_failure_returns_zero (c : Client) (log : List Request) (r : Reply)
    (hreply : c.send log ⟨.POST, "api/detection_engine/signals/search",
      .mk (bytesOf "\x7b\"query\":\x7b\"match\":\x7b\"signal.status\":\"open\"\x7d\x7d\x7d")⟩ = r)
    (hfail : r.err ≠ none ∨ r.statusCode ≠ 200) :
    (RulesGetHits c log).1.1 = SearchResult.zero ∧
      (RulesGetHits c log).1.1.Hits.Total.Value = 0 ∧
      (RulesGetHits c log).1.1.Hits.Hits = Slice.nil ∧
      (RulesGetHits c log).1.2 =
        some (match r.err with
          | some e => GoError.withStack e "could not search for hits"
          | none => GoError.errorString
              (bytesOf "could not search for hits; API status code = " ++
                fmtInt r.statusCode ++ bytesOf "; response body = " ++ r.respBody.toList)) := by
  have hbody : getHitsBody =
      bytesOf "\x7b\"query\":\x7b\"match\":\x7b\"signal.status\":\"open\"\x7d\x7d\x7d" := rfl
  subst hreply
  simp only [RulesGetHits, Client.post, hbody]
  cases herr : (c.send log ⟨.POST, "api/detection_engine/signals/search",
      .mk (bytesOf "\x7b\"query\":\x7b\"match\":\x7b\"signal.status\":\"open\"\x7d\x7d\x7d")⟩).err with
  | some e => simp [errorsWrap, SearchResult.zero]
  | none =>
    have hcode := hfail.resolve_left (by simp [herr])
    simp [statusOK, hcode, fmtErrorf, SearchResult.zero]

/-- C10 at a transport answering 500 with a body that would decode to two hits. -/
theorem get_hits_failure_returns_zero_witness :
    (RulesGetHits (constClient ⟨500, .mk (bytesOf "\x7b\"hits\":\x7b\"total\":\x7b\"value\":2\x7d\x7d\x7d"), none⟩) []).1.1
        = SearchResult.zero ∧
      (RulesGetHits (constClient ⟨500, .mk (bytesOf "\x7b\"hits\":\x7b\"total\":\x7b\"value\":2\x7d\x7d\x7d"), none⟩) []).1.1.Hits.Total.Value = 0 ∧
      (RulesGetHits (constClient ⟨500, .mk (bytesOf "\x7b\"hits\":\x7b\"total\":\x7b\"value\":2\x7d\x7d\x7d"), none⟩) []).1.1.Hits.Hits = Slice.nil ∧
      (RulesGetHits (constClient ⟨500, .mk (bytesOf "\x7b\"hits\":\x7b\"total\":\x7b\"value\":2\x7d\x7d\x7d"), none⟩) []).1.2 =
        some (GoError.errorString
          (bytesOf "could not search for hits; API status code = " ++
            fmtInt 500 ++ bytesOf "; response body = " ++
            bytesOf "\x7b\"hits\":\x7b\"total\":\x7b\"value\":2\x7d\x7d\x7d")) :=
  get_hits_failure_returns_zero
    (constClient ⟨500, .mk (bytesOf "\x7b\"hits\":\x7b\"total\":\x7b\"value\":2\x7d\x7d\x7d"), none⟩) []
    ⟨500, .mk (bytesOf "\x7b\"hits\":\x7b\"total\":\x7b\"value\":2\x7d\x7d\x7d"), none⟩ rfl
    (Or.inr (by decide))

/-! ## Decimal text: `%d` read back by `strconv.ParseInt` and by the scanner -/

theorem digitByte_val (d : Nat) (h : d < 10) : (digitByte d).val = 48 + d := by
  simp only [digitByte, Fin.ofNat, Nat.mod_eq_of_lt h]
  omega

theorem isDigit_digitByte (d : Nat) : isDigit (digitByte d) = true := by
  have h : (digitByte d).val = 48 + d % 10 := by
    simp only [digitByte, Fin.ofNat]
    omega
  simp only [isDigit, h, Bool.and_eq_true, decide_eq_true_eq]
  omega

theorem digitsValue_append (xs ys : Bytes) (a : Nat) :
    List.foldl (fun a d => a * 10 + ((d : Byte).val - 48)) a (xs ++ ys) =
      List.foldl (fun a d => a * 10 + ((d : Byte).val - 48))
        (List.foldl (fun a d => a * 10 + ((d : Byte).val - 48)) a xs) ys := by
  simp

/-- The digits written in front of an accumulator of digits, as a relation that `natDigitsAux`
keeps: the result is `ds ++ acc` with `ds` the numeral of `n`, given enough fuel. -/
theorem natDigitsAux_spec (fuel : Nat) : ∀ (n : Nat) (acc : Bytes), n < fuel →
    ∃ ds, natDigitsAux fuel n acc = ds ++ acc ∧ IsNumeral ds n := by
  induction fuel with
  | zero => intro n acc h; omega
  | succ fuel ih =>
    intro n acc hn
    by_cases h10 : n < 10
    · refine ⟨[digitByte n], by simp [natDigitsAux, h10], ?_⟩
      refine ⟨by simp, ?_, ?_, ?_⟩
      · intro c hc
        simp only [List.mem_singleton] at hc
        rw [hc]; exact isDigit_digitByte n
      · intro t ht
        simp only [List.cons.injEq] at ht
        exact ht.2.symm
      · simp only [digitsValue, List.foldl_cons, List.foldl_nil, digitByte_val n h10]
        omega
    · obtain ⟨ds, hds, hnum⟩ := ih (n / 10) (digitByte (n % 10) :: acc) (by omega)
      refine ⟨ds ++ [digitByte (n % 10)], by simp [natDigitsAux, h10, hds], ?_⟩
      refine ⟨by simp, ?_, ?_, ?_⟩
      · intro c hc
        simp only [List.mem_append, List.mem_singleton] at hc
        rcases hc with hc | hc
        · exact hnum.digits c hc
        · rw [hc]; exact isDigit_digitByte _
      · intro t ht
        exfalso
        cases ds with
        | nil => exact hnum.nonempty rfl
        | cons d ds' =>
          simp only [List.cons_append, List.cons.injEq] at ht
          have h0 := hnum.canonical ds' (by rw [ht.1])
          have hv := hnum.value
          rw [h0, ht.1] at hv
          simp [digitsValue] at hv
          omega
      · have hv := hnum.value
        simp only [digitsValue] at hv ⊢
        rw [digitsValue_append, hv]
        simp only [List.foldl_cons, List.foldl_nil,
          digitByte_val (n % 10) (Nat.mod_lt _ (by omega))]
        omega

/-- The text that `fmtNat` writes is the decimal numeral of the number. -/
theorem fmtNat_isNumeral (n : Nat) : IsNumeral (fmtNat n) n := by
  obtain ⟨ds, hds, hnum⟩ := natDigitsAux_spec (n + 1) n [] (by omega)
  simp only [List.append_nil] at hds
  simp only [fmtNat, hds]
  exact hnum

theorem all_isDigit_of_numeral {ds : Bytes} {n : Nat} (h : IsNumeral ds n) :
    ds.all isDigit = true := by
  simp only [List.all_eq_true]
  exact h.digits

/-- The call `strconv.ParseInt` reads the text of `%d` back as the number, for a number
that fits 64 bits. -/
theorem parseInt64_fmtInt (n : Int) (hlo : -(2 : Int) ^ 63 ≤ n) (hhi : n < (2 : Int) ^ 63) :
    parseInt64 (fmtInt n) = some n := by
  have hnum := fmtNat_isNumeral n.natAbs
  have hall := all_isDigit_of_numeral hnum
  have hne := hnum.nonempty
  have hval := hnum.value
  by_cases hneg : n < 0
  · simp only [fmtInt, if_pos hneg, parseInt64]
    simp only [if_true, hne, hall, hval, false_or, Bool.true_eq_false, if_false]
    have h1 : n.natAbs ≤ 2 ^ 63 := by omega
    simp only [h1, if_true, Option.some.injEq]
    omega
  · simp only [fmtInt, if_neg hneg]
    cases hds : fmtNat n.natAbs with
    | nil => exact absurd hds hne
    | cons c t =>
      have hc : isDigit c = true := hnum.digits c (by rw [hds]; simp)
      have hc1 : c ≠ 0x2D := by
        intro h; rw [h] at hc; revert hc; decide
      have hc2 : c ≠ 0x2B := by
        intro h; rw [h] at hc; revert hc; decide
      rw [hds] at hall hval
      simp only [parseInt64, if_neg hc1, if_neg hc2, hall, hval]
      have h1 : n.natAbs < 2 ^ 63 := by omega
      simp only [h1, if_true]
      simp
      omega
theorem spanDigits_numeral (ds : Bytes) (hds : ∀ c ∈ ds, isDigit c = true) (c : Byte)
    (hc : isDigit c = false) (rest : Bytes) :
    spanDigits (ds ++ c :: rest) = (ds, c :: rest) := by
  induction ds with
  | nil => simp [spanDigits, hc]
  | cons d t ih =>
    have hd := hds d (by simp)
    have ht := ih (fun x hx => hds x (by simp [hx]))
    simp [spanDigits, hd, ht]

theorem isBlank_iff (c : Byte) :
    isBlank c = true ↔ (c.val = 0x20 ∨ c.val = 0x09 ∨ c.val = 0x0D ∨ c.val = 0x0A) := by
  simp only [isBlank, Bool.or_eq_true, decide_eq_true_eq]
  omega

theorem isEnd_cases {c : Byte} (h : isEnd c) :
    c.val = 0x20 ∨ c.val = 0x09 ∨ c.val = 0x0D ∨ c.val = 0x0A ∨ c.val = 0x2C ∨ c.val = 0x5D ∨
      c.val = 0x7D := by
  rcases h with h | h
  · have := (isBlank_iff c).1 h
    omega
  · simp only [isDelim] at h
    omega

theorem isEnd_not_digit {c : Byte} (h : isEnd c) : isDigit c = false := by
  have := isEnd_cases h
  simp only [isDigit, Bool.and_eq_false_iff, decide_eq_false_iff_not]
  omega

theorem scanFrac_end (acc : Bytes) (c : Byte) (rest : Bytes) (h : isEnd c) :
    scanFrac acc (c :: rest) = some (acc, c :: rest) := by
  have := isEnd_cases h
  have h1 : ¬ c.val = 0x2E := by omega
  have h2 : ¬ (c.val = 0x65 ∨ c.val = 0x45) := by omega
  simp [scanFrac, scanExp, h1, h2]

theorem scanIntPart_numeral (acc ds : Bytes) (n : Nat) (hnum : IsNumeral ds n) (c : Byte)
    (rest : Bytes) (h : isEnd c) :
    scanIntPart acc (ds ++ c :: rest) = some (acc ++ ds, c :: rest) := by
  cases hds : ds with
  | nil => exact absurd hds hnum.nonempty
  | cons d t =>
    have hd : isDigit d = true := hnum.digits d (by rw [hds]; simp)
    simp only [isDigit, Bool.and_eq_true, decide_eq_true_eq] at hd
    by_cases h0 : d.val = 0x30
    · have hd0 : d = 0x30 := Fin.ext h0
      have ht : t = [] := hnum.canonical t (by rw [hds, hd0])
      subst ht
      simp [scanIntPart, h0, scanFrac_end _ c rest h]
    · have h19 : 0x31 ≤ d.val ∧ d.val ≤ 0x39 := by omega
      have hsp := spanDigits_numeral t
        (fun x hx => hnum.digits x (by rw [hds]; simp [hx])) c (isEnd_not_digit h) rest
      simp only [scanIntPart, List.cons_append, h0, if_false, h19, and_self, if_true, hsp,
        scanFrac_end _ c rest h]

/-- The scanner delimits the text of an integer, in front of a blank or a delimiter,
as one number. -/
theorem scanNumber_fmtInt (n : Int) (c : Byte) (rest : Bytes) (h : isEnd c) :
    scanNumber (fmtInt n ++ c :: rest) = some (fmtInt n, c :: rest) := by
  have hnum := fmtNat_isNumeral n.natAbs
  by_cases hneg : n < 0
  · simp only [fmtInt, if_pos hneg, List.cons_append, scanNumber]
    have : ((0x2D : Byte)).val = 0x2D := rfl
    simp only [this, if_true]
    rw [scanIntPart_numeral _ _ _ hnum c rest h]
    simp
  · simp only [fmtInt, if_neg hneg]
    cases hds : fmtNat n.natAbs with
    | nil => exact absurd hds hnum.nonempty
    | cons d t =>
      have hd : isDigit d = true := hnum.digits d (by rw [hds]; simp)
      simp only [isDigit, Bool.and_eq_true, decide_eq_true_eq] at hd
      have hd1 : ¬ d.val = 0x2D := by omega
      have := scanIntPart_numeral [] _ _ hnum c rest h
      rw [hds] at this
      simp only [List.cons_append, scanNumber, hd1, if_false]
      simpa using this

theorem fmtInt_head (n : Int) : ∃ d t, fmtInt n = d :: t ∧ (d.val = 0x2D ∨ (0x30 ≤ d.val ∧ d.val ≤ 0x39)) := by
  have hnum := fmtNat_isNumeral n.natAbs
  by_cases hneg : n < 0
  · exact ⟨0x2D, fmtNat n.natAbs, by simp [fmtInt, hneg], Or.inl rfl⟩
  · cases hds : fmtNat n.natAbs with
    | nil => exact absurd hds hnum.nonempty
    | cons d t =>
      have hd : isDigit d = true := hnum.digits d (by rw [hds]; simp)
      simp only [isDigit, Bool.and_eq_true, decide_eq_true_eq] at hd
      exact ⟨d, t, by simp [fmtInt, hneg, hds], Or.inr hd⟩

/-- The text of an integer is read as a number literal at any depth. -/
theorem reads_intOf (depth : Nat) (n : Int) :
    ReadsInside (parseValue depth) (IntOf n) (.num (fmtInt n)) := by
  intro x hx c rest h
  have hx2 : x = fmtInt n := hx
  subst hx2
  have hscan := scanNumber_fmtInt n c rest h
  obtain ⟨d, t, hdt, hd⟩ := fmtInt_head n
  rw [hdt] at hscan ⊢
  have hsp : skipSpace (d :: t ++ c :: rest) = d :: (t ++ c :: rest) := by
    have : ¬ (d.val = 0x20 ∨ d.val = 0x09 ∨ d.val = 0x0D ∨ d.val = 0x0A) := by omega
    simp [skipSpace, this]
  have e1 : ¬ d.val = 0x5B := by omega
  have e2 : ¬ d.val = 0x7B := by omega
  have e3 : ¬ d.val = 0x22 := by omega
  have e4 : ¬ d.val = 0x74 := by omega
  have e5 : ¬ d.val = 0x66 := by omega
  have e6 : ¬ d.val = 0x6E := by omega
  unfold parseValue
  simp only [hsp, e1, e2, e3, e4, e5, e6, if_false]
  simp only [List.cons_append] at hscan
  rw [hscan]


/-! ## `unicode/utf8`: what `DecodeRune` accepts, `EncodeRune` writes back -/

theorem fin_ofNat_eq (b : Byte) (n : Nat) (h : n = b.val) : (Fin.ofNat n : Byte) = b := by
  apply Fin.ext
  simp only [Fin.ofNat]
  have := b.isLt
  omega

theorem secondOk_three (b0 b1 : Byte) (h3 : 0xE0 ≤ b0.val ∧ b0.val ≤ 0xEF)
    (hs : secondOk b0 b1 = true) :
    0x80 ≤ b1.val ∧ b1.val ≤ 0xBF ∧ (b0.val = 0xE0 → 0xA0 ≤ b1.val) ∧
      (b0.val = 0xED → b1.val ≤ 0x9F) := by
  simp only [secondOk, isCont] at hs
  by_cases e0 : b0.val = 0xE0
  · simp only [e0, if_true, Bool.and_eq_true, decide_eq_true_eq] at hs
    omega
  · by_cases ed : b0.val = 0xED
    · simp only [ed, if_true, Bool.and_eq_true, decide_eq_true_eq] at hs
      simp at hs
      omega
    · have f0 : ¬ b0.val = 0xF0 := by omega
      have f4 : ¬ b0.val = 0xF4 := by omega
      simp only [e0, ed, f0, f4, if_false, Bool.and_eq_true, decide_eq_true_eq] at hs
      omega

theorem secondOk_four (b0 b1 : Byte) (h4 : 0xF0 ≤ b0.val ∧ b0.val ≤ 0xF4)
    (hs : secondOk b0 b1 = true) :
    0x80 ≤ b1.val ∧ b1.val ≤ 0xBF ∧ (b0.val = 0xF0 → 0x90 ≤ b1.val) ∧
      (b0.val = 0xF4 → b1.val ≤ 0x8F) := by
  simp only [secondOk, isCont] at hs
  have e0 : ¬ b0.val = 0xE0 := by omega
  have ed : ¬ b0.val = 0xED := by omega
  by_cases f0 : b0.val = 0xF0
  · simp only [f0, if_true, Bool.and_eq_true, decide_eq_true_eq] at hs
    simp at hs
    omega
  · by_cases f4 : b0.val = 0xF4
    · simp only [f4, if_true, Bool.and_eq_true, decide_eq_true_eq] at hs
      simp at hs
      omega
    · simp only [e0, ed, f0, f4, if_false, Bool.and_eq_true, decide_eq_true_eq] at hs
      omega

theorem isCont_iff (b : Byte) : isCont b = true ↔ 0x80 ≤ b.val ∧ b.val ≤ 0xBF := by
  simp [isCont]

/-- At a byte that is not ASCII, `utf8.DecodeRune` either reports an invalid encoding
of width 1, or the input starts with the whole encoding of the rune it returns. -/
theorem decodeRune_cases (b0 : Byte) (t : Bytes) (hb : ¬ b0.val < 0x80) :
    decodeRune (b0 :: t) = (runeError, 1) ∨
      ∃ chunk rest, b0 :: t = chunk ++ rest ∧ IsRune chunk (decodeRune (b0 :: t)).1 ∧
        (decodeRune (b0 :: t)).2 = chunk.length := by
  have hb0 := b0.isLt
  by_cases h2 : 0xC2 ≤ b0.val ∧ b0.val ≤ 0xDF
  · cases t with
    | nil => left; simp [decodeRune, hb, h2]
    | cons b1 t1 =>
      by_cases hc1 : isCont b1 = true
      · right
        have hval : decodeRune (b0 :: b1 :: t1) = ((b0.val % 32) * 64 + b1.val % 64, 2) := by
          simp [decodeRune, hb, h2, hc1]
        refine ⟨[b0, b1], t1, rfl, ?_, by rw [hval]; rfl⟩
        rw [hval]
        simp only [isCont, Bool.and_eq_true, decide_eq_true_eq] at hc1
        refine ⟨by simp, ?_, ?_, ?_⟩
        · intro c hc
          simp only [List.mem_cons, List.mem_singleton, List.not_mem_nil, or_false] at hc
          rcases hc with rfl | rfl <;> omega
        · intro x
          have hc1' : isCont b1 = true := by
            simp only [isCont, Bool.and_eq_true, decide_eq_true_eq]; exact hc1
          simp [decodeRune, hb, h2, hc1']
        · have e1 : ¬ ((b0.val % 32) * 64 + b1.val % 64 < 0x80) := by omega
          have e2 : (b0.val % 32) * 64 + b1.val % 64 < 0x800 := by omega
          simp only [encodeRune, e1, e2, if_false, if_true]
          rw [fin_ofNat_eq b0 _ (by omega), fin_ofNat_eq b1 _ (by omega)]
      · left
        simp [decodeRune, hb, h2, hc1]
  · by_cases h3 : 0xE0 ≤ b0.val ∧ b0.val ≤ 0xEF
    · cases t with
      | nil => left; simp [decodeRune, hb, h2, h3]
      | cons b1 t1 =>
        cases t1 with
        | nil => left; simp [decodeRune, hb, h2, h3]
        | cons b2 t2 =>
          by_cases hok : (secondOk b0 b1 && isCont b2) = true
          · right
            have hval : decodeRune (b0 :: b1 :: b2 :: t2) =
                ((b0.val % 16) * 4096 + (b1.val % 64) * 64 + b2.val % 64, 3) := by
              simp only [decodeRune, hb, h2, h3, hok, if_false, if_true, and_self]
            refine ⟨[b0, b1, b2], t2, rfl, ?_, by rw [hval]; rfl⟩
            rw [hval]
            have hok' := hok
            simp only [Bool.and_eq_true] at hok'
            have hs := secondOk_three b0 b1 h3 hok'.1
            have hc2 := (isCont_iff b2).1 hok'.2
            have hb1 := b1.isLt
            have hb2 := b2.isLt
            refine ⟨by simp, ?_, ?_, ?_⟩
            · intro c hc
              simp only [List.mem_cons, List.mem_singleton, List.not_mem_nil, or_false] at hc
              rcases hc with rfl | rfl | rfl <;> omega
            · intro x
              simp only [List.cons_append, List.nil_append, decodeRune, hb, h2, h3, hok,
                if_false, if_true, and_self, List.length_cons, List.length_nil]
            · have e1 : ¬ ((b0.val % 16) * 4096 + (b1.val % 64) * 64 + b2.val % 64 < 0x80) := by
                omega
              have e2 : ¬ ((b0.val % 16) * 4096 + (b1.val % 64) * 64 + b2.val % 64 < 0x800) := by
                omega
              have e3 : ¬ (0x10FFFF < (b0.val % 16) * 4096 + (b1.val % 64) * 64 + b2.val % 64 ∨
                  (0xD800 ≤ (b0.val % 16) * 4096 + (b1.val % 64) * 64 + b2.val % 64 ∧
                    (b0.val % 16) * 4096 + (b1.val % 64) * 64 + b2.val % 64 ≤ 0xDFFF)) := by
                omega
              have e4 : (b0.val % 16) * 4096 + (b1.val % 64) * 64 + b2.val % 64 < 0x10000 := by
                omega
              simp only [encodeRune, e1, e2, e3, e4, if_false, if_true]
              rw [fin_ofNat_eq b0 _ (by omega), fin_ofNat_eq b1 _ (by omega),
                fin_ofNat_eq b2 _ (by omega)]
          · left
            simp [decodeRune, hb, h2, h3, hok]
    · by_cases h4 : 0xF0 ≤ b0.val ∧ b0.val ≤ 0xF4
      · cases t with
        | nil => left; simp [decodeRune, hb, h2, h3, h4]
        | cons b1 t1 =>
          cases t1 with
          | nil => left; simp [decodeRune, hb, h2, h3, h4]
          | cons b2 t2 =>
            cases t2 with
            | nil => left; simp [decodeRune, hb, h2, h3, h4]
            | cons b3 t3 =>
              by_cases hok : (secondOk b0 b1 && isCont b2 && isCont b3) = true
              · right
                have hval : decodeRune (b0 :: b1 :: b2 :: b3 :: t3) =
                    ((b0.val % 8) * 262144 + (b1.val % 64) * 4096 + (b2.val % 64) * 64 +
                      b3.val % 64, 4) := by
                  simp only [decodeRune, hb, h2, h3, h4, hok, if_false, if_true, and_self]
                refine ⟨[b0, b1, b2, b3], t3, rfl, ?_, by rw [hval]; rfl⟩
                rw [hval]
                have hok' := hok
                simp only [Bool.and_eq_true] at hok'
                have hs := secondOk_four b0 b1 h4 hok'.1.1
                have hc2 := (isCont_iff b2).1 hok'.1.2
                have hc3 := (isCont_iff b3).1 hok'.2
                have hb1 := b1.isLt
                have hb2 := b2.isLt
                have hb3 := b3.isLt
                refine ⟨by simp, ?_, ?_, ?_⟩
                · intro c hc
                  simp only [List.mem_cons, List.mem_singleton, List.not_mem_nil, or_false] at hc
                  rcases hc with rfl | rfl | rfl | rfl <;> omega
                · intro x
                  simp only [List.cons_append, List.nil_append, decodeRune, hb, h2, h3, h4, hok,
                    if_false, if_true, and_self, List.length_cons, List.length_nil]
                · have e1 : ¬ ((b0.val % 8) * 262144 + (b1.val % 64) * 4096 +
                      (b2.val % 64) * 64 + b3.val % 64 < 0x80) := by omega
                  have e2 : ¬ ((b0.val % 8) * 262144 + (b1.val % 64) * 4096 +
                      (b2.val % 64) * 64 + b3.val % 64 < 0x800) := by omega
                  have e3 : ¬ (0x10FFFF < (b0.val % 8) * 262144 + (b1.val % 64) * 4096 +
                      (b2.val % 64) * 64 + b3.val % 64 ∨
                      (0xD800 ≤ (b0.val % 8) * 262144 + (b1.val % 64) * 4096 +
                        (b2.val % 64) * 64 + b3.val % 64 ∧
                        (b0.val % 8) * 262144 + (b1.val % 64) * 4096 +
                          (b2.val % 64) * 64 + b3.val % 64 ≤ 0xDFFF)) := by omega
                  have e4 : ¬ ((b0.val % 8) * 262144 + (b1.val % 64) * 4096 +
                      (b2.val % 64) * 64 + b3.val % 64 < 0x10000) := by omega
                  simp only [encodeRune, e1, e2, e3, e4, if_false, if_true]
                  rw [fin_ofNat_eq b0 _ (by omega), fin_ofNat_eq b1 _ (by omega),
                    fin_ofNat_eq b2 _ (by omega), fin_ofNat_eq b3 _ (by omega)]
              · left
                simp [decodeRune, hb, h2, h3, h4, hok]
      · left
        simp [decodeRune, hb, h2, h3, h4]
/-! ## The loops that read byte by byte: passing over `skip` bytes is dropping them -/

theorem appendStringAux_skip (k : Nat) : ∀ s : Bytes,
    appendStringAux k s = appendStringAux 0 (s.drop k) := by
  induction k with
  | zero => intro s; simp
  | succ k ih =>
    intro s
    cases s with
    | nil => simp [appendStringAux]
    | cons b t => simp only [appendStringAux, List.drop_succ_cons]; exact ih t

theorem unquoteAux_skip (k : Nat) : ∀ s : Bytes,
    unquoteAux k s = unquoteAux 0 (s.drop k) := by
  induction k with
  | zero => intro s; simp
  | succ k ih =>
    intro s
    cases s with
    | nil => simp [unquoteAux]
    | cons b t => simp only [unquoteAux, List.drop_succ_cons]; exact ih t

theorem coerceUTF8Aux_skip (k : Nat) : ∀ s : Bytes,
    coerceUTF8Aux k s = coerceUTF8Aux 0 (s.drop k) := by
  induction k with
  | zero => intro s; simp
  | succ k ih =>
    intro s
    cases s with
    | nil => simp [coerceUTF8Aux]
    | cons b t => simp only [coerceUTF8Aux, List.drop_succ_cons]; exact ih t

theorem validUTF8Aux_skip (k : Nat) : ∀ s : Bytes,
    validUTF8Aux k s = validUTF8Aux 0 (s.drop k) := by
  induction k with
  | zero => intro s; simp
  | succ k ih =>
    intro s
    cases s with
    | nil => simp [validUTF8Aux]
    | cons b t => simp only [validUTF8Aux, List.drop_succ_cons]; exact ih t

/-- The first byte of an encoded rune and the bytes after it. -/
theorem IsRune.split {chunk : Bytes} {r : Nat} (h : IsRune chunk r) :
    ∃ c0 more, chunk = c0 :: more ∧ ¬ c0.val < 0x80 ∧ chunk.length - 1 = more.length ∧
      chunk.length ≠ 1 := by
  cases hc : chunk with
  | nil => have := h.long; rw [hc] at this; simp at this
  | cons c0 more =>
    refine ⟨c0, more, rfl, ?_, by simp, ?_⟩
    · have := h.high c0 (by rw [hc]; simp)
      omega
    · have := h.long; rw [hc] at this; simp only [List.length_cons] at this ⊢; omega

/-- Induction over a byte string rune by rune, the way the loops of `encoding/json`
walk it: an ASCII byte, a byte that starts no valid encoding, or a whole encoded rune. -/
theorem bytes_induction {P : Bytes → Prop} (hnil : P [])
    (hascii : ∀ b t, b.val < 0x80 → P t → P (b :: t))
    (hbad : ∀ b t, ¬ b.val < 0x80 → decodeRune (b :: t) = (runeError, 1) → P t → P (b :: t))
    (hrune : ∀ chunk rest r, IsRune chunk r → P rest → P (chunk ++ rest)) :
    ∀ s, P s := by
  suffices h : ∀ n, ∀ s : Bytes, s.length = n → P s from fun s => h s.length s rfl
  intro n
  induction n using Nat.strong_induction_on with
  | _ n ih =>
    intro s hn
    cases s with
    | nil => exact hnil
    | cons b t =>
      by_cases hb : b.val < 0x80
      · exact hascii b t hb (ih t.length (by rw [← hn]; simp) t rfl)
      · rcases decodeRune_cases b t hb with hbad' | ⟨chunk, rest, hsplit, hrn, _⟩
        · exact hbad b t hb hbad' (ih t.length (by rw [← hn]; simp) t rfl)
        · rw [hsplit]
          refine hrune chunk rest _ hrn (ih rest.length ?_ rest rfl)
          have h1 := hrn.long
          have h2 : (b :: t).length = chunk.length + rest.length := by
            rw [hsplit]; simp
          omega

/-! ## String literals: what `appendString` writes, the scanner delimits and
`unquoteBytes` reads back -/

theorem scan_inString_cons (c : Byte) (t : Bytes) :
    scanStringAux .inString (c :: t) =
      if c.val = 0x22 then some ([], t)
      else if c.val = 0x5C then (scanStringAux .esc t).map (fun p => (c :: p.1, p.2))
      else if c.val < 0x20 then none
      else (scanStringAux .inString t).map (fun p => (c :: p.1, p.2)) := by
  rw [scanStringAux]

theorem scan_esc_cons (c : Byte) (t : Bytes) :
    scanStringAux .esc (c :: t) =
      if c.val = 0x62 ∨ c.val = 0x66 ∨ c.val = 0x6E ∨ c.val = 0x72 ∨ c.val = 0x74 ∨
          c.val = 0x5C ∨ c.val = 0x2F ∨ c.val = 0x22 then
        (scanStringAux .inString t).map (fun p => (c :: p.1, p.2))
      else if c.val = 0x75 then (scanStringAux (.escU 0) t).map (fun p => (c :: p.1, p.2))
      else none := by
  rw [scanStringAux]

theorem scan_escU_cons (seen : Nat) (c : Byte) (t : Bytes) :
    scanStringAux (.escU seen) (c :: t) =
      if isHex c then
        (scanStringAux (if seen < 3 then .escU (seen + 1) else .inString) t).map
          (fun p => (c :: p.1, p.2))
      else none := by
  rw [scanStringAux]

theorem scan_plain (xs : Bytes)
    (h : ∀ c ∈ xs, ¬ c.val = 0x22 ∧ ¬ c.val = 0x5C ∧ ¬ c.val < 0x20) (y : Bytes) :
    scanStringAux .inString (xs ++ y) =
      (scanStringAux .inString y).map (fun p => (xs ++ p.1, p.2)) := by
  induction xs with
  | nil => simp
  | cons c t ih =>
    have hc := h c (by simp)
    have ht := ih (fun x hx => h x (by simp [hx]))
    rw [List.cons_append, scan_inString_cons, if_neg hc.1, if_neg hc.2.1, if_neg hc.2.2, ht,
      Option.map_map]
    rfl

theorem scan_escape (e : Byte)
    (he : e.val = 0x62 ∨ e.val = 0x66 ∨ e.val = 0x6E ∨ e.val = 0x72 ∨ e.val = 0x74 ∨
      e.val = 0x5C ∨ e.val = 0x2F ∨ e.val = 0x22) (y : Bytes) :
    scanStringAux .inString (0x5C :: e :: y) =
      (scanStringAux .inString y).map (fun p => (0x5C :: e :: p.1, p.2)) := by
  rw [scan_inString_cons, if_neg (by decide), if_pos (by decide), scan_esc_cons, if_pos he,
    Option.map_map]
  rfl

theorem scan_escapeU (a b c d : Byte) (ha : isHex a = true) (hb : isHex b = true)
    (hc : isHex c = true) (hd : isHex d = true) (y : Bytes) :
    scanStringAux .inString (0x5C :: 0x75 :: a :: b :: c :: d :: y) =
      (scanStringAux .inString y).map
        (fun p => (0x5C :: 0x75 :: a :: b :: c :: d :: p.1, p.2)) := by
  rw [scan_inString_cons, if_neg (by decide), if_pos (by decide), scan_esc_cons,
    if_neg (by decide), if_pos (by decide), scan_escU_cons, if_pos ha, if_pos (by decide),
    scan_escU_cons, if_pos hb, if_pos (by decide), scan_escU_cons, if_pos hc,
    if_pos (by decide), scan_escU_cons, if_pos hd, if_neg (by decide)]
  simp only [Option.map_map]
  rfl

theorem isHex_hexDigit (n : Nat) : isHex (hexDigit n) = true := by
  have h := Nat.mod_lt n (show 16 > 0 by decide)
  by_cases h10 : n % 16 < 10
  · have hv : (hexDigit n).val = 48 + n % 16 := by
      simp only [hexDigit, h10, if_true, Fin.ofNat]; omega
    simp only [isHex, hv, Bool.or_eq_true, Bool.and_eq_true, decide_eq_true_eq]
    omega
  · have hv : (hexDigit n).val = 87 + n % 16 := by
      simp only [hexDigit, h10, if_false, Fin.ofNat]; omega
    simp only [isHex, hv, Bool.or_eq_true, Bool.and_eq_true, decide_eq_true_eq]
    omega

theorem hexVal_hexDigit (n : Nat) : hexVal (hexDigit n) = some (n % 16) := by
  have h := Nat.mod_lt n (show 16 > 0 by decide)
  by_cases h10 : n % 16 < 10
  · have hv : (hexDigit n).val = 48 + n % 16 := by
      simp only [hexDigit, h10, if_true, Fin.ofNat]; omega
    have c1 : 0x30 ≤ 48 + n % 16 ∧ 48 + n % 16 ≤ 0x39 := by omega
    simp only [hexVal, hv, c1, and_self, if_true, Option.some.injEq]
    omega
  · have hv : (hexDigit n).val = 87 + n % 16 := by
      simp only [hexDigit, h10, if_false, Fin.ofNat]; omega
    have c1 : ¬ (0x30 ≤ 87 + n % 16 ∧ 87 + n % 16 ≤ 0x39) := by omega
    have c2 : 0x61 ≤ 87 + n % 16 ∧ 87 + n % 16 ≤ 0x66 := by omega
    simp only [hexVal, hv, c1, c2, and_self, if_true, if_false, Option.some.injEq]
    omega

theorem unquote_plain (c : Byte)
    (hc : ¬ c.val = 0x5C ∧ ¬ c.val = 0x22 ∧ ¬ c.val < 0x20 ∧ c.val < 0x80) (y : Bytes) :
    unquoteAux 0 (c :: y) = (unquoteAux 0 y).map (fun r => c :: r) := by
  have h : ¬ (c.val = 0x22 ∨ c.val < 0x20) := by omega
  simp only [unquoteAux, hc.1, h, hc.2.2.2, if_false, if_true]

theorem unquote_escapeU (a b c d : Byte) (va vb vc vd : Nat) (ha : hexVal a = some va)
    (hb : hexVal b = some vb) (hc : hexVal c = some vc) (hd : hexVal d = some vd)
    (hns : isSurrogate (((va * 16 + vb) * 16 + vc) * 16 + vd) = false) (y : Bytes) :
    unquoteAux 0 (0x5C :: 0x75 :: a :: b :: c :: d :: y) =
      (unquoteAux 0 y).map (fun r => encodeRune (((va * 16 + vb) * 16 + vc) * 16 + vd) ++ r) := by
  have h2 : (0x5C : Byte).val = 0x5C := by decide
  have h3 : ¬ ((0x75 : Byte).val = 0x22 ∨ (0x75 : Byte).val = 0x5C ∨ (0x75 : Byte).val = 0x2F ∨
      (0x75 : Byte).val = 0x27) := by decide
  have h4 : (0x75 : Byte).val = 0x75 := by decide
  have h5 : ¬ (0x75 : Byte).val = 0x62 := by decide
  have h6 : ¬ (0x75 : Byte).val = 0x66 := by decide
  have h7 : ¬ (0x75 : Byte).val = 0x6E := by decide
  have h8 : ¬ (0x75 : Byte).val = 0x72 := by decide
  have h9 : ¬ (0x75 : Byte).val = 0x74 := by decide
  have hg : getu4 (0x5C :: 0x75 :: a :: b :: c :: d :: y) =
      some (((va * 16 + vb) * 16 + vc) * 16 + vd) := by
    simp only [getu4, h2, h4, and_self, if_true, ha, hb, hc, hd]
  rw [unquoteAux]
  simp only [h2, h3, h4, h5, h6, h7, h8, h9, if_true, if_false, hg, hns]
  rw [unquoteAux_skip 5]
  simp
theorem unquote_backslash (e : Byte) (y : Bytes) :
    unquoteAux 0 (0x5C :: e :: y) =
      if e.val = 0x22 ∨ e.val = 0x5C ∨ e.val = 0x2F ∨ e.val = 0x27 then
        (unquoteAux 1 (e :: y)).map (fun r => e :: r)
      else if e.val = 0x62 then (unquoteAux 1 (e :: y)).map (fun r => 0x08 :: r)
      else if e.val = 0x66 then (unquoteAux 1 (e :: y)).map (fun r => 0x0C :: r)
      else if e.val = 0x6E then (unquoteAux 1 (e :: y)).map (fun r => 0x0A :: r)
      else if e.val = 0x72 then (unquoteAux 1 (e :: y)).map (fun r => 0x0D :: r)
      else if e.val = 0x74 then (unquoteAux 1 (e :: y)).map (fun r => 0x09 :: r)
      else if e.val = 0x75 then
        match getu4 (0x5C :: e :: y) with
        | none => none
        | some rr =>
          if isSurrogate rr then
            match utf16Decode rr (getu4 ((e :: y).drop 5)) with
            | some dec => (unquoteAux 11 (e :: y)).map (fun r => encodeRune dec ++ r)
            | none => (unquoteAux 5 (e :: y)).map (fun r => encodeRune runeError ++ r)
          else (unquoteAux 5 (e :: y)).map (fun r => encodeRune rr ++ r)
      else none := by
  rfl

theorem unquote_escape_same (e : Byte) (he : e.val = 0x22 ∨ e.val = 0x5C) (y : Bytes) :
    unquoteAux 0 (0x5C :: e :: y) = (unquoteAux 0 y).map (fun r => e :: r) := by
  have h3 : e.val = 0x22 ∨ e.val = 0x5C ∨ e.val = 0x2F ∨ e.val = 0x27 := by omega
  rw [unquote_backslash, if_pos h3, unquoteAux_skip 1]
  simp

theorem unquote_escape_n (y : Bytes) :
    unquoteAux 0 (0x5C :: 0x6E :: y) = (unquoteAux 0 y).map (fun r => 0x0A :: r) := by
  rw [unquote_backslash, if_neg (by decide), if_neg (by decide), if_neg (by decide),
    if_pos (by decide), unquoteAux_skip 1]
  simp

theorem unquote_escape_r (y : Bytes) :
    unquoteAux 0 (0x5C :: 0x72 :: y) = (unquoteAux 0 y).map (fun r => 0x0D :: r) := by
  rw [unquote_backslash, if_neg (by decide), if_neg (by decide), if_neg (by decide),
    if_neg (by decide), if_pos (by decide), unquoteAux_skip 1]
  simp

theorem unquote_escape_t (y : Bytes) :
    unquoteAux 0 (0x5C :: 0x74 :: y) = (unquoteAux 0 y).map (fun r => 0x09 :: r) := by
  rw [unquote_backslash, if_neg (by decide), if_neg (by decide), if_neg (by decide),
    if_neg (by decide), if_neg (by decide), if_pos (by decide), unquoteAux_skip 1]
  simp

theorem unquote_other (c : Byte) (t : Bytes) (h : ¬ c.val = 0x5C) :
    unquoteAux 0 (c :: t) =
      if c.val = 0x22 ∨ c.val < 0x20 then none
      else if c.val < 0x80 then (unquoteAux 0 t).map (fun r => c :: r)
      else
        (unquoteAux ((decodeRune (c :: t)).2 - 1) t).map
          (fun r => encodeRune (decodeRune (c :: t)).1 ++ r) := by
  simp only [unquoteAux, h, if_false]

theorem unquote_rune (chunk : Bytes) (r : Nat) (h : IsRune chunk r) (y : Bytes) :
    unquoteAux 0 (chunk ++ y) = (unquoteAux 0 y).map (fun out => chunk ++ out) := by
  obtain ⟨c0, more, hsplit, hc0, hlen, _⟩ := h.split
  have hdec := h.decode y
  have henc := h.encode
  rw [hsplit] at hdec henc ⊢
  rw [List.cons_append] at hdec ⊢
  have e1 : ¬ c0.val = 0x5C := by omega
  have e2 : ¬ (c0.val = 0x22 ∨ c0.val < 0x20) := by omega
  rw [unquote_other c0 _ e1, if_neg e2, if_neg hc0, hdec, henc, unquoteAux_skip]
  simp only [List.length_cons, Nat.add_sub_cancel, List.drop_left]

/-- The scanner passes over the escape that `appendString` writes for an ASCII byte. -/
theorem scan_escapeAscii (b : Byte) (y : Bytes) :
    scanStringAux .inString (escapeAscii b ++ y) =
      (scanStringAux .inString y).map (fun p => (escapeAscii b ++ p.1, p.2)) := by
  unfold escapeAscii
  by_cases h1 : b.val = 0x5C ∨ b.val = 0x22
  · rw [if_pos h1]
    exact scan_escape b (by omega) y
  · rw [if_neg h1]
    by_cases h2 : b.val = 0x0A
    · rw [if_pos h2]; exact scan_escape 0x6E (by decide) y
    · rw [if_neg h2]
      by_cases h3 : b.val = 0x0D
      · rw [if_pos h3]; exact scan_escape 0x72 (by decide) y
      · rw [if_neg h3]
        by_cases h4 : b.val = 0x09
        · rw [if_pos h4]; exact scan_escape 0x74 (by decide) y
        · rw [if_neg h4]
          exact scan_escapeU 0x30 0x30 _ _ (by decide) (by decide) (isHex_hexDigit _)
            (isHex_hexDigit _) y

/-- The function `unquoteBytes` reads the escape of an ASCII byte back as that byte. -/
theorem unquote_escapeAscii (b : Byte) (hb : b.val < 0x80) (y : Bytes) :
    unquoteAux 0 (escapeAscii b ++ y) = (unquoteAux 0 y).map (fun r => b :: r) := by
  unfold escapeAscii
  by_cases h1 : b.val = 0x5C ∨ b.val = 0x22
  · rw [if_pos h1]
    exact unquote_escape_same b (by omega) y
  · rw [if_neg h1]
    by_cases h2 : b.val = 0x0A
    · rw [if_pos h2]
      have : b = 0x0A := Fin.ext h2
      rw [this]; exact unquote_escape_n y
    · rw [if_neg h2]
      by_cases h3 : b.val = 0x0D
      · rw [if_pos h3]
        have : b = 0x0D := Fin.ext h3
        rw [this]; exact unquote_escape_r y
      · rw [if_neg h3]
        by_cases h4 : b.val = 0x09
        · rw [if_pos h4]
          have : b = 0x09 := Fin.ext h4
          rw [this]; exact unquote_escape_t y
        · rw [if_neg h4]
          have hu := unquote_escapeU 0x30 0x30 (hexDigit (b.val / 16)) (hexDigit (b.val % 16))
            0 0 (b.val / 16 % 16) (b.val % 16 % 16) (by decide) (by decide)
            (hexVal_hexDigit _) (hexVal_hexDigit _)
          have hv : ((0 * 16 + 0) * 16 + b.val / 16 % 16) * 16 + b.val % 16 % 16 = b.val := by
            omega
          rw [hv] at hu
          have hs : isSurrogate b.val = false := by
            simp only [isSurrogate, Bool.and_eq_false_iff, decide_eq_false_iff_not]
            omega
          have he : encodeRune b.val = [b] := by
            simp only [encodeRune, hb, if_true]
            rw [fin_ofNat_eq b _ rfl]
          rw [he] at hu
          exact hu hs y
theorem appendStringAux_ascii (b : Byte) (t : Bytes) (hb : b.val < 0x80) :
    appendStringAux 0 (b :: t) =
      (if htmlSafe b then [b] else escapeAscii b) ++ appendStringAux 0 t := by
  simp only [appendStringAux, hb, if_true]

theorem appendStringAux_bad (b : Byte) (t : Bytes) (hb : ¬ b.val < 0x80)
    (hbad : decodeRune (b :: t) = (runeError, 1)) :
    appendStringAux 0 (b :: t) =
      [0x5C, 0x75, 0x66, 0x66, 0x66, 0x64] ++ appendStringAux 0 t := by
  simp only [appendStringAux, hb, if_false, hbad, and_self, if_true]

theorem appendStringAux_rune (chunk rest : Bytes) (r : Nat) (h : IsRune chunk r) :
    appendStringAux 0 (chunk ++ rest) =
      (if r = 0x2028 ∨ r = 0x2029 then [0x5C, 0x75, 0x32, 0x30, 0x32, hexDigit (r % 16)]
        else chunk) ++ appendStringAux 0 rest := by
  obtain ⟨c0, more, hsplit, hc0, hlen, hne⟩ := h.split
  have hdec := h.decode rest
  rw [hsplit] at hdec hlen hne ⊢
  rw [List.cons_append] at hdec ⊢
  have hnb : ¬ (r = runeError ∧ (c0 :: more).length = 1) := fun hh => hne hh.2
  simp only [appendStringAux, hc0, if_false, hdec, hnb]
  rw [appendStringAux_skip]
  have hd : List.drop ((c0 :: more).length - 1) (more ++ rest) = rest := by
    simp only [List.length_cons, Nat.add_sub_cancel, List.drop_left]
  have ht : List.take (c0 :: more).length (c0 :: (more ++ rest)) = c0 :: more := by
    rw [← List.cons_append]; exact List.take_left _ _
  rw [hd, ht]
  split <;> rfl

theorem coerceUTF8Aux_ascii (b : Byte) (t : Bytes) (hb : b.val < 0x80) :
    coerceUTF8Aux 0 (b :: t) = b :: coerceUTF8Aux 0 t := by
  simp only [coerceUTF8Aux, hb, if_true]

theorem coerceUTF8Aux_bad (b : Byte) (t : Bytes) (hb : ¬ b.val < 0x80)
    (hbad : decodeRune (b :: t) = (runeError, 1)) :
    coerceUTF8Aux 0 (b :: t) = 0xEF :: 0xBF :: 0xBD :: coerceUTF8Aux 0 t := by
  simp only [coerceUTF8Aux, hb, if_false, hbad, if_true]

theorem coerceUTF8Aux_rune (chunk rest : Bytes) (r : Nat) (h : IsRune chunk r) :
    coerceUTF8Aux 0 (chunk ++ rest) = chunk ++ coerceUTF8Aux 0 rest := by
  obtain ⟨c0, more, hsplit, hc0, hlen, hne⟩ := h.split
  have hdec := h.decode rest
  rw [hsplit] at hdec hlen hne ⊢
  rw [List.cons_append] at hdec ⊢
  simp only [coerceUTF8Aux, hc0, if_false, hdec, hne]
  rw [coerceUTF8Aux_skip]
  have hd : List.drop ((c0 :: more).length - 1) (more ++ rest) = rest := by
    simp only [List.length_cons, Nat.add_sub_cancel, List.drop_left]
  have ht : List.take (c0 :: more).length (c0 :: (more ++ rest)) = c0 :: more := by
    rw [← List.cons_append]; exact List.take_left _ _
  rw [hd, ht]

theorem htmlSafe_plain (b : Byte) (h : htmlSafe b = true) :
    ¬ b.val = 0x22 ∧ ¬ b.val = 0x5C ∧ ¬ b.val < 0x20 ∧ b.val < 0x80 := by
  simp only [htmlSafe, Bool.and_eq_true, decide_eq_true_eq, Bool.not_eq_true',
    Bool.or_eq_false_iff, decide_eq_false_iff_not] at h
  omega

/-- The scanner passes over everything `appendString` writes between the quotes. -/
theorem scan_appendStringAux : ∀ (s y : Bytes),
    scanStringAux .inString (appendStringAux 0 s ++ y) =
      (scanStringAux .inString y).map (fun p => (appendStringAux 0 s ++ p.1, p.2)) := by
  intro s
  induction s using bytes_induction with
  | hnil => intro y; simp [appendStringAux]
  | hascii b t hb ih =>
    intro y
    rw [appendStringAux_ascii b t hb, List.append_assoc]
    by_cases hs : htmlSafe b = true
    · have hp := htmlSafe_plain b hs
      rw [if_pos hs, scan_plain [b] (by intro c hc; simp only [List.mem_singleton] at hc; rw [hc]; exact ⟨hp.1, hp.2.1, hp.2.2.1⟩), ih,
        Option.map_map]
      simp [Function.comp_def]
    · rw [if_neg hs, scan_escapeAscii, ih, Option.map_map]
      simp [Function.comp_def]
  | hbad b t hb hbad ih =>
    intro y
    rw [appendStringAux_bad b t hb hbad, List.append_assoc]
    have := scan_escapeU 0x66 0x66 0x66 0x64 (by decide) (by decide) (by decide) (by decide)
      (appendStringAux 0 t ++ y)
    simp only [List.cons_append, List.nil_append] at this ⊢
    rw [this, ih, Option.map_map]
    simp [Function.comp_def]
  | hrune chunk rest r hr ih =>
    intro y
    rw [appendStringAux_rune chunk rest r hr, List.append_assoc]
    by_cases hsep : r = 0x2028 ∨ r = 0x2029
    · rw [if_pos hsep]
      have := scan_escapeU 0x32 0x30 0x32 (hexDigit (r % 16)) (by decide) (by decide)
        (by decide) (isHex_hexDigit _) (appendStringAux 0 rest ++ y)
      simp only [List.cons_append, List.nil_append] at this ⊢
      rw [this, ih, Option.map_map]
      simp [Function.comp_def]
    · rw [if_neg hsep, scan_plain chunk (fun c hc => by have := hr.high c hc; omega), ih,
        Option.map_map]
      simp [Function.comp_def]

/-- The function `unquoteBytes` reads what `appendString` writes between the quotes
back as the string, made valid UTF-8. -/
theorem unquote_appendStringAux : ∀ (s y : Bytes),
    unquoteAux 0 (appendStringAux 0 s ++ y) =
      (unquoteAux 0 y).map (fun out => coerceUTF8Aux 0 s ++ out) := by
  intro s
  induction s using bytes_induction with
  | hnil => intro y; simp [appendStringAux, coerceUTF8Aux]
  | hascii b t hb ih =>
    intro y
    rw [appendStringAux_ascii b t hb, coerceUTF8Aux_ascii b t hb, List.append_assoc]
    by_cases hs : htmlSafe b = true
    · have hp := htmlSafe_plain b hs
      rw [if_pos hs]
      simp only [List.cons_append, List.nil_append]
      rw [unquote_plain b ⟨hp.2.1, hp.1, hp.2.2.1, hp.2.2.2⟩, ih, Option.map_map]
      simp [Function.comp_def]
    · rw [if_neg hs, unquote_escapeAscii b hb, ih, Option.map_map]
      simp [Function.comp_def]
  | hbad b t hb hbad ih =>
    intro y
    rw [appendStringAux_bad b t hb hbad, coerceUTF8Aux_bad b t hb hbad, List.append_assoc]
    have := unquote_escapeU 0x66 0x66 0x66 0x64 15 15 15 13 (by decide) (by decide)
      (by decide) (by decide) (by decide) (appendStringAux 0 t ++ y)
    have he : encodeRune (((15 * 16 + 15) * 16 + 15) * 16 + 13) = [0xEF, 0xBF, 0xBD] := by
      decide
    rw [he] at this
    simp only [List.cons_append, List.nil_append] at this ⊢
    rw [this, ih, Option.map_map]
    simp [Function.comp_def]
  | hrune chunk rest r hr ih =>
    intro y
    rw [appendStringAux_rune chunk rest r hr, coerceUTF8Aux_rune chunk rest r hr,
      List.append_assoc]
    by_cases hsep : r = 0x2028 ∨ r = 0x2029
    · rw [if_pos hsep]
      have hu := unquote_escapeU 0x32 0x30 0x32 (hexDigit (r % 16)) 2 0 2 (r % 16 % 16)
        (by decide) (by decide) (by decide) (hexVal_hexDigit _)
      have hv : ((2 * 16 + 0) * 16 + 2) * 16 + r % 16 % 16 = r := by omega
      rw [hv, hr.encode] at hu
      have hs : isSurrogate r = false := by
        simp only [isSurrogate, Bool.and_eq_false_iff, decide_eq_false_iff_not]
        omega
      have := hu hs (appendStringAux 0 rest ++ y)
      simp only [List.cons_append, List.nil_append] at this ⊢
      rw [this, ih, Option.map_map]
      simp [Function.comp_def]
    · rw [if_neg hsep, unquote_rune chunk r hr, ih, Option.map_map]
      simp [Function.comp_def]

/-! ## Values: strings, arrays and objects as the scanner reads them -/

theorem validUTF8Aux_ascii (b : Byte) (t : Bytes) (hb : b.val < 0x80) :
    validUTF8Aux 0 (b :: t) = validUTF8Aux 0 t := by
  simp only [validUTF8Aux, hb, if_true]

theorem validUTF8Aux_bad (b : Byte) (t : Bytes) (hb : ¬ b.val < 0x80)
    (hbad : decodeRune (b :: t) = (runeError, 1)) :
    validUTF8Aux 0 (b :: t) = false := by
  simp only [validUTF8Aux, hb, if_false, hbad, if_true]

theorem validUTF8Aux_rune (chunk rest : Bytes) (r : Nat) (h : IsRune chunk r) :
    validUTF8Aux 0 (chunk ++ rest) = validUTF8Aux 0 rest := by
  obtain ⟨c0, more, hsplit, hc0, hlen, hne⟩ := h.split
  have hdec := h.decode rest
  rw [hsplit] at hdec hlen hne ⊢
  rw [List.cons_append] at hdec ⊢
  simp only [validUTF8Aux, hc0, if_false, hdec, hne]
  rw [validUTF8Aux_skip]
  simp only [List.length_cons, Nat.add_sub_cancel, List.drop_left]

/-- A string that `utf8.Valid` accepts is written to JSON as it is. -/
theorem coerceUTF8_of_valid : ∀ s : Bytes, validUTF8 s = true → coerceUTF8 s = s := by
  intro s
  unfold validUTF8 coerceUTF8
  induction s using bytes_induction with
  | hnil => intro _; simp [coerceUTF8Aux]
  | hascii b t hb ih =>
    intro hv
    rw [validUTF8Aux_ascii b t hb] at hv
    rw [coerceUTF8Aux_ascii b t hb, ih hv]
  | hbad b t hb hbad ih =>
    intro hv
    rw [validUTF8Aux_bad b t hb hbad] at hv
    exact absurd hv (by decide)
  | hrune chunk rest r hr ih =>
    intro hv
    rw [validUTF8Aux_rune chunk rest r hr] at hv
    rw [coerceUTF8Aux_rune chunk rest r hr, ih hv]

/-- A string literal written by `appendString`, its opening quote read, is read back
as the string made valid UTF-8, up to and including its closing quote. -/
theorem parseStringLit_appendString (s rest : Bytes) :
    parseStringLit (appendStringAux 0 s ++ 0x22 :: rest) = .ok (coerceUTF8 s, rest) := by
  have hscan := scan_appendStringAux s (0x22 :: rest)
  rw [scan_inString_cons, if_pos (by decide)] at hscan
  have hunq := unquote_appendStringAux s []
  simp only [List.append_nil, unquoteAux, Option.map_some'] at hunq
  simp only [parseStringLit, hscan, Option.map_some', List.append_nil, hunq, coerceUTF8]

theorem skipSpace_cons (c : Byte) (t : Bytes)
    (h : ¬ (c.val = 0x20 ∨ c.val = 0x09 ∨ c.val = 0x0D ∨ c.val = 0x0A)) :
    skipSpace (c :: t) = c :: t := by
  simp only [skipSpace, h, if_false]

theorem parseValue_string (depth : Nat) (s t : Bytes) (hs : skipSpace s = 0x22 :: t) :
    parseValue depth s =
      match parseStringLit t with
      | .error e => .error e
      | .ok (str, r) => .ok (.str str, r) := by
  unfold parseValue
  simp only [hs]
  rw [if_neg (by decide), if_neg (by decide), if_pos (by decide)]
  try rfl

theorem parseValue_array (d : Nat) (s t : Bytes) (hs : skipSpace s = 0x5B :: t) :
    parseValue (d + 1) s =
      match skipSpace t with
      | [] => .error .invalid
      | c1 :: t1 =>
        if c1.val = 0x5D then .ok (.arr [], t1)
        else
          match parseElems (parseValue d) (t.length + 1) t with
          | .error e => .error e
          | .ok (vs, r) => .ok (.arr vs, r) := by
  rw [parseValue]
  simp only [hs]
  rw [if_pos (by decide)]
  try rfl

theorem parseValue_object (d : Nat) (s t : Bytes) (hs : skipSpace s = 0x7B :: t) :
    parseValue (d + 1) s =
      match skipSpace t with
      | [] => .error .invalid
      | c1 :: t1 =>
        if c1.val = 0x7D then .ok (.obj [], t1)
        else
          match parseMembers (parseValue d) (t.length + 1) t with
          | .error e => .error e
          | .ok (ms, r) => .ok (.obj ms, r) := by
  rw [parseValue]
  simp only [hs]
  rw [if_neg (by decide), if_pos (by decide)]
  try rfl

/-- The text that `appendString` writes is read as a string at any depth. -/
theorem parseValue_appendString (depth : Nat) (s : Bytes) :
    ReadsAs (parseValue depth) (appendString s) (.str (coerceUTF8 s)) := by
  intro rest
  have hlit := parseStringLit_appendString s rest
  have hs : skipSpace (appendString s ++ rest) = 0x22 :: (appendStringAux 0 s ++ 0x22 :: rest) := by
    simp only [appendString, List.cons_append, List.append_assoc, List.singleton_append]
    exact skipSpace_cons _ _ (by decide)
  rw [parseValue_string depth _ _ hs, hlit]
theorem ReadsAs.inside {pv : Bytes → Except ScanError (JValue × Bytes)} {x : Bytes} {v : JValue}
    (h : ReadsAs pv x v) : ReadsAsInside pv x v :=
  fun c rest _ => h (c :: rest)

theorem joinComma_cons_cons (x y : Bytes) (rest : List Bytes) :
    joinComma (x :: y :: rest) = x ++ 0x2C :: joinComma (y :: rest) := rfl

theorem length_le_joinComma (xs : List Bytes) : xs.length ≤ (joinComma xs).length + 1 := by
  induction xs with
  | nil => simp
  | cons x t ih =>
    cases t with
    | nil => simp
    | cons y t' =>
      rw [joinComma_cons_cons]
      simp only [List.length_cons, List.length_append] at ih ⊢
      omega

theorem parseElems_succ (pv : Bytes → Except ScanError (JValue × Bytes)) (fuel : Nat)
    (s : Bytes) :
    parseElems pv (fuel + 1) s =
      match pv s with
      | .error e => .error e
      | .ok (v, r) =>
        match skipSpace r with
        | [] => .error .invalid
        | c :: r1 =>
          if c.val = 0x2C then
            match parseElems pv fuel r1 with
            | .error e => .error e
            | .ok (vs, r2) => .ok (v :: vs, r2)
          else if c.val = 0x5D then .ok ([v], r1)
          else .error .invalid := by
  rw [parseElems]
  try rfl

/-- The elements of an array, written with commas between them and closed by a
bracket, are read one by one, given fuel for each of them. -/
theorem parseElems_joinComma (pv : Bytes → Except ScanError (JValue × Bytes))
    (xs : List Bytes) (vs : List JValue) (h : List.Forall₂ (ReadsAsInside pv) xs vs) :
    ∀ (fuel : Nat) (rest : Bytes), xs ≠ [] → xs.length ≤ fuel →
      parseElems pv fuel (joinComma xs ++ 0x5D :: rest) = .ok (vs, rest) := by
  induction h with
  | nil => intro fuel rest hne; exact absurd rfl hne
  | @cons x v xs' vs' hx hrest ih =>
    intro fuel rest _ hfuel
    cases fuel with
    | zero => simp at hfuel
    | succ fuel =>
      cases xs' with
      | nil =>
        cases hrest
        have hpv := hx 0x5D rest (Or.inr (Or.inl rfl))
        rw [parseElems_succ]
        simp only [joinComma, hpv]
        rw [skipSpace_cons _ _ (by decide)]
        simp only []
        rw [if_neg (by decide), if_pos (by decide)]
      | cons y xs'' =>
        have hpv := hx 0x2C (joinComma (y :: xs'') ++ 0x5D :: rest) (Or.inl rfl)
        have hih := ih fuel rest (by simp) (by simpa using hfuel)
        rw [parseElems_succ, joinComma_cons_cons]
        simp only [List.append_assoc, List.cons_append, hpv]
        rw [skipSpace_cons _ _ (by decide)]
        simp only []
        rw [if_pos (by decide), hih]

/-- A value that the scanner accepts starts, after blanks, with a byte that is neither
a closing bracket nor a closing brace. -/
theorem parseValue_ok_head (depth : Nat) (s : Bytes) (p : JValue × Bytes)
    (h : parseValue depth s = .ok p) :
    ∃ c t, skipSpace s = c :: t ∧ ¬ c.val = 0x5D ∧ ¬ c.val = 0x7D := by
  cases hs : skipSpace s with
  | nil =>
    unfold parseValue at h
    simp only [hs] at h
    exact absurd h (by simp)
  | cons c t =>
    refine ⟨c, t, rfl, ?_, ?_⟩
    · intro hc
      unfold parseValue at h
      simp only [hs] at h
      rw [if_neg (by omega), if_neg (by omega), if_neg (by omega), if_neg (by omega),
        if_neg (by omega), if_neg (by omega)] at h
      have hsn : scanNumber (c :: t) = none := by
        simp only [scanNumber, scanIntPart]
        rw [if_neg (by omega), if_neg (by omega), if_neg (by omega)]
      rw [hsn] at h
      exact absurd h (by simp)
    · intro hc
      unfold parseValue at h
      simp only [hs] at h
      rw [if_neg (by omega), if_neg (by omega), if_neg (by omega), if_neg (by omega),
        if_neg (by omega), if_neg (by omega)] at h
      have hsn : scanNumber (c :: t) = none := by
        simp only [scanNumber, scanIntPart]
        rw [if_neg (by omega), if_neg (by omega), if_neg (by omega)]
      rw [hsn] at h
      exact absurd h (by simp)

/-- An array written by `encoding/json` is read as the array of its elements, one
level of nesting above them. -/
theorem parseValue_arrayText (d : Nat) (xs : List Bytes) (vs : List JValue)
    (h : List.Forall₂ (ReadsAsInside (parseValue d)) xs vs) :
    ReadsAs (parseValue (d + 1)) (arrayText xs) (.arr vs) := by
  intro rest
  have hs : skipSpace (arrayText xs ++ rest) = 0x5B :: (joinComma xs ++ 0x5D :: rest) := by
    simp only [arrayText, List.cons_append, List.append_assoc, List.singleton_append]
    exact skipSpace_cons _ _ (by decide)
  rw [parseValue_array d _ _ hs]
  cases h with
  | nil =>
    simp only [joinComma, List.nil_append]
    rw [skipSpace_cons _ _ (by decide)]
    simp only []
    rw [if_pos (by decide)]
  | @cons x v xs' vs' hx hrest =>
    have hall : List.Forall₂ (ReadsAsInside (parseValue d)) (x :: xs') (v :: vs') :=
      List.Forall₂.cons hx hrest
    have hjoin := parseElems_joinComma (parseValue d) (x :: xs') (v :: vs') hall
      ((joinComma (x :: xs') ++ 0x5D :: rest).length + 1) rest (by simp)
      (by
        have := length_le_joinComma (x :: xs')
        simp only [List.length_append, List.length_cons] at this ⊢
        omega)
    have hfirst : ∃ p, parseValue d (joinComma (x :: xs') ++ 0x5D :: rest) = .ok p := by
      cases xs' with
      | nil => exact ⟨_, hx 0x5D rest (Or.inr (Or.inl rfl))⟩
      | cons y xs'' =>
        rw [joinComma_cons_cons, List.append_assoc, List.cons_append]
        exact ⟨_, hx 0x2C _ (Or.inl rfl)⟩
    obtain ⟨p, hp⟩ := hfirst
    obtain ⟨c, t, hct, hne, _⟩ := parseValue_ok_head d _ p hp
    simp only [hct, hjoin]
    rw [if_neg hne]
theorem parseMembers_succ (pv : Bytes → Except ScanError (JValue × Bytes)) (fuel : Nat)
    (s : Bytes) :
    parseMembers pv (fuel + 1) s =
      match skipSpace s with
      | [] => .error .invalid
      | q :: t =>
        if q.val = 0x22 then
          match parseStringLit t with
          | .error e => .error e
          | .ok (key, r) =>
            match skipSpace r with
            | [] => .error .invalid
            | c :: r1 =>
              if c.val = 0x3A then
                match pv r1 with
                | .error e => .error e
                | .ok (v, r2) =>
                  match skipSpace r2 with
                  | [] => .error .invalid
                  | c2 :: r3 =>
                    if c2.val = 0x2C then
                      match parseMembers pv fuel r3 with
                      | .error e => .error e
                      | .ok (ms, r4) => .ok ((key, v) :: ms, r4)
                    else if c2.val = 0x7D then .ok ([(key, v)], r3)
                    else .error .invalid
              else .error .invalid
        else .error .invalid := by
  rw [parseMembers]
  try rfl

/-- One member written by `encoding/json`, in front of a comma or a closing brace, is
read up to the end of its value. -/
theorem parseMember_text (pv : Bytes → Except ScanError (JValue × Bytes)) (fuel : Nat)
    (k x : Bytes) (v : JValue) (hx : ReadsAsInside pv x v) (c : Byte) (rest : Bytes)
    (hc : c.val = 0x2C ∨ c.val = 0x7D) :
    parseMembers pv (fuel + 1) (memberText (k, x) ++ c :: rest) =
      if c.val = 0x2C then
        match parseMembers pv fuel rest with
        | .error e => .error e
        | .ok (ms, r4) => .ok ((coerceUTF8 k, v) :: ms, r4)
      else .ok ([(coerceUTF8 k, v)], rest) := by
  have hs : skipSpace (memberText (k, x) ++ c :: rest) =
      0x22 :: (appendStringAux 0 k ++ 0x22 :: (0x3A :: (x ++ c :: rest))) := by
    simp only [memberText, appendString, List.cons_append, List.append_assoc,
      List.singleton_append]
    exact skipSpace_cons _ _ (by decide)
  have hlit := parseStringLit_appendString k (0x3A :: (x ++ c :: rest))
  have hpv := hx c rest (by rcases hc with h | h; exact Or.inl h; exact Or.inr (Or.inr h))
  have hsc : skipSpace (c :: rest) = c :: rest := skipSpace_cons _ _ (by omega)
  rw [parseMembers_succ]
  simp only [hs]
  rw [if_pos (by decide)]
  simp only [hlit]
  rw [skipSpace_cons _ _ (by decide)]
  simp only []
  rw [if_pos (by decide)]
  simp only [hpv, hsc]
  rcases hc with h | h
  · rw [if_pos h, if_pos h]
  · rw [if_neg (by omega), if_pos h, if_neg (by omega)]

/-- The members of an object, written with commas between them and closed by a brace,
are read one by one, given fuel for each of them. -/
theorem parseMembers_joinComma (pv : Bytes → Except ScanError (JValue × Bytes))
    (items : List (Bytes × Bytes)) (members : List (Bytes × JValue))
    (h : List.Forall₂ (fun kx kv => kv.1 = coerceUTF8 kx.1 ∧ ReadsAsInside pv kx.2 kv.2)
      items members) :
    ∀ (fuel : Nat) (rest : Bytes), items ≠ [] → items.length ≤ fuel →
      parseMembers pv fuel (joinComma (items.map memberText) ++ 0x7D :: rest) =
        .ok (members, rest) := by
  induction h with
  | nil => intro fuel rest hne; exact absurd rfl hne
  | @cons kx kv items' members' hx hrest ih =>
    intro fuel rest _ hfuel
    obtain ⟨k, x⟩ := kx
    obtain ⟨k', v⟩ := kv
    simp only at hx
    obtain ⟨hk, hread⟩ := hx
    subst hk
    cases fuel with
    | zero => simp at hfuel
    | succ fuel =>
      cases items' with
      | nil =>
        cases hrest
        have := parseMember_text pv fuel k x v hread 0x7D rest (Or.inr rfl)
        rw [if_neg (by decide)] at this
        simpa [joinComma] using this
      | cons y items'' =>
        have hih := ih fuel rest (by simp) (by simpa using hfuel)
        have := parseMember_text pv fuel k x v hread 0x2C
          (joinComma (List.map memberText (y :: items'')) ++ 0x7D :: rest) (Or.inl rfl)
        rw [if_pos (by decide), hih] at this
        simp only [List.map_cons, joinComma_cons_cons, List.append_assoc, List.cons_append]
          at this ⊢
        exact this

/-- An object written by `encoding/json` is read as the object of its members, one
level of nesting above their values; a key comes back made valid UTF-8. -/
theorem parseValue_objectText (d : Nat) (items : List (Bytes × Bytes))
    (members : List (Bytes × JValue))
    (h : List.Forall₂
      (fun kx kv => kv.1 = coerceUTF8 kx.1 ∧ ReadsAsInside (parseValue d) kx.2 kv.2)
      items members) :
    ReadsAs (parseValue (d + 1)) (objectText items) (.obj members) := by
  intro rest
  have hs : skipSpace (objectText items ++ rest) =
      0x7B :: (joinComma (items.map memberText) ++ 0x7D :: rest) := by
    simp only [objectText, List.cons_append, List.append_assoc, List.singleton_append]
    exact skipSpace_cons _ _ (by decide)
  rw [parseValue_object d _ _ hs]
  cases h with
  | nil =>
    simp only [List.map_nil, joinComma, List.nil_append]
    rw [skipSpace_cons _ _ (by decide)]
    simp only []
    rw [if_pos (by decide)]
  | @cons kx kv items' members' hx hrest =>
    have hall : List.Forall₂
        (fun kx kv => kv.1 = coerceUTF8 kx.1 ∧ ReadsAsInside (parseValue d) kx.2 kv.2)
        (kx :: items') (kv :: members') := List.Forall₂.cons hx hrest
    have hjoin := parseMembers_joinComma (parseValue d) (kx :: items') (kv :: members') hall
      ((joinComma ((kx :: items').map memberText) ++ 0x7D :: rest).length + 1) rest (by simp)
      (by
        have := length_le_joinComma ((kx :: items').map memberText)
        simp only [List.length_append, List.length_cons, List.length_map] at this ⊢
        omega)
    have hm : memberText kx = 0x22 :: (appendStringAux 0 kx.1 ++ 0x22 :: 0x3A :: kx.2) := by
      simp [memberText, appendString]
    have hhead : ∃ t, joinComma ((kx :: items').map memberText) ++ 0x7D :: rest = 0x22 :: t := by
      cases items' with
      | nil =>
        refine ⟨appendStringAux 0 kx.1 ++ 0x22 :: 0x3A :: kx.2 ++ 0x7D :: rest, ?_⟩
        simp only [List.map_cons, List.map_nil, joinComma, hm, List.cons_append]
      | cons y items'' =>
        refine ⟨appendStringAux 0 kx.1 ++ 0x22 :: 0x3A :: kx.2 ++
          0x2C :: joinComma ((y :: items'').map memberText) ++ 0x7D :: rest, ?_⟩
        simp only [List.map_cons, joinComma_cons_cons, hm, List.cons_append, List.append_assoc]
    obtain ⟨t, ht⟩ := hhead
    rw [ht] at hjoin ⊢
    rw [skipSpace_cons _ _ (by decide)]
    simp only []
    rw [if_neg (by decide)]
    simp only [hjoin]
/-! ## Storing what was read: `[]RuleIDOnly` -/

theorem storeElems_fresh {α : Type} (store : Store α) (zero : α) (vs : List JValue)
    (xs : List α) (h : List.Forall₂ (fun v x => store v zero = (x, none)) vs xs) :
    storeElems store zero vs [] = (xs, none) := by
  induction h with
  | nil => rfl
  | @cons v x vs' xs' hv _ ih =>
    simp only [storeElems, List.headD_nil, List.tail_nil, hv, ih, saveError]

theorem storeSlice_fresh {α : Type} (store : Store α) (zero : α) (vs : List JValue)
    (xs : List α) (h : List.Forall₂ (fun v x => store v zero = (x, none)) vs xs)
    (cur : Slice α) (hcur : cur.toList = []) :
    storeSlice store zero (.arr vs) (cur, []) = ((Slice.mk xs, []), none) := by
  cases h with
  | nil => rfl
  | @cons v x vs' xs' hv hrest =>
    have hall : List.Forall₂ (fun v x => store v zero = (x, none)) (v :: vs') (x :: xs') :=
      List.Forall₂.cons hv hrest
    have := storeElems_fresh store zero (v :: vs') (x :: xs') hall
    simp only [storeSlice, hcur, List.append_nil, this, List.drop_nil]

theorem storeStruct_ruleIDOnly (s : Bytes) (cur : RuleIDOnly) :
    storeStruct ruleIDOnlyFields (ruleIDTree s) cur = (⟨s⟩, none) := by
  simp [ruleIDTree, storeStruct, storeMembers, findField, ruleIDOnlyFields, ruleIDField, storeString,
    saveError]

theorem encodeRuleIDOnly_eq (r : RuleIDOnly) :
    encodeRuleIDOnly r = objectText [(bytesOf "rule_id", appendString r.RuleID)] := by
  have h1 : bytesOf "\x7b\"rule_id\":" = 0x7B :: (appendString (bytesOf "rule_id") ++ [0x3A]) := by
    decide
  have h2 : bytesOf "\x7d" = [0x7D] := by decide
  simp only [encodeRuleIDOnly, objectText, memberText, List.map_cons, List.map_nil, joinComma,
    h1, h2, List.cons_append, List.append_assoc, List.singleton_append, List.nil_append]

/-- The encoding of one `RuleIDOnly` is read as an object with the one member
`rule_id`, a string. -/
theorem parseValue_encodeRuleIDOnly (d : Nat) (r : RuleIDOnly) :
    ReadsAs (parseValue (d + 1)) (encodeRuleIDOnly r)
      (ruleIDTree (coerceUTF8 r.RuleID)) := by
  rw [encodeRuleIDOnly_eq]
  apply parseValue_objectText
  refine List.Forall₂.cons ⟨?_, ?_⟩ List.Forall₂.nil
  · show bytesOf "rule_id" = coerceUTF8 (bytesOf "rule_id")
    decide
  · exact (parseValue_appendString d r.RuleID).inside

/-- What `json.Marshal` writes for a slice of `RuleIDOnly` is read by the scanner as
the array of one-member objects, the identifiers made valid UTF-8. -/
theorem parseJSON_marshalRuleIDs (ids : List RuleIDOnly) :
    parseJSON (marshalRuleIDs (.mk ids)).1.toList =
      .ok (.arr (ids.map (fun r => ruleIDTree (coerceUTF8 r.RuleID)))) := by
  have hall : List.Forall₂ (ReadsAsInside (parseValue 9999)) (ids.map encodeRuleIDOnly)
      (ids.map (fun r => ruleIDTree (coerceUTF8 r.RuleID))) := by
    rw [List.forall₂_map_left_iff, List.forall₂_map_right_iff]
    exact List.forall₂_same.2 (fun r _ => (parseValue_encodeRuleIDOnly 9998 r).inside)
  have hread := parseValue_arrayText 9999 _ _ hall []
  simp only [List.append_nil] at hread
  have htext : (marshalRuleIDs (.mk ids)).1.toList = arrayText (ids.map encodeRuleIDOnly) := rfl
  have hdepth : maxNestingDepth = 9999 + 1 := rfl
  rw [parseJSON, htext, hdepth, hread]
  rfl

/-- The round trip of `json.Marshal` and `json.Unmarshal` on `[]RuleIDOnly`: the
records come back, in order, their identifiers made valid UTF-8, and no error. -/
theorem unmarshalRuleIDs_marshalRuleIDs (ids : List RuleIDOnly) :
    unmarshalRuleIDs (marshalRuleIDs (.mk ids)).1.toList (.mk []) =
      (Slice.mk (ids.map (fun r => (⟨coerceUTF8 r.RuleID⟩ : RuleIDOnly))), none) := by
  have hstore : List.Forall₂
      (fun v x => storeStruct ruleIDOnlyFields v RuleIDOnly.zero = (x, none))
      (ids.map (fun r => ruleIDTree (coerceUTF8 r.RuleID)))
      (ids.map (fun r => (⟨coerceUTF8 r.RuleID⟩ : RuleIDOnly))) := by
    rw [List.forall₂_map_left_iff, List.forall₂_map_right_iff]
    exact List.forall₂_same.2 (fun r _ => storeStruct_ruleIDOnly _ _)
  have := storeSlice_fresh (storeStruct ruleIDOnlyFields) RuleIDOnly.zero _ _ hstore
    (Slice.mk []) rfl
  simp only [unmarshalRuleIDs, parseJSON_marshalRuleIDs, this]
/-! ## Storing what was read: `SearchResult` -/

theorem storeStruct_hit (name : Bytes) (cur : SearchResultInnerHit) :
    storeStruct innerHitFields (hitTree name) cur = (hitOfName name, none) := by
  simp [hitTree, storeStruct, storeMembers, findField, innerHitFields, sourceFields,
    signalFields, ruleNameOnlyFields, sourceField, signalField, ruleField, nameField,
    storeString, saveError, hitOfName]

theorem storeStruct_total (n : Int) (hint : parseInt64 (fmtInt n) = some n)
    (cur : SearchResultHitsTotal) :
    storeStruct hitsTotalFields (.obj [(bytesOf "value", .num (fmtInt n))]) cur =
      (⟨n⟩, none) := by
  simp [storeStruct, storeMembers, findField, hitsTotalFields, valueField, storeInt, hint,
    saveError]

theorem findField_hitsFields_total : findField hitsFields (bytesOf "total") = some totalField := by
  simp [findField, hitsFields, totalField]

theorem findField_hitsFields_hits : findField hitsFields (bytesOf "hits") = some hitsField := by
  have hne : ¬ bytesOf "total" = bytesOf "hits" := by decide
  simp [findField, hitsFields, totalField, hitsField, hne]

theorem findField_searchResultFields :
    findField searchResultFields (bytesOf "hits") = some searchHitsField := by
  simp [findField, searchResultFields, searchHitsField]

/-- Storing the tree of a search response into the zero `SearchResult`: the total and
the names, in order, and no error, when the total fits 64 bits. -/
theorem storeStruct_searchResultTree (n : Int) (names : List Bytes)
    (hlo : -(2 : Int) ^ 63 ≤ n) (hhi : n < (2 : Int) ^ 63) :
    storeStruct searchResultFields (searchResultTree n names) (SearchResult.zero, []) =
      ((⟨⟨⟨n⟩, Slice.mk (names.map hitOfName)⟩⟩, []), none) := by
  have hstore : List.Forall₂
      (fun v x => storeStruct innerHitFields v SearchResultInnerHit.zero = (x, none))
      (names.map hitTree) (names.map hitOfName) := by
    rw [List.forall₂_map_left_iff, List.forall₂_map_right_iff]
    exact List.forall₂_same.2 (fun name _ => storeStruct_hit _ _)
  have hslice := storeSlice_fresh (storeStruct innerHitFields) SearchResultInnerHit.zero _ _
    hstore Slice.nil rfl
  have hint := parseInt64_fmtInt n hlo hhi
  have hhits : storeStruct hitsFields
      (.obj [(bytesOf "total", .obj [(bytesOf "value", .num (fmtInt n))]),
        (bytesOf "hits", .arr (names.map hitTree))]) (SearchResult.zero.Hits, []) =
      ((⟨⟨n⟩, Slice.mk (names.map hitOfName)⟩, []), none) := by
    simp only [storeStruct, storeMembers, findField_hitsFields_total, findField_hitsFields_hits]
    simp only [totalField, hitsField, storeStruct_total n hint, SearchResult.zero, hslice,
      saveError]
  simp only [searchResultTree, storeStruct, storeMembers, findField_searchResultFields]
  simp only [searchHitsField, hhits, saveError]

/-! ## What `json.Unmarshal` rejects -/

theorem findField_ruleIDOnlyFields (key : Bytes) :
    findField ruleIDOnlyFields key = if isRuleIDKey key then some ruleIDField else none := by
  have hname : ruleIDField.name = bytesOf "rule_id" := rfl
  by_cases h1 : key = bytesOf "rule_id"
  · simp [findField, ruleIDOnlyFields, isRuleIDKey, hname, h1]
  · have h1' : ¬ bytesOf "rule_id" = key := fun h => h1 h.symm
    by_cases h2 : foldName (bytesOf "rule_id") = foldName key
    · simp [findField, ruleIDOnlyFields, isRuleIDKey, hname, h1, h1', h2]
    · simp [findField, ruleIDOnlyFields, isRuleIDKey, hname, h1, h1', h2]

theorem storeString_error (v : JValue) (cur : Bytes) :
    (storeString v cur).2 = none ↔ isStringOrNull v = true := by
  cases v <;> simp [storeString, isStringOrNull]

theorem saveError_eq_none (a b : Option GoError) :
    saveError a b = none ↔ a = none ∧ b = none := by
  cases a <;> simp [saveError]

theorem storeMembers_ruleID_error (members : List (Bytes × JValue)) :
    ∀ cur : RuleIDOnly, (storeMembers ruleIDOnlyFields members cur).2 = none ↔
      members.all (fun kv => !isRuleIDKey kv.1 || isStringOrNull kv.2) = true := by
  induction members with
  | nil => intro cur; simp [storeMembers]
  | cons kv rest ih =>
    intro cur
    obtain ⟨key, v⟩ := kv
    by_cases hk : isRuleIDKey key = true
    · simp only [storeMembers, findField_ruleIDOnlyFields, hk, if_true, saveError_eq_none, ih,
        List.all_cons, Bool.and_eq_true, Bool.not_true, Bool.false_or]
      simp only [ruleIDField, storeString_error]
    · simp only [Bool.not_eq_true] at hk
      simp [storeMembers, findField_ruleIDOnlyFields, hk, ih]

theorem storeStruct_ruleID_error (v : JValue) (cur : RuleIDOnly) :
    (storeStruct ruleIDOnlyFields v cur).2 = none ↔ elemAccepted v = true := by
  cases v with
  | obj members => simpa [storeStruct, elemAccepted] using storeMembers_ruleID_error members cur
  | _ => simp [storeStruct, elemAccepted]

theorem storeElems_ruleID_error (vs : List JValue) :
    ∀ backing : List RuleIDOnly,
      (storeElems (storeStruct ruleIDOnlyFields) RuleIDOnly.zero vs backing).2 = none ↔
        vs.all elemAccepted = true := by
  induction vs with
  | nil => intro backing; simp [storeElems]
  | cons v rest ih =>
    intro backing
    simp only [storeElems, saveError_eq_none, storeStruct_ruleID_error, ih, List.all_cons,
      Bool.and_eq_true]

theorem storeSlice_ruleID_error (v : JValue) (cur : Slice RuleIDOnly × List RuleIDOnly) :
    (storeSlice (storeStruct ruleIDOnlyFields) RuleIDOnly.zero v cur).2 = none ↔
      bodyAccepted v = true := by
  cases v with
  | arr elems =>
    cases elems with
    | nil => simp [storeSlice, bodyAccepted]
    | cons e rest =>
      simpa [storeSlice, bodyAccepted] using
        storeElems_ruleID_error (e :: rest) (cur.1.toList ++ cur.2)
  | _ => simp [storeSlice, bodyAccepted]

/-- The call `json.Unmarshal` into a `[]RuleIDOnly` returns no error exactly for a
text that is valid JSON and of an accepted shape. -/
theorem unmarshalRuleIDs_error (data : Bytes) (results : Slice RuleIDOnly) :
    (unmarshalRuleIDs data results).2 = none ↔
      ∃ v, parseJSON data = .ok v ∧ bodyAccepted v = true := by
  cases h : parseJSON data with
  | error e => simp [unmarshalRuleIDs, h]
  | ok v => simp [unmarshalRuleIDs, h, storeSlice_ruleID_error]
/-! ## The errors of `json.Unmarshal` are JSON errors -/

theorem saveError_some (a b : Option GoError) (e : GoError) (h : saveError a b = some e) :
    a = some e ∨ b = some e := by
  cases a with
  | none => right; simpa [saveError] using h
  | some x => left; simpa [saveError] using h

theorem onlyTypeErrors_storeString : OnlyTypeErrors storeString := by
  intro v cur e h
  cases v <;> simp [storeString, typeError] at h <;> rw [← h] <;> rfl

theorem onlyTypeErrors_storeInt : OnlyTypeErrors storeInt := by
  intro v cur e h
  cases v with
  | num lit =>
    simp only [storeInt] at h
    cases hp : parseInt64 lit with
    | none => simp [hp] at h; rw [← h]; rfl
    | some n => simp [hp] at h
  | _ => simp [storeInt, typeError] at h <;> rw [← h] <;> rfl

theorem findField_mem {σ : Type} (fields : List (Field σ)) (key : Bytes) (f : Field σ)
    (h : findField fields key = some f) : f ∈ fields := by
  unfold findField at h
  cases h1 : fields.find? (fun f => f.name = key) with
  | some g =>
    rw [h1] at h
    simp only [Option.some.injEq] at h
    rw [← h]
    exact List.mem_of_find?_eq_some h1
  | none =>
    rw [h1] at h
    exact List.mem_of_find?_eq_some h

theorem onlyTypeErrors_storeMembers {σ : Type} (fields : List (Field σ))
    (hf : ∀ f ∈ fields, OnlyTypeErrors f.store) (members : List (Bytes × JValue)) :
    ∀ (cur : σ) (e : GoError), (storeMembers fields members cur).2 = some e →
      e.kind = ErrorKind.jsonUnmarshalTypeError := by
  induction members with
  | nil => intro cur e h; simp [storeMembers] at h
  | cons kv rest ih =>
    intro cur e h
    obtain ⟨key, v⟩ := kv
    cases hfind : findField fields key with
    | none =>
      simp only [storeMembers, hfind] at h
      exact ih cur e h
    | some f =>
      simp only [storeMembers, hfind] at h
      rcases saveError_some _ _ e h with h1 | h2
      · exact hf f (findField_mem fields key f hfind) v cur e h1
      · exact ih _ e h2

theorem onlyTypeErrors_storeStruct {σ : Type} (fields : List (Field σ))
    (hf : ∀ f ∈ fields, OnlyTypeErrors f.store) : OnlyTypeErrors (storeStruct fields) := by
  intro v cur e h
  cases v with
  | obj members => exact onlyTypeErrors_storeMembers fields hf members cur e h
  | _ => simp [storeStruct, typeError] at h <;> rw [← h] <;> rfl

theorem onlyTypeErrors_storeElems {α : Type} (store : Store α) (zero : α)
    (hs : OnlyTypeErrors store) (vs : List JValue) :
    ∀ (backing : List α) (e : GoError), (storeElems store zero vs backing).2 = some e →
      e.kind = ErrorKind.jsonUnmarshalTypeError := by
  induction vs with
  | nil => intro backing e h; simp [storeElems] at h
  | cons v rest ih =>
    intro backing e h
    simp only [storeElems] at h
    rcases saveError_some _ _ e h with h1 | h2
    · exact hs v _ e h1
    · exact ih _ e h2

theorem onlyTypeErrors_storeSlice {α : Type} (store : Store α) (zero : α)
    (hs : OnlyTypeErrors store) : OnlyTypeErrors (storeSlice store zero) := by
  intro v cur e h
  cases v with
  | arr elems =>
    cases elems with
    | nil => simp [storeSlice] at h
    | cons x rest =>
      simp only [storeSlice] at h
      exact onlyTypeErrors_storeElems store zero hs (x :: rest) _ e h
  | _ => simp [storeSlice, typeError] at h <;> rw [← h] <;> rfl

theorem onlyTypeErrors_ruleIDOnly : OnlyTypeErrors (storeStruct ruleIDOnlyFields) := by
  apply onlyTypeErrors_storeStruct
  intro f hf
  simp only [ruleIDOnlyFields, List.mem_singleton] at hf
  subst hf
  intro v cur e h
  exact onlyTypeErrors_storeString v cur.RuleID e h

theorem onlyTypeErrors_innerHit : OnlyTypeErrors (storeStruct innerHitFields) := by
  apply onlyTypeErrors_storeStruct
  intro f hf
  simp only [innerHitFields, List.mem_singleton] at hf
  subst hf
  intro v cur e h
  refine onlyTypeErrors_storeStruct sourceFields ?_ v cur.Source e h
  intro f hf
  simp only [sourceFields, List.mem_singleton] at hf
  subst hf
  intro v cur e h
  refine onlyTypeErrors_storeStruct signalFields ?_ v cur.Signal e h
  intro f hf
  simp only [signalFields, List.mem_singleton] at hf
  subst hf
  intro v cur e h
  refine onlyTypeErrors_storeStruct ruleNameOnlyFields ?_ v cur.Rule e h
  intro f hf
  simp only [ruleNameOnlyFields, List.mem_singleton] at hf
  subst hf
  intro v cur e h
  exact onlyTypeErrors_storeString v cur.Name e h

theorem onlyTypeErrors_searchResult : OnlyTypeErrors (storeStruct searchResultFields) := by
  apply onlyTypeErrors_storeStruct
  intro f hf
  simp only [searchResultFields, List.mem_singleton] at hf
  subst hf
  intro v cur e h
  refine onlyTypeErrors_storeStruct hitsFields ?_ v (cur.1.Hits, cur.2) e h
  intro f hf
  simp only [hitsFields, List.mem_cons, List.mem_singleton, List.not_mem_nil, or_false] at hf
  rcases hf with hf | hf
  · subst hf
    intro v cur e h
    refine onlyTypeErrors_storeStruct hitsTotalFields ?_ v cur.1.Total e h
    intro f hf
    simp only [hitsTotalFields, List.mem_singleton] at hf
    subst hf
    intro v cur e h
    exact onlyTypeErrors_storeInt v cur.Value e h
  · subst hf
    intro v cur e h
    exact onlyTypeErrors_storeSlice _ _ onlyTypeErrors_innerHit v (cur.1.Hits, cur.2) e h

/-- An error of `json.Unmarshal` into `[]RuleIDOnly` is a syntax error or a type error of
`encoding/json`. -/
theorem unmarshalRuleIDs_kind (data : Bytes) (results : Slice RuleIDOnly) (e : GoError)
    (h : (unmarshalRuleIDs data results).2 = some e) :
    e.kind = ErrorKind.jsonSyntaxError ∨ e.kind = ErrorKind.jsonUnmarshalTypeError := by
  cases hp : parseJSON data with
  | error x =>
    simp only [unmarshalRuleIDs, hp, Option.some.injEq] at h
    left; rw [← h]; rfl
  | ok v =>
    simp only [unmarshalRuleIDs, hp] at h
    right
    exact onlyTypeErrors_storeSlice _ _ onlyTypeErrors_ruleIDOnly v _ e h

/-- An error of `json.Unmarshal` into `SearchResult` is a syntax error or a type error of
`encoding/json`. -/
theorem unmarshalSearchResult_kind (data : Bytes) (results : SearchResult) (e : GoError)
    (h : (unmarshalSearchResult data results).2 = some e) :
    e.kind = ErrorKind.jsonSyntaxError ∨ e.kind = ErrorKind.jsonUnmarshalTypeError := by
  cases hp : parseJSON data with
  | error x =>
    simp only [unmarshalSearchResult, hp, Option.some.injEq] at h
    left; rw [← h]; rfl
  | ok v =>
    simp only [unmarshalSearchResult, hp] at h
    right
    exact onlyTypeErrors_searchResult v _ e h

/-! ## Decode failures and the kinds of the errors -/

/-- C5, amended: for a non-empty input and a transport answering 200 to both calls,
when `json.Unmarshal` rejects the body of the bulk-create answer (the body is not valid
JSON, or it is valid JSON of a shape that `bodyAccepted` refuses: an object, a string,
a number, a boolean, or an array with an element that is neither `null` nor an object
whose `rule_id` members are strings or `null`), `RulesBulkCreate` returns the `nil`
slice and the JSON error wrapped with `could not unmarshal bulk create response`. -/
theorem bulk_create_decode_error (c : Client) (log : List Request) (rules : Slice Byte)
    (body1 body : Slice Byte) (hrules : rules.len ≠ 0)
    (hindex : c.send log ⟨.POST, "api/detection_engine/index", .nil⟩ = ⟨200, body1, none⟩)
    (hcreate : c.send (log ++ [⟨.POST, "api/detection_engine/index", .nil⟩])
        ⟨.POST, "api/detection_engine/rules/_bulk_create", rules⟩ = ⟨200, body, none⟩)
    (hrej : ∀ v, parseJSON body.toList = .ok v → bodyAccepted v = false) :
    ∃ cause : GoError,
      (cause.kind = ErrorKind.jsonSyntaxError ∨ cause.kind = ErrorKind.jsonUnmarshalTypeError) ∧
      RulesBulkCreate c rules log =
        ((Slice.nil, some (.withStack cause "could not unmarshal bulk create response")),
          log ++ [⟨.POST, "api/detection_engine/index", .nil⟩,
            ⟨.POST, "api/detection_engine/rules/_bulk_create", rules⟩]) := by
  cases herr : (unmarshalRuleIDs body.toList (.mk [])).2 with
  | none =>
    obtain ⟨v, hv, hacc⟩ := (unmarshalRuleIDs_error body.toList (.mk [])).1 herr
    rw [hrej v hv] at hacc
    exact absurd hacc (by decide)
  | some cause =>
    refine ⟨cause, unmarshalRuleIDs_kind _ _ cause herr, ?_⟩
    simp [RulesBulkCreate, Client.post, hrules, hindex, hcreate, statusOK, herr, errorsWrap]

/-- C5 at a body that is a JSON object, `\x7b\x7d`: a type error, wrapped. -/
theorem bulk_create_decode_error_witness :
    ∃ cause : GoError,
      (cause.kind = ErrorKind.jsonSyntaxError ∨ cause.kind = ErrorKind.jsonUnmarshalTypeError) ∧
      RulesBulkCreate
          (scriptClient [⟨200, .nil, none⟩, ⟨200, .mk (bytesOf "\x7b\x7d"), none⟩]
            ⟨500, .nil, none⟩)
          (.mk (bytesOf "[]")) [] =
        ((Slice.nil, some (.withStack cause "could not unmarshal bulk create response")),
          [⟨.POST, "api/detection_engine/index", .nil⟩,
            ⟨.POST, "api/detection_engine/rules/_bulk_create", .mk (bytesOf "[]")⟩]) :=
  bulk_create_decode_error _ [] (.mk (bytesOf "[]")) .nil (.mk (bytesOf "\x7b\x7d")) (by decide)
    rfl rfl
    (fun v hv => by
      have h : parseJSON (Slice.mk (bytesOf "\x7b\x7d")).toList = .ok (.obj []) := rfl
      rw [h] at hv
      cases hv
      rfl)

/-- C5 as stated fails at the body `null`, which is no JSON array: the result is the
`nil` slice and no error; and at the body of one empty object, whose element has no
`rule_id`: the result is one record with the empty identifier and no error. -/
theorem bulk_create_lenient_decode_counterexample :
    (RulesBulkCreate
        (scriptClient [⟨200, .nil, none⟩, ⟨200, .mk (bytesOf "null"), none⟩] ⟨500, .nil, none⟩)
        (.mk (bytesOf "[]")) []).1 = (Slice.nil, none) ∧
    (RulesBulkCreate
        (scriptClient [⟨200, .nil, none⟩, ⟨200, .mk (bytesOf "[\x7b\x7d]"), none⟩]
          ⟨500, .nil, none⟩)
        (.mk (bytesOf "[]")) []).1 = (Slice.mk [⟨[]⟩], none) :=
  ⟨by decide, by decide⟩
/-- C9, amended: in each of the four operations the error for a status other than 200 is
the plain formatted error of `fmt.Errorf` (kind `errorString`), while the error for a
transport failure and the error for a decode failure are both wrappers of
`errors.Wrap` (kind `withStack`): the first wraps the transport's own error, the
second a syntax or type error of `encoding/json`, and the two carry different wrap
messages. So the kind tells an API error from the other two, not the other two from
each other. -/
theorem error_kinds_by_failure (c : Client) (log : List Request) (rules : Slice Byte)
    (ids : Slice RuleIDOnly) (e : GoError) :
    ((RulesGetHits c log).1.2 = some e →
      (∀ e0, (c.send log ⟨.POST, "api/detection_engine/signals/search", .mk getHitsBody⟩).err
          = some e0 → e = .withStack e0 "could not search for hits") ∧
      ((c.send log ⟨.POST, "api/detection_engine/signals/search", .mk getHitsBody⟩).err = none →
        (c.send log ⟨.POST, "api/detection_engine/signals/search", .mk getHitsBody⟩).statusCode
          ≠ 200 → e.kind = ErrorKind.errorString) ∧
      ((c.send log ⟨.POST, "api/detection_engine/signals/search", .mk getHitsBody⟩).err = none →
        (c.send log ⟨.POST, "api/detection_engine/signals/search", .mk getHitsBody⟩).statusCode
          = 200 →
        ∃ cause, e = .withStack cause "could not unmarshal search results" ∧
          (cause.kind = ErrorKind.jsonSyntaxError ∨
            cause.kind = ErrorKind.jsonUnmarshalTypeError))) ∧
    ((RulesCloseSignals c log).1 = some e →
      (∀ e0, (c.send log ⟨.POST, "api/detection_engine/signals/status",
          .mk closeSignalsBody⟩).err = some e0 → e = .withStack e0 "could not close signals") ∧
      ((c.send log ⟨.POST, "api/detection_engine/signals/status", .mk closeSignalsBody⟩).err
          = none → e.kind = ErrorKind.errorString)) ∧
    ((RulesBulkDelete c ids log).1 = some e →
      (∀ e0, (c.send log ⟨.DELETE, "api/detection_engine/rules/_bulk_delete",
          (marshalRuleIDs ids).1⟩).err = some e0 →
        e = .withStack e0 "could not bulk delete rules") ∧
      ((c.send log ⟨.DELETE, "api/detection_engine/rules/_bulk_delete",
          (marshalRuleIDs ids).1⟩).err = none → e.kind = ErrorKind.errorString)) ∧
    ((RulesBulkCreate c rules log).1.2 = some e →
      (∀ e0, (c.send log ⟨.POST, "api/detection_engine/index", .nil⟩).err = some e0 →
        e = .withStack e0 "could not create detection index") ∧
      ((c.send log ⟨.POST, "api/detection_engine/index", .nil⟩).err = none →
        (c.send log ⟨.POST, "api/detection_engine/index", .nil⟩).statusCode ≠ 200 →
        e.kind = ErrorKind.errorString) ∧
      ((c.send log ⟨.POST, "api/detection_engine/index", .nil⟩).err = none →
        (c.send log ⟨.POST, "api/detection_engine/index", .nil⟩).statusCode = 200 →
        (∀ e0, (c.send (log ++ [⟨.POST, "api/detection_engine/index", .nil⟩])
            ⟨.POST, "api/detection_engine/rules/_bulk_create", rules⟩).err = some e0 →
          e = .withStack e0 "could not bulk create rules") ∧
        ((c.send (log ++ [⟨.POST, "api/detection_engine/index", .nil⟩])
            ⟨.POST, "api/detection_engine/rules/_bulk_create", rules⟩).err = none →
          (c.send (log ++ [⟨.POST, "api/detection_engine/index", .nil⟩])
            ⟨.POST, "api/detection_engine/rules/_bulk_create", rules⟩).statusCode ≠ 200 →
          e.kind = ErrorKind.errorString) ∧
        ((c.send (log ++ [⟨.POST, "api/detection_engine/index", .nil⟩])
            ⟨.POST, "api/detection_engine/rules/_bulk_create", rules⟩).err = none →
          (c.send (log ++ [⟨.POST, "api/detection_engine/index", .nil⟩])
            ⟨.POST, "api/detection_engine/rules/_bulk_create", rules⟩).statusCode = 200 →
          ∃ cause, e = .withStack cause "could not unmarshal bulk create response" ∧
            (cause.kind = ErrorKind.jsonSyntaxError ∨
              cause.kind = ErrorKind.jsonUnmarshalTypeError)))) := by
  refine ⟨?_, ?_, ?_, ?_⟩
  · intro h
    simp only [RulesGetHits, Client.post] at h
    refine ⟨?_, ?_, ?_⟩
    · intro e0 he0
      simp [he0, errorsWrap] at h
      exact h.symm
    · intro hnone hcode
      simp [hnone, statusOK, hcode, fmtErrorf] at h
      rw [← h]; rfl
    · intro hnone hcode
      simp only [hnone, statusOK, hcode, ne_eq, not_true_eq_false, if_false] at h
      cases hu : (unmarshalSearchResult (c.send log ⟨.POST,
          "api/detection_engine/signals/search", .mk getHitsBody⟩).respBody.toList
          SearchResult.zero).2 with
      | none => simp [hu] at h
      | some cause =>
        simp [hu, errorsWrap] at h
        exact ⟨cause, h.symm, unmarshalSearchResult_kind _ _ cause hu⟩
  · intro h
    simp only [RulesCloseSignals, Client.post] at h
    refine ⟨?_, ?_⟩
    · intro e0 he0
      simp [he0, errorsWrap] at h
      exact h.symm
    · intro hnone
      by_cases hcode : (c.send log ⟨.POST, "api/detection_engine/signals/status",
          .mk closeSignalsBody⟩).statusCode = 200
      · simp [hnone, statusOK, hcode] at h
      · simp [hnone, statusOK, hcode, fmtErrorf] at h
        rw [← h]; rfl
  · intro h
    have hm : (marshalRuleIDs ids).2 = none := by cases ids <;> rfl
    simp only [RulesBulkDelete, Client.delete, hm] at h
    by_cases hlen : ids.len = 0
    · simp [hlen] at h
    · simp only [hlen, if_false, ne_eq, not_true_eq_false] at h
      refine ⟨?_, ?_⟩
      · intro e0 he0
        simp [he0, errorsWrap] at h
        exact h.symm
      · intro hnone
        by_cases hcode : (c.send log ⟨.DELETE, "api/detection_engine/rules/_bulk_delete",
            (marshalRuleIDs ids).1⟩).statusCode = 200
        · simp [hnone, statusOK, hcode] at h
        · simp [hnone, statusOK, hcode, fmtErrorf] at h
          rw [← h]; rfl
  · intro h
    simp only [RulesBulkCreate, Client.post] at h
    by_cases hlen : rules.len = 0
    · simp [hlen] at h
    · simp only [hlen, if_false] at h
      refine ⟨?_, ?_, ?_⟩
      · intro e0 he0
        simp [he0, errorsWrap] at h
        exact h.symm
      · intro hnone hcode
        simp [hnone, statusOK, hcode, fmtErrorf] at h
        rw [← h]; rfl
      · intro hnone hcode
        simp only [hnone, statusOK, hcode, ne_eq, not_true_eq_false, if_false] at h
        refine ⟨?_, ?_, ?_⟩
        · intro e0 he0
          simp [he0, errorsWrap] at h
          exact h.symm
        · intro hnone2 hcode2
          simp [hnone2, hcode2, fmtErrorf] at h
          rw [← h]; rfl
        · intro hnone2 hcode2
          simp only [hnone2, hcode2, not_true_eq_false, if_false] at h
          cases hu : (unmarshalRuleIDs (c.send (log ++ [⟨.POST, "api/detection_engine/index",
              .nil⟩]) ⟨.POST, "api/detection_engine/rules/_bulk_create",
              rules⟩).respBody.toList (.mk [])).2 with
          | none => simp [hu] at h
          | some cause =>
            simp [hu, errorsWrap] at h
            exact ⟨cause, h.symm, unmarshalRuleIDs_kind _ _ cause hu⟩

/-- C9 as stated fails for `RulesGetHits`: the error of a transport failure and the
error of a decode failure have the same kind, and when the transport's own error is a
JSON syntax error even the kinds of their innermost causes agree; only the wrap
messages differ. -/
theorem error_kinds_counterexample :
    (RulesGetHits (constClient ⟨0, .nil, some .jsonSyntaxError⟩) []).1.2 =
        some (.withStack .jsonSyntaxError "could not search for hits") ∧
      (RulesGetHits (constClient ⟨200, .mk (bytesOf "x"), none⟩) []).1.2 =
        some (.withStack .jsonSyntaxError "could not unmarshal search results") ∧
      (GoError.withStack .jsonSyntaxError "could not search for hits").kind =
        (GoError.withStack .jsonSyntaxError "could not unmarshal search results").kind ∧
      (GoError.withStack .jsonSyntaxError "could not search for hits").rootCause.kind =
        (GoError.withStack .jsonSyntaxError "could not unmarshal search results").rootCause.kind ∧
      (RulesGetHits (constClient ⟨0, .nil,
          some (.foreign "*url.Error" (bytesOf "connection refused"))⟩) []).1.2.map GoError.kind =
        (RulesGetHits (constClient ⟨200, .mk (bytesOf "x"), none⟩) []).1.2.map GoError.kind :=
  ⟨by decide, by decide, rfl, rfl, by decide⟩

/-! ## The bound of the loops of the scanner is never reached -/

theorem skipSpace_length (s : Bytes) : (skipSpace s).length ≤ s.length := by
  induction s with
  | nil => simp [skipSpace]
  | cons c t ih =>
    simp only [skipSpace]
    split
    · simp only [List.length_cons]; omega
    · exact Nat.le_refl _

theorem scanStringAux_length (s : Bytes) : ∀ (st : StrState) (lit rest : Bytes),
    scanStringAux st s = some (lit, rest) → rest.length < s.length := by
  induction s with
  | nil => intro st lit rest h; cases st <;> simp [scanStringAux] at h
  | cons c t ih =>
    intro st lit rest h
    have key : ∀ (st' : StrState),
        (scanStringAux st' t).map (fun p => (c :: p.1, p.2)) = some (lit, rest) →
        rest.length < (c :: t).length := by
      intro st' hm
      cases hs : scanStringAux st' t with
      | none => simp [hs] at hm
      | some p =>
        simp only [hs, Option.map_some', Option.some.injEq, Prod.mk.injEq] at hm
        have := ih st' p.1 p.2 (by rw [hs])
        simp only [List.length_cons]
        rw [← hm.2]
        omega
    cases st with
    | inString =>
      rw [scan_inString_cons] at h
      split at h
      · simp only [Option.some.injEq, Prod.mk.injEq] at h
        rw [← h.2]; simp
      · split at h
        · exact key _ h
        · split at h
          · exact absurd h (by simp)
          · exact key _ h
    | esc =>
      rw [scan_esc_cons] at h
      split at h
      · exact key _ h
      · split at h
        · exact key _ h
        · exact absurd h (by simp)
    | escU seen =>
      rw [scan_escU_cons] at h
      split at h
      · exact key _ h
      · exact absurd h (by simp)

theorem parseStringLit_ok_length (t s r : Bytes) (h : parseStringLit t = .ok (s, r)) :
    r.length < t.length := by
  unfold parseStringLit at h
  cases hs : scanStringAux .inString t with
  | none => simp [hs] at h
  | some p =>
    obtain ⟨lit, rest⟩ := p
    simp only [hs] at h
    cases hu : unquoteAux 0 lit with
    | none => simp [hu] at h
    | some out =>
      simp only [hu, Except.ok.injEq, Prod.mk.injEq] at h
      rw [← h.2]
      exact scanStringAux_length t _ lit rest hs

theorem parseStringLit_fuel_free (t : Bytes) : parseStringLit t ≠ .error .fuel := by
  unfold parseStringLit
  cases hs : scanStringAux .inString t with
  | none => simp
  | some p =>
    obtain ⟨lit, rest⟩ := p
    cases hu : unquoteAux 0 lit <;> simp [hu]

theorem spanDigits_length (s : Bytes) : (spanDigits s).2.length ≤ s.length := by
  induction s with
  | nil => simp [spanDigits]
  | cons c t ih =>
    simp only [spanDigits]
    split
    · simp only [List.length_cons]; omega
    · exact Nat.le_refl _

theorem scanExp_length (acc s lit r : Bytes) (h : scanExp acc s = some (lit, r)) :
    r.length ≤ s.length := by
  unfold scanExp at h
  cases s with
  | nil => simp at h; rw [← h.2]
  | cons c t =>
    simp only at h
    split at h
    · cases t with
      | nil => simp at h
      | cons c1 t1 =>
        simp only at h
        split at h
        · split at h
          · exact absurd h (by simp)
          · simp only [Option.some.injEq, Prod.mk.injEq] at h
            rw [← h.2]
            have := spanDigits_length t1
            simp only [List.length_cons]; omega
        · split at h
          · exact absurd h (by simp)
          · simp only [Option.some.injEq, Prod.mk.injEq] at h
            rw [← h.2]
            have := spanDigits_length (c1 :: t1)
            simp only [List.length_cons] at this ⊢; omega
    · simp only [Option.some.injEq, Prod.mk.injEq] at h
      rw [← h.2]

theorem scanFrac_length (acc s lit r : Bytes) (h : scanFrac acc s = some (lit, r)) :
    r.length ≤ s.length := by
  unfold scanFrac at h
  cases s with
  | nil => simp at h; rw [← h.2]
  | cons c t =>
    simp only at h
    split at h
    · split at h
      · exact absurd h (by simp)
      · have h1 := scanExp_length _ _ _ _ h
        have h2 := spanDigits_length t
        simp only [List.length_cons]; omega
    · exact scanExp_length _ _ _ _ h

theorem scanIntPart_length (acc s lit r : Bytes) (h : scanIntPart acc s = some (lit, r)) :
    r.length < s.length := by
  unfold scanIntPart at h
  cases s with
  | nil => simp at h
  | cons c t =>
    simp only at h
    split at h
    · have := scanFrac_length _ _ _ _ h
      simp only [List.length_cons]; omega
    · split at h
      · have h1 := scanFrac_length _ _ _ _ h
        have h2 := spanDigits_length t
        simp only [List.length_cons]; omega
      · exact absurd h (by simp)

theorem scanNumber_length (s lit r : Bytes) (h : scanNumber s = some (lit, r)) :
    r.length < s.length := by
  unfold scanNumber at h
  cases s with
  | nil => simp at h
  | cons c t =>
    simp only at h
    split at h
    · have := scanIntPart_length _ _ _ _ h
      simp only [List.length_cons]; omega
    · exact scanIntPart_length _ _ _ _ h

theorem parseWord_ok_length (w : Bytes) (v : JValue) (s : Bytes) (p : JValue × Bytes)
    (hw : w ≠ []) (h : parseWord w v s = .ok p) : p.2.length < s.length := by
  unfold parseWord at h
  split at h
  · rename_i htake
    simp only [Except.ok.injEq] at h
    rw [← h]
    have hlen : w.length ≤ s.length := by
      have := congrArg List.length htake
      simp only [List.length_take] at this
      omega
    have hpos : 0 < w.length := List.length_pos.2 hw
    simp only [List.length_drop]
    omega
  · exact absurd h (by simp)

theorem parseWord_fuel_free (w : Bytes) (v : JValue) (s : Bytes) :
    parseWord w v s ≠ .error .fuel := by
  unfold parseWord
  split <;> simp
theorem parseElems_progress (pv : Bytes → Except ScanError (JValue × Bytes))
    (hp : ∀ s v r, pv s = .ok (v, r) → r.length < s.length)
    (hf : ∀ s, pv s ≠ .error .fuel) (fuel : Nat) :
    ∀ s : Bytes, s.length < fuel →
      parseElems pv fuel s ≠ .error .fuel ∧
        ∀ vs r, parseElems pv fuel s = .ok (vs, r) → r.length < s.length := by
  induction fuel with
  | zero => intro s h; omega
  | succ fuel ih =>
    intro s hs
    rw [parseElems_succ]
    cases hpv : pv s with
    | error e =>
      refine ⟨?_, by simp⟩
      intro h
      simp only [Except.error.injEq] at h
      exact hf s (by rw [hpv, h])
    | ok p =>
      obtain ⟨v, r⟩ := p
      have hr := hp s v r hpv
      simp only
      cases hsk : skipSpace r with
      | nil => exact ⟨by simp, by simp⟩
      | cons c r1 =>
        have hlen : r1.length < r.length := by
          have := skipSpace_length r
          rw [hsk] at this
          simp only [List.length_cons] at this
          omega
        simp only
        by_cases hc : c.val = 0x2C
        · rw [if_pos hc]
          have hrec := ih r1 (by omega)
          cases hrest : parseElems pv fuel r1 with
          | error e =>
            refine ⟨?_, by simp⟩
            intro h
            simp only [Except.error.injEq] at h
            exact hrec.1 (by rw [hrest, h])
          | ok q =>
            obtain ⟨vs, r2⟩ := q
            refine ⟨by simp, ?_⟩
            intro vs' r' h
            simp only [Except.ok.injEq, Prod.mk.injEq] at h
            have := hrec.2 vs r2 hrest
            rw [← h.2]
            omega
        · rw [if_neg hc]
          by_cases hc2 : c.val = 0x5D
          · rw [if_pos hc2]
            refine ⟨by simp, ?_⟩
            intro vs' r' h
            simp only [Except.ok.injEq, Prod.mk.injEq] at h
            rw [← h.2]
            omega
          · rw [if_neg hc2]
            exact ⟨by simp, by simp⟩

theorem parseMembers_progress (pv : Bytes → Except ScanError (JValue × Bytes))
    (hp : ∀ s v r, pv s = .ok (v, r) → r.length < s.length)
    (hf : ∀ s, pv s ≠ .error .fuel) (fuel : Nat) :
    ∀ s : Bytes, s.length < fuel →
      parseMembers pv fuel s ≠ .error .fuel ∧
        ∀ ms r, parseMembers pv fuel s = .ok (ms, r) → r.length < s.length := by
  induction fuel with
  | zero => intro s h; omega
  | succ fuel ih =>
    intro s hs
    rw [parseMembers_succ]
    cases hsk0 : skipSpace s with
    | nil => exact ⟨by simp, by simp⟩
    | cons q t =>
      have hlen0 : t.length < s.length := by
        have := skipSpace_length s
        rw [hsk0] at this
        simp only [List.length_cons] at this
        omega
      simp only
      by_cases hq : q.val = 0x22
      · rw [if_pos hq]
        cases hkey : parseStringLit t with
        | error e =>
          refine ⟨?_, by simp⟩
          intro h
          simp only [Except.error.injEq] at h
          exact parseStringLit_fuel_free t (by rw [hkey, h])
        | ok kp =>
          obtain ⟨key, r⟩ := kp
          have hr := parseStringLit_ok_length t key r hkey
          simp only
          cases hsk1 : skipSpace r with
          | nil => exact ⟨by simp, by simp⟩
          | cons c r1 =>
            have hlen1 : r1.length < r.length := by
              have := skipSpace_length r
              rw [hsk1] at this
              simp only [List.length_cons] at this
              omega
            simp only
            by_cases hc : c.val = 0x3A
            · rw [if_pos hc]
              cases hpv : pv r1 with
              | error e =>
                refine ⟨?_, by simp⟩
                intro h
                simp only [Except.error.injEq] at h
                exact hf r1 (by rw [hpv, h])
              | ok p =>
                obtain ⟨v, r2⟩ := p
                have hr2 := hp r1 v r2 hpv
                simp only
                cases hsk2 : skipSpace r2 with
                | nil => exact ⟨by simp, by simp⟩
                | cons c2 r3 =>
                  have hlen2 : r3.length < r2.length := by
                    have := skipSpace_length r2
                    rw [hsk2] at this
                    simp only [List.length_cons] at this
                    omega
                  simp only
                  by_cases hc2 : c2.val = 0x2C
                  · rw [if_pos hc2]
                    have hrec := ih r3 (by omega)
                    cases hrest : parseMembers pv fuel r3 with
                    | error e =>
                      refine ⟨?_, by simp⟩
                      intro h
                      simp only [Except.error.injEq] at h
                      exact hrec.1 (by rw [hrest, h])
                    | ok m =>
                      obtain ⟨ms, r4⟩ := m
                      refine ⟨by simp, ?_⟩
                      intro ms' r' h
                      simp only [Except.ok.injEq, Prod.mk.injEq] at h
                      have := hrec.2 ms r4 hrest
                      rw [← h.2]
                      omega
                  · rw [if_neg hc2]
                    by_cases hc3 : c2.val = 0x7D
                    · rw [if_pos hc3]
                      refine ⟨by simp, ?_⟩
                      intro ms' r' h
                      simp only [Except.ok.injEq, Prod.mk.injEq] at h
                      rw [← h.2]
                      omega
                    · rw [if_neg hc3]
                      exact ⟨by simp, by simp⟩
            · rw [if_neg hc]
              exact ⟨by simp, by simp⟩
      · rw [if_neg hq]
        exact ⟨by simp, by simp⟩

theorem parseValue_zero_open (s t : Bytes) (c : Byte) (hs : skipSpace s = c :: t)
    (hc : c.val = 0x5B ∨ c.val = 0x7B) : parseValue 0 s = .error .maxDepth := by
  rw [parseValue]
  simp only [hs]
  rcases hc with h | h
  · rw [if_pos h]
  · rw [if_neg (by omega), if_pos h]

theorem parseValue_scalar (depth : Nat) (s t : Bytes) (c : Byte) (hs : skipSpace s = c :: t)
    (h1 : ¬ c.val = 0x5B) (h2 : ¬ c.val = 0x7B) :
    parseValue depth s =
      if c.val = 0x22 then
        match parseStringLit t with
        | .error e => .error e
        | .ok (str, r) => .ok (.str str, r)
      else if c.val = 0x74 then parseWord [0x74, 0x72, 0x75, 0x65] (.bool true) (c :: t)
      else if c.val = 0x66 then parseWord [0x66, 0x61, 0x6C, 0x73, 0x65] (.bool false) (c :: t)
      else if c.val = 0x6E then parseWord [0x6E, 0x75, 0x6C, 0x6C] .null (c :: t)
      else
        match scanNumber (c :: t) with
        | none => .error .invalid
        | some (lit, r) => .ok (.num lit, r) := by
  unfold parseValue
  simp only [hs]
  rw [if_neg h1, if_neg h2]
  try rfl

theorem parseValue_scalar_progress (depth : Nat) (s t : Bytes) (c : Byte)
    (hs : skipSpace s = c :: t) (h1 : ¬ c.val = 0x5B) (h2 : ¬ c.val = 0x7B) :
    parseValue depth s ≠ .error .fuel ∧
      ∀ v r, parseValue depth s = .ok (v, r) → r.length < s.length := by
  have hlen : (c :: t).length ≤ s.length := by
    have := skipSpace_length s
    rw [hs] at this
    exact this
  simp only [List.length_cons] at hlen
  rw [parseValue_scalar depth s t c hs h1 h2]
  by_cases hq : c.val = 0x22
  · rw [if_pos hq]
    cases hl : parseStringLit t with
    | error e =>
      refine ⟨?_, by simp⟩
      intro h
      simp only [Except.error.injEq] at h
      exact parseStringLit_fuel_free t (by rw [hl, h])
    | ok p =>
      obtain ⟨str, r⟩ := p
      refine ⟨by simp, ?_⟩
      intro v r' h
      simp only [Except.ok.injEq, Prod.mk.injEq] at h
      have := parseStringLit_ok_length t str r hl
      rw [← h.2]
      omega
  · rw [if_neg hq]
    have word : ∀ (w : Bytes) (x : JValue), w ≠ [] →
        parseWord w x (c :: t) ≠ .error .fuel ∧
          ∀ v r, parseWord w x (c :: t) = .ok (v, r) → r.length < s.length := by
      intro w x hw
      refine ⟨parseWord_fuel_free w x (c :: t), ?_⟩
      intro v r h
      have := parseWord_ok_length w x (c :: t) (v, r) hw h
      simp only [List.length_cons] at this
      omega
    by_cases ht : c.val = 0x74
    · rw [if_pos ht]; exact word _ _ (by simp)
    · rw [if_neg ht]
      by_cases hf : c.val = 0x66
      · rw [if_pos hf]; exact word _ _ (by simp)
      · rw [if_neg hf]
        by_cases hn : c.val = 0x6E
        · rw [if_pos hn]; exact word _ _ (by simp)
        · rw [if_neg hn]
          cases hnum : scanNumber (c :: t) with
          | none => exact ⟨by simp, by simp⟩
          | some p =>
            obtain ⟨lit, r⟩ := p
            refine ⟨by simp, ?_⟩
            intro v r' h
            simp only [Except.ok.injEq, Prod.mk.injEq] at h
            have := scanNumber_length (c :: t) lit r hnum
            simp only [List.length_cons] at this
            rw [← h.2]
            omega

/-- At every depth the scanner never reports the bound of its loops, and a value it
reads takes at least one byte. -/
theorem parseValue_progress (depth : Nat) :
    ∀ s : Bytes, parseValue depth s ≠ .error .fuel ∧
      ∀ v r, parseValue depth s = .ok (v, r) → r.length < s.length := by
  induction depth with
  | zero =>
    intro s
    cases hs : skipSpace s with
    | nil =>
      have : parseValue 0 s = .error .invalid := by
        rw [parseValue]; simp only [hs]
      rw [this]
      exact ⟨by simp, by simp⟩
    | cons c t =>
      by_cases hopen : c.val = 0x5B ∨ c.val = 0x7B
      · rw [parseValue_zero_open s t c hs hopen]
        exact ⟨by simp, by simp⟩
      · exact parseValue_scalar_progress 0 s t c hs (by omega) (by omega)
  | succ d ih =>
    intro s
    have hp : ∀ s v r, parseValue d s = .ok (v, r) → r.length < s.length :=
      fun s v r h => (ih s).2 v r h
    have hf : ∀ s, parseValue d s ≠ .error .fuel := fun s => (ih s).1
    cases hs : skipSpace s with
    | nil =>
      have : parseValue (d + 1) s = .error .invalid := by
        rw [parseValue]; simp only [hs]
      rw [this]
      exact ⟨by simp, by simp⟩
    | cons c t =>
      have hlen : t.length < s.length := by
        have := skipSpace_length s
        rw [hs] at this
        simp only [List.length_cons] at this
        omega
      by_cases ha : c.val = 0x5B
      · have hc : c = 0x5B := Fin.ext ha
        rw [hc] at hs
        rw [parseValue_array d s t hs]
        cases hsk : skipSpace t with
        | nil => exact ⟨by simp, by simp⟩
        | cons c1 t1 =>
          have hlen1 : t1.length < t.length := by
            have := skipSpace_length t
            rw [hsk] at this
            simp only [List.length_cons] at this
            omega
          simp only
          by_cases hc1 : c1.val = 0x5D
          · rw [if_pos hc1]
            refine ⟨by simp, ?_⟩
            intro v r h
            simp only [Except.ok.injEq, Prod.mk.injEq] at h
            rw [← h.2]
            omega
          · rw [if_neg hc1]
            have hloop := parseElems_progress (parseValue d) hp hf (t.length + 1) t (by omega)
            cases hel : parseElems (parseValue d) (t.length + 1) t with
            | error e =>
              refine ⟨?_, by simp⟩
              intro h
              simp only [Except.error.injEq] at h
              exact hloop.1 (by rw [hel, h])
            | ok p =>
              obtain ⟨vs, r⟩ := p
              refine ⟨by simp, ?_⟩
              intro v r' h
              simp only [Except.ok.injEq, Prod.mk.injEq] at h
              have := hloop.2 vs r hel
              rw [← h.2]
              omega
      · by_cases ho : c.val = 0x7B
        · have hc : c = 0x7B := Fin.ext ho
          rw [hc] at hs
          rw [parseValue_object d s t hs]
          cases hsk : skipSpace t with
          | nil => exact ⟨by simp, by simp⟩
          | cons c1 t1 =>
            have hlen1 : t1.length < t.length := by
              have := skipSpace_length t
              rw [hsk] at this
              simp only [List.length_cons] at this
              omega
            simp only
            by_cases hc1 : c1.val = 0x7D
            · rw [if_pos hc1]
              refine ⟨by simp, ?_⟩
              intro v r h
              simp only [Except.ok.injEq, Prod.mk.injEq] at h
              rw [← h.2]
              omega
            · rw [if_neg hc1]
              have hloop := parseMembers_progress (parseValue d) hp hf (t.length + 1) t
                (by omega)
              cases hel : parseMembers (parseValue d) (t.length + 1) t with
              | error e =>
                refine ⟨?_, by simp⟩
                intro h
                simp only [Except.error.injEq] at h
                exact hloop.1 (by rw [hel, h])
              | ok p =>
                obtain ⟨ms, r⟩ := p
                refine ⟨by simp, ?_⟩
                intro v r' h
                simp only [Except.ok.injEq, Prod.mk.injEq] at h
                have := hloop.2 ms r hel
                rw [← h.2]
                omega
        · exact parseValue_scalar_progress (d + 1) s t c hs ha ho

/-- The scanner never reports the bound of its loops: `ScanError.fuel` is no outcome of
`parseJSON`. -/
theorem parseJSON_fuel_free (data : Bytes) : parseJSON data ≠ .error .fuel := by
  unfold parseJSON
  cases h : parseValue maxNestingDepth data with
  | error e =>
    intro h2
    simp only [Except.error.injEq] at h2
    exact (parseValue_progress maxNestingDepth data).1 (by rw [h, h2])
  | ok p =>
    simp only
    split <;> simp

/-! ## `unquoteBytes` accepts every literal the scanner has delimited -/

theorem map_cons_eq_some {c : Byte} {o : Option (Bytes × Bytes)} {lit rest : Bytes}
    (h : o.map (fun p => (c :: p.1, p.2)) = some (lit, rest)) :
    ∃ lit', lit = c :: lit' ∧ o = some (lit', rest) := by
  cases o with
  | none => simp at h
  | some p =>
    simp only [Option.map_some', Option.some.injEq, Prod.mk.injEq] at h
    exact ⟨p.1, h.1.symm, by rw [← h.2]⟩

/-- The text the scanner returns for a literal is itself a literal: scanning it again,
closed by a quote, returns it. -/
theorem scan_literal (t : Bytes) : ∀ (st : StrState) (lit rest : Bytes),
    scanStringAux st t = some (lit, rest) →
      scanStringAux st (lit ++ [0x22]) = some (lit, []) := by
  induction t with
  | nil => intro st lit rest h; cases st <;> simp [scanStringAux] at h
  | cons c t ih =>
    intro st lit rest h
    cases st with
    | inString =>
      rw [scan_inString_cons] at h
      by_cases h1 : c.val = 0x22
      · rw [if_pos h1] at h
        simp only [Option.some.injEq, Prod.mk.injEq] at h
        rw [← h.1]
        rfl
      · rw [if_neg h1] at h
        by_cases h2 : c.val = 0x5C
        · rw [if_pos h2] at h
          obtain ⟨lit', hl, hs⟩ := map_cons_eq_some h
          rw [hl, List.cons_append, scan_inString_cons, if_neg h1, if_pos h2,
            ih _ _ _ hs]
          rfl
        · rw [if_neg h2] at h
          by_cases h3 : c.val < 0x20
          · rw [if_pos h3] at h
            exact absurd h (by simp)
          · rw [if_neg h3] at h
            obtain ⟨lit', hl, hs⟩ := map_cons_eq_some h
            rw [hl, List.cons_append, scan_inString_cons, if_neg h1, if_neg h2, if_neg h3,
              ih _ _ _ hs]
            rfl
    | esc =>
      rw [scan_esc_cons] at h
      split at h
      · rename_i hc
        obtain ⟨lit', hl, hs⟩ := map_cons_eq_some h
        rw [hl, List.cons_append, scan_esc_cons, if_pos hc, ih _ _ _ hs]
        rfl
      · rename_i hc
        split at h
        · rename_i hu
          obtain ⟨lit', hl, hs⟩ := map_cons_eq_some h
          rw [hl, List.cons_append, scan_esc_cons, if_neg hc, if_pos hu, ih _ _ _ hs]
          rfl
        · exact absurd h (by simp)
    | escU seen =>
      rw [scan_escU_cons] at h
      split at h
      · rename_i hx
        obtain ⟨lit', hl, hs⟩ := map_cons_eq_some h
        rw [hl, List.cons_append, scan_escU_cons, if_pos hx, ih _ _ _ hs]
        rfl
      · exact absurd h (by simp)

theorem hexVal_of_isHex (h : Byte) (hx : isHex h = true) : ∃ v, hexVal h = some v := by
  simp only [isHex, Bool.or_eq_true, Bool.and_eq_true, decide_eq_true_eq] at hx
  unfold hexVal
  split
  · exact ⟨_, rfl⟩
  · split
    · exact ⟨_, rfl⟩
    · split
      · exact ⟨_, rfl⟩
      · omega

theorem isHex_of_hexVal (h : Byte) (v : Nat) (hv : hexVal h = some v) : isHex h = true := by
  unfold hexVal at hv
  simp only [isHex, Bool.or_eq_true, Bool.and_eq_true, decide_eq_true_eq]
  split at hv
  · omega
  · split at hv
    · omega
    · split at hv
      · omega
      · exact absurd hv (by simp)

/-- Where `getu4` finds an escape, the text starts with a backslash, `u` and four
hexadecimal digits. -/
theorem getu4_some (s : Bytes) (r : Nat) (h : getu4 s = some r) :
    ∃ a b c d rest, s = 0x5C :: 0x75 :: a :: b :: c :: d :: rest ∧ isHex a = true ∧
      isHex b = true ∧ isHex c = true ∧ isHex d = true := by
  unfold getu4 at h
  split at h
  · rename_i b0 u a b c d rest
    split at h
    · rename_i hbu
      split at h
      · rename_i va vb vc vd ha hb hc hd
        refine ⟨a, b, c, d, rest, ?_, isHex_of_hexVal a va ha, isHex_of_hexVal b vb hb,
          isHex_of_hexVal c vc hc, isHex_of_hexVal d vd hd⟩
        have e1 : b0 = 0x5C := Fin.ext hbu.1
        have e2 : u = 0x75 := Fin.ext hbu.2
        rw [e1, e2]
      · exact absurd h (by simp)
    · exact absurd h (by simp)
  · exact absurd h (by simp)

theorem getu4_of_hex (a b c d : Byte) (rest : Bytes) (ha : isHex a = true)
    (hb : isHex b = true) (hc : isHex c = true) (hd : isHex d = true) :
    ∃ r, getu4 (0x5C :: 0x75 :: a :: b :: c :: d :: rest) = some r := by
  obtain ⟨va, hva⟩ := hexVal_of_isHex a ha
  obtain ⟨vb, hvb⟩ := hexVal_of_isHex b hb
  obtain ⟨vc, hvc⟩ := hexVal_of_isHex c hc
  obtain ⟨vd, hvd⟩ := hexVal_of_isHex d hd
  refine ⟨((va * 16 + vb) * 16 + vc) * 16 + vd, ?_⟩
  simp only [getu4, hva, hvb, hvc, hvd]
  rw [if_pos ⟨by decide, by decide⟩]

/-- After `u` the scanner takes four hexadecimal digits, then goes on inside the string. -/
theorem scan_escU_literal (l : Bytes) (h : scanStringAux (.escU 0) (l ++ [0x22]) = some (l, [])) :
    ∃ a b c d l4, l = a :: b :: c :: d :: l4 ∧ isHex a = true ∧ isHex b = true ∧
      isHex c = true ∧ isHex d = true ∧
      scanStringAux .inString (l4 ++ [0x22]) = some (l4, []) := by
  have step : ∀ (seen : Nat) (x : Bytes),
      scanStringAux (.escU seen) (x ++ [0x22]) = some (x, []) →
      ∃ a x', x = a :: x' ∧ isHex a = true ∧
        scanStringAux (if seen < 3 then .escU (seen + 1) else .inString) (x' ++ [0x22]) =
          some (x', []) := by
    intro seen x hx
    cases x with
    | nil =>
      rw [List.nil_append, scan_escU_cons, if_neg (by decide)] at hx
      exact absurd hx (by simp)
    | cons a x' =>
      rw [List.cons_append, scan_escU_cons] at hx
      by_cases ha : isHex a = true
      · rw [if_pos ha] at hx
        obtain ⟨lit', hl, hs⟩ := map_cons_eq_some hx
        simp only [List.cons.injEq, true_and] at hl
        rw [← hl] at hs
        exact ⟨a, x', rfl, ha, hs⟩
      · rw [if_neg ha] at hx
        exact absurd hx (by simp)
  obtain ⟨a, l1, e1, ha, h1⟩ := step 0 l h
  rw [if_pos (by decide)] at h1
  obtain ⟨b, l2, e2, hb, h2⟩ := step 1 l1 h1
  rw [if_pos (by decide)] at h2
  obtain ⟨c, l3, e3, hc, h3⟩ := step 2 l2 h2
  rw [if_pos (by decide)] at h3
  obtain ⟨d, l4, e4, hd, h4⟩ := step 3 l3 h3
  rw [if_neg (by decide)] at h4
  exact ⟨a, b, c, d, l4, by rw [e1, e2, e3, e4], ha, hb, hc, hd, h4⟩
theorem scan_after_piece (x l : Bytes)
    (hpiece : ∀ y, scanStringAux .inString (x ++ y) =
      (scanStringAux .inString y).map (fun p => (x ++ p.1, p.2)))
    (h : scanStringAux .inString ((x ++ l) ++ [0x22]) = some (x ++ l, [])) :
    scanStringAux .inString (l ++ [0x22]) = some (l, []) := by
  rw [List.append_assoc, hpiece] at h
  cases hs : scanStringAux .inString (l ++ [0x22]) with
  | none => rw [hs] at h; simp at h
  | some p =>
    rw [hs] at h
    simp only [Option.map_some', Option.some.injEq, Prod.mk.injEq] at h
    have h1 := List.append_cancel_left h.1
    obtain ⟨p1, p2⟩ := p
    simp only at h1 h
    rw [h1, h.2]

/-- The function `unquoteBytes` returns a string for every literal the scanner has
delimited: the refusal in `parseStringLit` is never taken. -/
theorem unquote_of_literal : ∀ (n : Nat) (lit : Bytes), lit.length = n →
    scanStringAux .inString (lit ++ [0x22]) = some (lit, []) →
    ∃ out, unquoteAux 0 lit = some out := by
  intro n
  induction n using Nat.strong_induction_on with
  | _ n ih =>
    intro lit hn h
    cases lit with
    | nil => exact ⟨[], rfl⟩
    | cons c l =>
      simp only [List.length_cons] at hn
      have hcopy := h
      rw [List.cons_append, scan_inString_cons] at h
      by_cases h1 : c.val = 0x22
      · rw [if_pos h1] at h
        simp at h
      · rw [if_neg h1] at h
        by_cases h2 : c.val = 0x5C
        · have hc : c = 0x5C := Fin.ext h2
          rw [if_pos h2] at h
          obtain ⟨lit', hl, hs⟩ := map_cons_eq_some h
          simp only [List.cons.injEq, true_and] at hl
          rw [← hl] at hs
          cases l with
          | nil =>
            rw [List.nil_append, scan_esc_cons, if_pos (by decide)] at hs
            simp [scanStringAux] at hs
          | cons e l2 =>
            simp only [List.length_cons] at hn
            rw [List.cons_append, scan_esc_cons] at hs
            by_cases he : e.val = 0x62 ∨ e.val = 0x66 ∨ e.val = 0x6E ∨ e.val = 0x72 ∨
                e.val = 0x74 ∨ e.val = 0x5C ∨ e.val = 0x2F ∨ e.val = 0x22
            · rw [if_pos he] at hs
              obtain ⟨lit2, hl2, hs2⟩ := map_cons_eq_some hs
              simp only [List.cons.injEq, true_and] at hl2
              rw [← hl2] at hs2
              obtain ⟨out, hout⟩ := ih l2.length (by omega) l2 rfl hs2
              have hskip : unquoteAux 1 (e :: l2) = some out := by
                rw [unquoteAux_skip 1]; simpa using hout
              rw [hc, unquote_backslash, hskip]
              split
              · exact ⟨_, rfl⟩
              · split
                · exact ⟨_, rfl⟩
                · split
                  · exact ⟨_, rfl⟩
                  · split
                    · exact ⟨_, rfl⟩
                    · split
                      · exact ⟨_, rfl⟩
                      · split
                        · exact ⟨_, rfl⟩
                        · omega
            · rw [if_neg he] at hs
              by_cases hu : e.val = 0x75
              · have heu : e = 0x75 := Fin.ext hu
                rw [if_pos hu] at hs
                obtain ⟨lit2, hl2, hs2⟩ := map_cons_eq_some hs
                simp only [List.cons.injEq, true_and] at hl2
                rw [← hl2] at hs2
                obtain ⟨a, b, c', d, l4, hl4, ha, hb, hcx, hd, hs4⟩ := scan_escU_literal l2 hs2
                subst hl4
                simp only [List.length_cons] at hn
                obtain ⟨out4, hout4⟩ := ih l4.length (by omega) l4 rfl hs4
                obtain ⟨rr, hrr⟩ := getu4_of_hex a b c' d l4 ha hb hcx hd
                have hskip5 : unquoteAux 5 (0x75 :: a :: b :: c' :: d :: l4) = some out4 := by
                  rw [unquoteAux_skip 5]; simpa using hout4
                rw [hc, heu, unquote_backslash]
                rw [if_neg (by decide), if_neg (by decide), if_neg (by decide),
                  if_neg (by decide), if_neg (by decide), if_neg (by decide),
                  if_pos (by decide)]
                simp only [hrr]
                by_cases hsur : isSurrogate rr = true
                · rw [if_pos hsur]
                  have hdrop : List.drop 5 (0x75 :: a :: b :: c' :: d :: l4) = l4 := rfl
                  rw [hdrop]
                  cases hpair : utf16Decode rr (getu4 l4) with
                  | none =>
                    simp only [hskip5]
                    exact ⟨_, rfl⟩
                  | some dec =>
                    simp only
                    cases hg : getu4 l4 with
                    | none => rw [hg] at hpair; simp [utf16Decode] at hpair
                    | some r2 =>
                      obtain ⟨a2, b2, c2, d2, l5, hl5, ha2, hb2, hc2, hd2⟩ := getu4_some l4 r2 hg
                      subst hl5
                      have hs5 := scan_after_piece [0x5C, 0x75, a2, b2, c2, d2] l5
                        (fun y => scan_escapeU a2 b2 c2 d2 ha2 hb2 hc2 hd2 y) hs4
                      simp only [List.length_cons] at hn
                      obtain ⟨out5, hout5⟩ := ih l5.length (by omega) l5 rfl hs5
                      have hskip11 : unquoteAux 11
                          (0x75 :: a :: b :: c' :: d :: 0x5C :: 0x75 :: a2 :: b2 :: c2 :: d2 :: l5)
                          = some out5 := by
                        rw [unquoteAux_skip 11]; simpa using hout5
                      rw [hskip11]
                      exact ⟨_, rfl⟩
                · rw [if_neg hsur, hskip5]
                  exact ⟨_, rfl⟩
              · rw [if_neg hu] at hs
                exact absurd hs (by simp)
        · rw [if_neg h2] at h
          by_cases h3 : c.val < 0x20
          · rw [if_pos h3] at h
            exact absurd h (by simp)
          · rw [if_neg h3] at h
            obtain ⟨lit', hl, hs⟩ := map_cons_eq_some h
            simp only [List.cons.injEq, true_and] at hl
            rw [← hl] at hs
            by_cases h4 : c.val < 0x80
            · obtain ⟨out, hout⟩ := ih l.length (by omega) l rfl hs
              rw [unquote_plain c ⟨h2, h1, h3, h4⟩, hout]
              exact ⟨_, rfl⟩
            · rcases decodeRune_cases c l h4 with hbad | ⟨chunk, rest2, hsplit, hrune, _⟩
              · obtain ⟨out, hout⟩ := ih l.length (by omega) l rfl hs
                rw [unquote_other c l h2, if_neg (by omega), if_neg h4, hbad]
                simp only [Nat.sub_self, hout]
                exact ⟨_, rfl⟩
              · rw [hsplit] at hcopy ⊢
                have hpiece := scan_plain chunk
                  (fun x hx => by have := hrune.high x hx; omega)
                have hs2 := scan_after_piece chunk rest2 hpiece hcopy
                have hlen : rest2.length < n := by
                  have e1 := congrArg List.length hsplit
                  simp only [List.length_cons, List.length_append] at e1
                  have := hrune.long
                  omega
                obtain ⟨out, hout⟩ := ih rest2.length hlen rest2 rfl hs2
                rw [unquote_rune chunk _ hrune, hout]
                exact ⟨_, rfl⟩

/-- A string literal the scanner accepts is never refused by `parseStringLit` for its
escapes: the outcome is a syntax error only where the scanner reports one. -/
theorem parseStringLit_error_iff (t : Bytes) :
    (∃ e, parseStringLit t = .error e) ↔ scanStringAux .inString t = none := by
  unfold parseStringLit
  cases hs : scanStringAux .inString t with
  | none => simp
  | some p =>
    obtain ⟨lit, rest⟩ := p
    obtain ⟨out, hout⟩ := unquote_of_literal lit.length lit rfl
      (scan_literal t .inString lit rest hs)
    simp [hout]

/-! ## Reading a JSON text: blanks and string literals -/

theorem Blank.tail {c : Byte} {t : Bytes} (h : Blank (c :: t)) : Blank t :=
  fun x hx => h x (List.mem_cons_of_mem _ hx)

/-- The scanner passes over a run of blanks. -/
theorem skipSpace_blank (w s : Bytes) (hw : Blank w) : skipSpace (w ++ s) = skipSpace s := by
  induction w with
  | nil => rfl
  | cons c t ih =>
    have hc := (isBlank_iff c).1 (hw c (List.mem_cons_self _ _))
    rw [List.cons_append, skipSpace, if_pos hc, ih hw.tail]

/-- Blanks in front of a value change nothing to how it is read. -/
theorem parseValue_blank (d : Nat) (w s : Bytes) (hw : Blank w) :
    parseValue d (w ++ s) = parseValue d s := by
  rw [parseValue, parseValue, skipSpace_blank w s hw]

/-- The function `unquoteBytes` copies a run of raw characters. -/
theorem unquote_raw : ∀ run : Bytes,
    (∀ c ∈ run, ¬ c.val = 0x22 ∧ ¬ c.val = 0x5C ∧ ¬ c.val < 0x20) →
    validUTF8Aux 0 run = true →
    ∀ y, unquoteAux 0 (run ++ y) = (unquoteAux 0 y).map (fun out => run ++ out) := by
  intro run
  induction run using bytes_induction with
  | hnil => intro _ _ y; simp
  | hascii b t hb ih =>
    intro hplain hv y
    have hc := hplain b (List.mem_cons_self _ _)
    rw [validUTF8Aux_ascii b t hb] at hv
    rw [List.cons_append, unquote_plain b ⟨hc.2.1, hc.1, hc.2.2, hb⟩,
      ih (fun x hx => hplain x (List.mem_cons_of_mem _ hx)) hv y, Option.map_map]
    rfl
  | hbad b t hb hbad ih =>
    intro _ hv
    rw [validUTF8Aux_bad b t hb hbad] at hv
    exact absurd hv (by decide)
  | hrune chunk rest r hr ih =>
    intro hplain hv y
    rw [validUTF8Aux_rune chunk rest r hr] at hv
    rw [List.append_assoc, unquote_rune chunk r hr,
      ih (fun x hx => hplain x (List.mem_append_right _ hx)) hv y, Option.map_map]
    congr 1
    funext out
    simp

/-- The function `unquoteBytes` reads a two-character escape as its character. -/
theorem unquote_short (e d : Byte) (he : shortEscape e = some d) (y : Bytes) :
    unquoteAux 0 (0x5C :: e :: y) = (unquoteAux 0 y).map (fun out => d :: out) := by
  unfold shortEscape at he
  rw [unquote_backslash]
  by_cases h1 : e.val = 0x22 ∨ e.val = 0x5C ∨ e.val = 0x2F
  · rw [if_pos h1] at he
    injection he with he
    subst he
    rw [if_pos (by omega), unquoteAux_skip 1]
    simp
  · rw [if_neg h1] at he
    rw [unquoteAux_skip 1, unquoteAux_skip 5, unquoteAux_skip 11]
    by_cases h2 : e.val = 0x62
    · rw [if_pos h2] at he; injection he with he; subst he
      rw [if_neg (by omega), if_pos h2]; simp
    · rw [if_neg h2] at he
      by_cases h3 : e.val = 0x66
      · rw [if_pos h3] at he; injection he with he; subst he
        rw [if_neg (by omega), if_neg h2, if_pos h3]; simp
      · rw [if_neg h3] at he
        by_cases h4 : e.val = 0x6E
        · rw [if_pos h4] at he; injection he with he; subst he
          rw [if_neg (by omega), if_neg h2, if_neg h3, if_pos h4]; simp
        · rw [if_neg h4] at he
          by_cases h5 : e.val = 0x72
          · rw [if_pos h5] at he; injection he with he; subst he
            rw [if_neg (by omega), if_neg h2, if_neg h3, if_neg h4, if_pos h5]; simp
          · rw [if_neg h5] at he
            by_cases h6 : e.val = 0x74
            · rw [if_pos h6] at he; injection he with he; subst he
              rw [if_neg (by omega), if_neg h2, if_neg h3, if_neg h4, if_neg h5, if_pos h6]
              simp
            · rw [if_neg h6] at he
              exact absurd he (by simp)

theorem shortEscape_scans (e d : Byte) (he : shortEscape e = some d) :
    e.val = 0x62 ∨ e.val = 0x66 ∨ e.val = 0x6E ∨ e.val = 0x72 ∨ e.val = 0x74 ∨
      e.val = 0x5C ∨ e.val = 0x2F ∨ e.val = 0x22 := by
  unfold shortEscape at he
  by_contra hcon
  rw [if_neg (by omega), if_neg (by omega), if_neg (by omega), if_neg (by omega),
    if_neg (by omega), if_neg (by omega)] at he
  exact absurd he (by simp)

theorem hex4_some (a b c d : Byte) (r : Nat) (h : hex4 a b c d = some r) :
    ∃ va vb vc vd, hexVal a = some va ∧ hexVal b = some vb ∧ hexVal c = some vc ∧
      hexVal d = some vd ∧ r = ((va * 16 + vb) * 16 + vc) * 16 + vd := by
  unfold hex4 at h
  cases ha : hexVal a with
  | none => simp [ha] at h
  | some va =>
    cases hb : hexVal b with
    | none => simp [ha, hb] at h
    | some vb =>
      cases hc : hexVal c with
      | none => simp [ha, hb, hc] at h
      | some vc =>
        cases hd : hexVal d with
        | none => simp [ha, hb, hc, hd] at h
        | some vd =>
          simp only [ha, hb, hc, hd, Option.some.injEq] at h
          exact ⟨va, vb, vc, vd, rfl, rfl, rfl, rfl, h.symm⟩

theorem getu4_hex4 (a b c d : Byte) (y : Bytes) :
    getu4 (0x5C :: 0x75 :: a :: b :: c :: d :: y) = hex4 a b c d := by
  have h2 : (0x5C : Byte).val = 0x5C := by decide
  have h4 : (0x75 : Byte).val = 0x75 := by decide
  simp only [getu4, hex4, h2, h4, and_self, if_true]
  try rfl

/-- The function `unquoteBytes` reads two `u` escapes that form a surrogate pair as
the one code point of the pair. -/
theorem unquote_pair (a b c d a2 b2 c2 d2 : Byte) (hi lo : Nat)
    (hhi : hex4 a b c d = some hi) (hlo : hex4 a2 b2 c2 d2 = some lo)
    (h1 : 0xD800 ≤ hi ∧ hi < 0xDC00) (h2 : 0xDC00 ≤ lo ∧ lo < 0xE000) (y : Bytes) :
    unquoteAux 0
        (0x5C :: 0x75 :: a :: b :: c :: d :: 0x5C :: 0x75 :: a2 :: b2 :: c2 :: d2 :: y) =
      (unquoteAux 0 y).map
        (fun out => encodeRune (pairRune hi lo) ++ out) := by
  have hs : isSurrogate hi = true := by
    simp only [isSurrogate, Bool.and_eq_true, decide_eq_true_eq]
    omega
  have hdec : utf16Decode hi (some lo) = some (pairRune hi lo) := by
    unfold pairRune
    have hc : 0xD800 ≤ hi ∧ hi < 0xDC00 ∧ 0xDC00 ≤ lo ∧ lo < 0xE000 := ⟨h1.1, h1.2, h2.1, h2.2⟩
    simp only [utf16Decode, hc, and_self, if_true, Option.some.injEq]
    omega
  rw [unquote_backslash, if_neg (by decide), if_neg (by decide), if_neg (by decide),
    if_neg (by decide), if_neg (by decide), if_neg (by decide), if_pos (by decide),
    getu4_hex4, hhi]
  simp only [hs, if_true, List.drop_succ_cons, List.drop_zero, getu4_hex4, hlo, hdec]
  rw [unquoteAux_skip 11]
  simp

/-- The scanner passes over every spelling of a string. -/
theorem spells_scan {lit s : Bytes} (h : Spells lit s) : ∀ y,
    scanStringAux .inString (lit ++ y) =
      (scanStringAux .inString y).map (fun p => (lit ++ p.1, p.2)) := by
  induction h with
  | done => intro y; simp
  | raw run lit s hplain hvalid _ ih =>
    intro y
    rw [List.append_assoc, scan_plain run hplain, ih y, Option.map_map]
    congr 1
    funext p
    simp
  | short e d lit s he _ ih =>
    intro y
    rw [List.cons_append, List.cons_append, scan_escape e (shortEscape_scans e d he), ih y,
      Option.map_map]
    rfl
  | unit a b c d r lit s hr hns _ ih =>
    intro y
    obtain ⟨va, vb, vc, vd, ha, hb, hc, hd, _⟩ := hex4_some a b c d r hr
    simp only [List.cons_append]
    rw [scan_escapeU a b c d (isHex_of_hexVal a va ha) (isHex_of_hexVal b vb hb)
      (isHex_of_hexVal c vc hc) (isHex_of_hexVal d vd hd), ih y, Option.map_map]
    rfl
  | pair a b c d a2 b2 c2 d2 hi lo lit s hhi hlo h1 h2 _ ih =>
    intro y
    obtain ⟨va, vb, vc, vd, ha, hb, hc, hd, _⟩ := hex4_some a b c d hi hhi
    obtain ⟨wa, wb, wc, wd, ha2, hb2, hc2, hd2, _⟩ := hex4_some a2 b2 c2 d2 lo hlo
    simp only [List.cons_append]
    rw [scan_escapeU a b c d (isHex_of_hexVal a va ha) (isHex_of_hexVal b vb hb)
      (isHex_of_hexVal c vc hc) (isHex_of_hexVal d vd hd),
      scan_escapeU a2 b2 c2 d2 (isHex_of_hexVal a2 wa ha2) (isHex_of_hexVal b2 wb hb2)
      (isHex_of_hexVal c2 wc hc2) (isHex_of_hexVal d2 wd hd2), ih y, Option.map_map,
      Option.map_map]
    rfl

theorem map_append_append (p s : Bytes) (o : Option Bytes) :
    (o.map (fun out => s ++ out)).map (fun out => p ++ out) =
      o.map (fun out => p ++ s ++ out) := by
  cases o with
  | none => rfl
  | some x => simp only [Option.map_some', List.append_assoc]

/-- The function `unquoteBytes` reads every spelling of a string as that string. -/
theorem spells_unquote {lit s : Bytes} (h : Spells lit s) : ∀ y,
    unquoteAux 0 (lit ++ y) = (unquoteAux 0 y).map (fun out => s ++ out) := by
  induction h with
  | done => intro y; simp
  | raw run lit s hplain hvalid _ ih =>
    intro y
    rw [List.append_assoc, unquote_raw run hplain hvalid, ih y, Option.map_map]
    congr 1
    funext out
    simp
  | short e d lit s he _ ih =>
    intro y
    rw [List.cons_append, List.cons_append, unquote_short e d he, ih y, Option.map_map]
    rfl
  | unit a b c d r lit s hr hns _ ih =>
    intro y
    obtain ⟨va, vb, vc, vd, ha, hb, hc, hd, hval⟩ := hex4_some a b c d r hr
    subst hval
    simp only [List.cons_append]
    rw [unquote_escapeU a b c d va vb vc vd ha hb hc hd hns, ih y, Option.map_map]
    congr 1
    funext out
    simp
  | pair a b c d a2 b2 c2 d2 hi lo lit s hhi hlo h1 h2 _ ih =>
    intro y
    simp only [List.cons_append]
    rw [unquote_pair a b c d a2 b2 c2 d2 hi lo hhi hlo h1 h2 (lit ++ y), ih y]
    exact map_append_append _ _ _

/-- A spelling of a string, its opening quote read, is read as the string, up to and
including the closing quote. -/
theorem parseStringLit_spells {lit s : Bytes} (h : Spells lit s) (rest : Bytes) :
    parseStringLit (lit ++ 0x22 :: rest) = .ok (s, rest) := by
  have hscan := spells_scan h (0x22 :: rest)
  rw [scan_inString_cons, if_pos (by decide)] at hscan
  have hunq := spells_unquote h []
  simp only [List.append_nil, unquoteAux, Option.map_some'] at hunq
  simp only [parseStringLit, hscan, Option.map_some', List.append_nil, hunq]

/-- Every text of a string is read as the string. -/
theorem reads_stringOf (d : Nat) (s : Bytes) : Reads (parseValue d) (StringOf s) (.str s) := by
  intro x hx rest
  obtain ⟨lit, hlit, rfl⟩ := hx
  have hs : skipSpace (0x22 :: (lit ++ [0x22]) ++ rest) = 0x22 :: (lit ++ 0x22 :: rest) := by
    simp only [List.cons_append, List.append_assoc, List.singleton_append]
    exact skipSpace_cons _ _ (by decide)
  rw [parseValue_string d _ _ hs, parseStringLit_spells hlit]
/-! ## Reading a JSON text: numbers, arrays, objects, the whole text -/

theorem reads_inside {pv : Bytes → Except ScanError (JValue × Bytes)} {P : Bytes → Prop}
    {v : JValue} (h : Reads pv P v) : ReadsInside pv P v :=
  fun x hx c rest _ => h x hx (c :: rest)

theorem blank_append_end (w : Bytes) (hw : Blank w) (c : Byte) (hc : isEnd c) (rest : Bytes) :
    ∃ c2 t, w ++ c :: rest = c2 :: t ∧ isEnd c2 := by
  cases w with
  | nil => exact ⟨c, rest, rfl, hc⟩
  | cons b t => exact ⟨b, t ++ c :: rest, rfl, Or.inl (hw b (List.mem_cons_self _ _))⟩

/-- A value between blanks, in front of a delimiter: the blanks before it are passed
over, the value is read, the blanks after it are left. -/
theorem parseValue_item (d : Nat) (P : Bytes → Prop) (v : JValue)
    (hP : ReadsInside (parseValue d) P v) (w1 x w2 : Bytes) (h1 : Blank w1) (hx : P x)
    (h2 : Blank w2) (c : Byte) (hc : isDelim c) (rest : Bytes) :
    parseValue d (w1 ++ (x ++ (w2 ++ c :: rest))) = .ok (v, w2 ++ c :: rest) := by
  obtain ⟨c2, t, e, he⟩ := blank_append_end w2 h2 c (Or.inr hc) rest
  rw [parseValue_blank d w1 _ h1, e]
  exact hP x hx c2 t he

theorem skipSpace_blank_delim (w : Bytes) (hw : Blank w) (c : Byte) (hc : isDelim c)
    (rest : Bytes) : skipSpace (w ++ c :: rest) = c :: rest := by
  rw [skipSpace_blank w _ hw]
  simp only [isDelim] at hc
  exact skipSpace_cons _ _ (by omega)

theorem itemsText_length {α : Type} {T : α → Bytes → Prop} {items : List α} {y : Bytes}
    (h : ItemsText T items y) : items.length ≤ y.length + 1 := by
  induction h with
  | last a w1 x w2 _ _ _ => simp
  | more a rest w1 x w2 y _ _ _ _ ih =>
    simp only [List.length_cons, List.length_append] at ih ⊢
    omega

/-- The elements of an array, each between blanks, with commas between them and closed
by a bracket, are read one by one, given fuel for each of them. -/
theorem parseElems_items (d : Nat) {elems : List (Bytes → Prop)} {y : Bytes}
    (h : ItemsText (fun (P : Bytes → Prop) x => P x) elems y) :
    ∀ (vs : List JValue), List.Forall₂ (ReadsInside (parseValue d)) elems vs →
    ∀ (fuel : Nat) (rest : Bytes), elems.length ≤ fuel →
      parseElems (parseValue d) fuel (y ++ 0x5D :: rest) = .ok (vs, rest) := by
  induction h with
  | last P w1 x w2 h1 hx h2 =>
    intro vs hvs fuel rest hfuel
    cases hvs with
    | @cons _ v _ vs2 hP hnil =>
      cases hnil
      cases fuel with
      | zero => simp at hfuel
      | succ fuel =>
        have hpv := parseValue_item d P v hP w1 x w2 h1 hx h2 0x5D (Or.inr (Or.inl rfl)) rest
        have hsp := skipSpace_blank_delim w2 h2 0x5D (Or.inr (Or.inl rfl)) rest
        rw [parseElems_succ]
        simp only [List.append_assoc, hpv, hsp]
        rw [if_neg (by decide), if_pos (by decide)]
  | more P elems2 w1 x w2 y h1 hx h2 _ ih =>
    intro vs hvs fuel rest hfuel
    cases hvs with
    | @cons _ v _ vs2 hP hrest =>
      cases fuel with
      | zero => simp at hfuel
      | succ fuel =>
        have hpv := parseValue_item d P v hP w1 x w2 h1 hx h2 0x2C (Or.inl rfl)
          (y ++ 0x5D :: rest)
        have hsp := skipSpace_blank_delim w2 h2 0x2C (Or.inl rfl) (y ++ 0x5D :: rest)
        have hih := ih vs2 hrest fuel rest (by simpa using hfuel)
        rw [parseElems_succ]
        simp only [List.append_assoc, List.cons_append, hpv, hsp]
        rw [if_pos (by decide), hih]

theorem parseElems_ok_first (pv : Bytes → Except ScanError (JValue × Bytes)) (fuel : Nat)
    (s : Bytes) (r : List JValue × Bytes) (h : parseElems pv (fuel + 1) s = .ok r) :
    ∃ p, pv s = .ok p := by
  rw [parseElems_succ] at h
  cases hp : pv s with
  | error e => rw [hp] at h; exact absurd h (by simp)
  | ok p => exact ⟨p, rfl⟩

/-- Every text of an array is read as the array of its elements, one level of nesting
above them. -/
theorem reads_arrayOf (d : Nat) (elems : List (Bytes → Prop)) (vs : List JValue)
    (h : List.Forall₂ (ReadsInside (parseValue d)) elems vs) :
    Reads (parseValue (d + 1)) (ArrayOf elems) (.arr vs) := by
  intro x hx rest
  rcases hx with ⟨hnil, w, hw, rfl⟩ | ⟨y, hy, rfl⟩
  · subst hnil
    cases h
    have hs : skipSpace (0x5B :: (w ++ [0x5D]) ++ rest) = 0x5B :: (w ++ 0x5D :: rest) := by
      simp only [List.cons_append, List.append_assoc, List.singleton_append]
      exact skipSpace_cons _ _ (by decide)
    rw [parseValue_array d _ _ hs,
      skipSpace_blank_delim w hw 0x5D (Or.inr (Or.inl rfl)) rest]
    simp only []
    rw [if_pos (by decide)]
  · have hs : skipSpace (0x5B :: (y ++ [0x5D]) ++ rest) = 0x5B :: (y ++ 0x5D :: rest) := by
      simp only [List.cons_append, List.append_assoc, List.singleton_append]
      exact skipSpace_cons _ _ (by decide)
    have hjoin := parseElems_items d hy vs h ((y ++ 0x5D :: rest).length + 1) rest
      (by
        have := itemsText_length hy
        simp only [List.length_append, List.length_cons] at this ⊢
        omega)
    obtain ⟨p, hp⟩ := parseElems_ok_first _ _ _ _ hjoin
    obtain ⟨c, t, hct, hne, _⟩ := parseValue_ok_head d _ p hp
    rw [parseValue_array d _ _ hs]
    simp only [hct, hjoin]
    rw [if_neg hne]

/-- One member between blanks, in front of a comma or a closing brace, is read up to
the end of its value. -/
theorem parseMembers_item (d : Nat) (fuel : Nat) (m : Bytes × (Bytes → Prop)) (v : JValue)
    (hv : ReadsInside (parseValue d) m.2 v) (w1 x w2 : Bytes) (h1 : Blank w1)
    (hx : MemberOf m x) (h2 : Blank w2) (c : Byte) (rest : Bytes)
    (hc : c.val = 0x2C ∨ c.val = 0x7D) :
    parseMembers (parseValue d) (fuel + 1) (w1 ++ (x ++ (w2 ++ c :: rest))) =
      if c.val = 0x2C then
        match parseMembers (parseValue d) fuel rest with
        | .error e => .error e
        | .ok (ms, r4) => .ok ((m.1, v) :: ms, r4)
      else .ok ([(m.1, v)], rest) := by
  obtain ⟨kx, wa, wb, vx, ⟨lit, hlit, rfl⟩, ha, hb, hvx, rfl⟩ := hx
  have hdelim : isDelim c := by rcases hc with h | h; exact Or.inl h; exact Or.inr (Or.inr h)
  have hs : skipSpace (w1 ++ ((0x22 :: (lit ++ [0x22])) ++ (wa ++ 0x3A :: (wb ++ vx)) ++
      (w2 ++ c :: rest))) =
      0x22 :: (lit ++ 0x22 :: (wa ++ 0x3A :: (wb ++ (vx ++ (w2 ++ c :: rest))))) := by
    rw [skipSpace_blank w1 _ h1]
    simp only [List.cons_append, List.append_assoc, List.singleton_append, List.nil_append]
    exact skipSpace_cons _ _ (by decide)
  have hkey := parseStringLit_spells hlit (wa ++ 0x3A :: (wb ++ (vx ++ (w2 ++ c :: rest))))
  have hcolon : skipSpace (wa ++ 0x3A :: (wb ++ (vx ++ (w2 ++ c :: rest)))) =
      0x3A :: (wb ++ (vx ++ (w2 ++ c :: rest))) := by
    rw [skipSpace_blank wa _ ha]
    exact skipSpace_cons _ _ (by decide)
  have hpv := parseValue_item d m.2 v hv wb vx w2 hb hvx h2 c hdelim rest
  have hsp := skipSpace_blank_delim w2 h2 c hdelim rest
  rw [parseMembers_succ]
  simp only [hs]
  rw [if_pos (by decide)]
  simp only [hkey, hcolon]
  rw [if_pos (by decide)]
  simp only [hpv, hsp]
  rcases hc with h | h
  · rw [if_pos h, if_pos h]
    try rfl
  · rw [if_neg (by omega), if_pos h, if_neg (by omega)]

/-- The members of an object, each between blanks, with commas between them and closed
by a brace, are read one by one, given fuel for each of them. -/
theorem parseMembers_items (d : Nat) {members : List (Bytes × (Bytes → Prop))} {y : Bytes}
    (h : ItemsText MemberOf members y) :
    ∀ (kvs : List (Bytes × JValue)),
      List.Forall₂ (fun m kv => kv.1 = m.1 ∧ ReadsInside (parseValue d) m.2 kv.2)
        members kvs →
    ∀ (fuel : Nat) (rest : Bytes), members.length ≤ fuel →
      parseMembers (parseValue d) fuel (y ++ 0x7D :: rest) = .ok (kvs, rest) := by
  induction h with
  | last m w1 x w2 h1 hx h2 =>
    intro kvs hkvs fuel rest hfuel
    cases hkvs with
    | @cons _ kv _ kvs2 hm hnil =>
      cases hnil
      obtain ⟨k, v⟩ := kv
      obtain ⟨hk, hv⟩ := hm
      simp only at hk hv
      subst hk
      cases fuel with
      | zero => simp at hfuel
      | succ fuel =>
        have := parseMembers_item d fuel m v hv w1 x w2 h1 hx h2 0x7D rest (Or.inr rfl)
        rw [if_neg (by decide)] at this
        simpa only [List.append_assoc] using this
  | more m members2 w1 x w2 y h1 hx h2 _ ih =>
    intro kvs hkvs fuel rest hfuel
    cases hkvs with
    | @cons _ kv _ kvs2 hm hrest =>
      obtain ⟨k, v⟩ := kv
      obtain ⟨hk, hv⟩ := hm
      simp only at hk hv
      subst hk
      cases fuel with
      | zero => simp at hfuel
      | succ fuel =>
        have hih := ih kvs2 hrest fuel rest (by simpa using hfuel)
        have := parseMembers_item d fuel m v hv w1 x w2 h1 hx h2 0x2C (y ++ 0x7D :: rest)
          (Or.inl rfl)
        rw [if_pos (by decide), hih] at this
        simpa only [List.append_assoc, List.cons_append] using this

/-- The members of an object start, after blanks, with the quote of a name. -/
theorem itemsText_member_head {members : List (Bytes × (Bytes → Prop))} {y : Bytes}
    (h : ItemsText MemberOf members y) (z : Bytes) : ∃ t, skipSpace (y ++ z) = 0x22 :: t := by
  cases h with
  | last m w1 x w2 h1 hx h2 =>
    obtain ⟨kx, wa, wb, vx, ⟨lit, _, rfl⟩, _, _, _, rfl⟩ := hx
    rw [List.append_assoc, skipSpace_blank w1 _ h1]
    simp only [List.cons_append, List.append_assoc]
    rw [skipSpace_cons 0x22 _ (by decide)]
    exact ⟨_, rfl⟩
  | more m members2 w1 x w2 y2 h1 hx h2 _ =>
    obtain ⟨kx, wa, wb, vx, ⟨lit, _, rfl⟩, _, _, _, rfl⟩ := hx
    rw [List.append_assoc, skipSpace_blank w1 _ h1]
    simp only [List.cons_append, List.append_assoc]
    rw [skipSpace_cons 0x22 _ (by decide)]
    exact ⟨_, rfl⟩

/-- Every text of an object is read as the object of its members, one level of nesting
above their values. -/
theorem reads_objectOf (d : Nat) (members : List (Bytes × (Bytes → Prop)))
    (kvs : List (Bytes × JValue))
    (h : List.Forall₂ (fun m kv => kv.1 = m.1 ∧ ReadsInside (parseValue d) m.2 kv.2)
      members kvs) :
    Reads (parseValue (d + 1)) (ObjectOf members) (.obj kvs) := by
  intro x hx rest
  rcases hx with ⟨hnil, w, hw, rfl⟩ | ⟨y, hy, rfl⟩
  · subst hnil
    cases h
    have hs : skipSpace (0x7B :: (w ++ [0x7D]) ++ rest) = 0x7B :: (w ++ 0x7D :: rest) := by
      simp only [List.cons_append, List.append_assoc, List.singleton_append]
      exact skipSpace_cons _ _ (by decide)
    rw [parseValue_object d _ _ hs,
      skipSpace_blank_delim w hw 0x7D (Or.inr (Or.inr rfl)) rest]
    simp only []
    rw [if_pos (by decide)]
  · have hs : skipSpace (0x7B :: (y ++ [0x7D]) ++ rest) = 0x7B :: (y ++ 0x7D :: rest) := by
      simp only [List.cons_append, List.append_assoc, List.singleton_append]
      exact skipSpace_cons _ _ (by decide)
    have hjoin := parseMembers_items d hy kvs h ((y ++ 0x7D :: rest).length + 1) rest
      (by
        have := itemsText_length hy
        simp only [List.length_append, List.length_cons] at this ⊢
        omega)
    obtain ⟨t, ht⟩ := itemsText_member_head hy (0x7D :: rest)
    rw [parseValue_object d _ _ hs]
    simp only [ht, hjoin]
    rw [if_neg (by decide)]

/-- A whole JSON text of a class that is read as `v` is accepted as `v`. -/
theorem parseJSON_document (P : Bytes → Prop) (v : JValue)
    (h : Reads (parseValue maxNestingDepth) P v) (x : Bytes) (hx : Document P x) :
    parseJSON x = .ok v := by
  obtain ⟨w1, y, w2, h1, hy, h2, rfl⟩ := hx
  have hsp : skipSpace w2 = [] := by
    have := skipSpace_blank w2 [] h2
    rwa [List.append_nil] at this
  rw [parseJSON, parseValue_blank _ w1 _ h1, h y hy w2]
  simp only [hsp, if_true]

/-- Every JSON text of the array of `rule_id` objects is accepted, as the tree of that
array. -/
theorem parseJSON_ruleIDsDocument (ids : List RuleIDOnly) (x : Bytes)
    (hx : ruleIDsDocument ids x) :
    parseJSON x = .ok (.arr (ids.map fun r => ruleIDTree r.RuleID)) := by
  refine parseJSON_document _ _ ?_ x hx
  have hdepth : maxNestingDepth = 9999 + 1 := rfl
  rw [hdepth]
  apply reads_arrayOf
  rw [List.forall₂_map_left_iff, List.forall₂_map_right_iff]
  refine List.forall₂_same.2 (fun r _ => reads_inside ?_)
  unfold ruleIDTree
  apply reads_objectOf 9998
  exact List.Forall₂.cons ⟨rfl, reads_inside (reads_stringOf 9998 r.RuleID)⟩ List.Forall₂.nil

/-- Every text of an entry of the `hits` array is read as the tree of that entry. -/
theorem reads_hitOf (d : Nat) (name : Bytes) :
    Reads (parseValue (d + 4)) (HitOf name) (hitTree name) := by
  unfold HitOf hitTree
  apply reads_objectOf (d + 3)
  refine List.Forall₂.cons ⟨rfl, reads_inside ?_⟩ List.Forall₂.nil
  apply reads_objectOf (d + 2)
  refine List.Forall₂.cons ⟨rfl, reads_inside ?_⟩ List.Forall₂.nil
  apply reads_objectOf (d + 1)
  refine List.Forall₂.cons ⟨rfl, reads_inside ?_⟩ List.Forall₂.nil
  apply reads_objectOf d
  exact List.Forall₂.cons ⟨rfl, reads_inside (reads_stringOf d name)⟩ List.Forall₂.nil

/-- Every JSON text of a search response is accepted, as the tree of that response. -/
theorem parseJSON_searchDocument (n : Int) (names : List Bytes) (x : Bytes)
    (hx : searchDocument n names x) :
    parseJSON x = .ok (searchResultTree n names) := by
  refine parseJSON_document _ _ ?_ x hx
  have hdepth : maxNestingDepth = 9999 + 1 := rfl
  rw [hdepth]
  unfold searchResultTree
  apply reads_objectOf
  refine List.Forall₂.cons ⟨rfl, reads_inside ?_⟩ List.Forall₂.nil
  apply reads_objectOf 9998
  refine List.Forall₂.cons ⟨rfl, reads_inside ?_⟩
    (List.Forall₂.cons ⟨rfl, reads_inside ?_⟩ List.Forall₂.nil)
  · apply reads_objectOf 9997
    exact List.Forall₂.cons ⟨rfl, reads_intOf 9997 n⟩ List.Forall₂.nil
  · apply reads_arrayOf 9997
    rw [List.forall₂_map_left_iff, List.forall₂_map_right_iff]
    exact List.forall₂_same.2 (fun name _ => reads_inside (reads_hitOf 9993 name))
/-! ## The texts without blanks and with every character raw, as the specification
writes its bodies -/

theorem Blank.nil : Blank [] := fun _ h => absurd h (List.not_mem_nil _)

/-- A string without control character, quote or backslash, between two quotes, is
a text of it. -/
theorem stringOf_raw (s : Bytes)
    (hplain : ∀ c ∈ s, ¬ c.val = 0x22 ∧ ¬ c.val = 0x5C ∧ ¬ c.val < 0x20)
    (hvalid : validUTF8 s = true) : StringOf s (quoted s) := by
  have h := Spells.raw s [] [] hplain hvalid Spells.done
  rw [List.append_nil] at h
  exact ⟨s, h, rfl⟩

/-- The decimal numeral of an integer is its text. -/
theorem intOf_decimal (n : Int) : IntOf n (fmtInt n) := rfl

theorem itemsText_tight {α : Type} (T : α → Bytes → Prop) (items : List α) (xs : List Bytes)
    (h : List.Forall₂ T items xs) (hne : items ≠ []) : ItemsText T items (joinComma xs) := by
  induction h with
  | nil => exact absurd rfl hne
  | @cons a x items2 xs2 hx hrest ih =>
    cases hrest with
    | nil =>
      have := ItemsText.last (T := T) a [] x [] Blank.nil hx Blank.nil
      simpa [joinComma] using this
    | @cons b y items3 xs3 hy hrest2 =>
      have hih := ih (by simp)
      have := ItemsText.more (T := T) a (b :: items3) [] x [] (joinComma (y :: xs3))
        Blank.nil hx Blank.nil hih
      simpa [joinComma_cons_cons] using this

theorem listOf_tight {α : Type} (T : α → Bytes → Prop) (opening closing : Byte)
    (items : List α) (xs : List Bytes) (h : List.Forall₂ T items xs) :
    ListOf T opening closing items (opening :: (joinComma xs ++ [closing])) := by
  cases h with
  | nil => exact Or.inl ⟨rfl, [], Blank.nil, rfl⟩
  | @cons a x items2 xs2 hx hrest =>
    exact Or.inr ⟨_, itemsText_tight T _ _ (List.Forall₂.cons hx hrest) (by simp), rfl⟩

/-- The texts of the elements, with commas between them and in brackets, are a text of
the array. -/
theorem arrayOf_tight (elems : List (Bytes → Prop)) (xs : List Bytes)
    (h : List.Forall₂ (fun (P : Bytes → Prop) x => P x) elems xs) :
    ArrayOf elems (arrayText xs) :=
  listOf_tight _ 0x5B 0x5D elems xs h

/-- A text of the name, a colon and a text of the value are a text of the member. -/
theorem memberOf_tight (k : Bytes) (P : Bytes → Prop) (kx vx : Bytes) (hk : StringOf k kx)
    (hv : P vx) : MemberOf (k, P) (kx ++ 0x3A :: vx) :=
  ⟨kx, [], [], vx, hk, Blank.nil, Blank.nil, hv, rfl⟩

/-- A member in braces is a text of the object with that one member. -/
theorem objectOf_one (k : Bytes) (P : Bytes → Prop) (kx vx : Bytes) (hk : StringOf k kx)
    (hv : P vx) : ObjectOf [(k, P)] (0x7B :: ((kx ++ 0x3A :: vx) ++ [0x7D])) :=
  listOf_tight MemberOf 0x7B 0x7D [(k, P)] [kx ++ 0x3A :: vx]
    (List.Forall₂.cons (memberOf_tight k P kx vx hk hv) List.Forall₂.nil)

/-- Two members with a comma between them, in braces, are a text of the object with
these two members. -/
theorem objectOf_two (k1 k2 : Bytes) (P1 P2 : Bytes → Prop) (kx1 vx1 kx2 vx2 : Bytes)
    (hk1 : StringOf k1 kx1) (hv1 : P1 vx1) (hk2 : StringOf k2 kx2) (hv2 : P2 vx2) :
    ObjectOf [(k1, P1), (k2, P2)]
      (0x7B :: ((kx1 ++ 0x3A :: vx1) ++ 0x2C :: (kx2 ++ 0x3A :: vx2) ++ [0x7D])) :=
  listOf_tight MemberOf 0x7B 0x7D [(k1, P1), (k2, P2)] [kx1 ++ 0x3A :: vx1, kx2 ++ 0x3A :: vx2]
    (List.Forall₂.cons (memberOf_tight k1 P1 kx1 vx1 hk1 hv1)
      (List.Forall₂.cons (memberOf_tight k2 P2 kx2 vx2 hk2 hv2) List.Forall₂.nil))

set_option maxRecDepth 100000 in
/-- The entry of the `hits` array written without blanks, for a name without control
character, quote or backslash, is a text of that entry. -/
theorem hitOf_tight (name : Bytes)
    (hplain : ∀ c ∈ name, ¬ c.val = 0x22 ∧ ¬ c.val = 0x5C ∧ ¬ c.val < 0x20)
    (hvalid : validUTF8 name = true) : HitOf name (hitText name) :=
  objectOf_one _ _ _ _ (stringOf_raw (bytesOf "_source") (by decide) (by decide))
    (objectOf_one _ _ _ _ (stringOf_raw (bytesOf "signal") (by decide) (by decide))
      (objectOf_one _ _ _ _ (stringOf_raw (bytesOf "rule") (by decide) (by decide))
        (objectOf_one _ _ _ _ (stringOf_raw (bytesOf "name") (by decide) (by decide))
          (stringOf_raw name hplain hvalid))))

/-- A text of a value, with no blank around it, is a whole JSON text. -/
theorem document_tight (P : Bytes → Prop) (x : Bytes) (h : P x) : Document P x :=
  ⟨[], x, [], Blank.nil, h, Blank.nil, by simp⟩

/-! ## Decoding a JSON text of the response -/

/-- The call `json.Unmarshal` on a JSON text of the array of `rule_id` objects, into an
empty `[]RuleIDOnly`: the records, in order, and no error. -/
theorem unmarshalRuleIDs_document (ids : List RuleIDOnly) (x : Bytes)
    (hx : ruleIDsDocument ids x) :
    unmarshalRuleIDs x (.mk []) = (Slice.mk ids, none) := by
  have hstore : List.Forall₂
      (fun v x => storeStruct ruleIDOnlyFields v RuleIDOnly.zero = (x, none))
      (ids.map (fun r => ruleIDTree r.RuleID)) ids := by
    rw [List.forall₂_map_left_iff]
    exact List.forall₂_same.2 (fun r _ => storeStruct_ruleIDOnly _ _)
  have := storeSlice_fresh (storeStruct ruleIDOnlyFields) RuleIDOnly.zero _ _ hstore
    (Slice.mk []) rfl
  simp only [unmarshalRuleIDs, parseJSON_ruleIDsDocument ids x hx, this]

/-- The call `json.Unmarshal` on a JSON text of a search response, into the zero
`SearchResult`: the total and the names, in order, and no error, when the total fits
64 bits. -/
theorem unmarshalSearchResult_document (n : Int) (names : List Bytes) (x : Bytes)
    (hlo : -(2 : Int) ^ 63 ≤ n) (hhi : n < (2 : Int) ^ 63) (hx : searchDocument n names x) :
    unmarshalSearchResult x SearchResult.zero =
      (⟨⟨⟨n⟩, Slice.mk (names.map hitOfName)⟩⟩, none) := by
  simp only [unmarshalSearchResult, parseJSON_searchDocument n names x hx,
    storeStruct_searchResultTree n _ hlo hhi]

/-! ## Bulk create, bulk delete and the search, end to end -/

theorem marshalRuleIDs_text (ids : List RuleIDOnly) :
    marshalRuleIDs (.mk ids) =
      (Slice.mk (arrayText (ids.map
        (fun r => objectText [(bytesOf "rule_id", appendString r.RuleID)]))), none) := by
  have h : ids.map encodeRuleIDOnly =
      ids.map (fun r => objectText [(bytesOf "rule_id", appendString r.RuleID)]) :=
    List.map_congr_left (fun r _ => encodeRuleIDOnly_eq r)
  simp only [marshalRuleIDs, arrayText, h]

/-- C4, amended: for a non-empty input, when the transport answers the index-ensure
call with 200 and the bulk-create call with 200 and a body that is a JSON text (blanks
between the tokens, every string in any spelling, raw or escaped) of the array of the
objects `rule_id : id` for `ids` in order, `RulesBulkCreate` makes these two requests
and returns exactly the records with these identifiers, in the same order, and no
error. -/
theorem bulk_create_returns_ids (c : Client) (log : List Request) (rules : Slice Byte)
    (ids : List RuleIDOnly) (body1 body2 : Slice Byte) (hrules : rules.len ≠ 0)
    (hbody : ruleIDsDocument ids body2.toList)
    (hindex : c.send log ⟨.POST, "api/detection_engine/index", .nil⟩ = ⟨200, body1, none⟩)
    (hcreate : c.send (log ++ [⟨.POST, "api/detection_engine/index", .nil⟩])
        ⟨.POST, "api/detection_engine/rules/_bulk_create", rules⟩ = ⟨200, body2, none⟩) :
    RulesBulkCreate c rules log =
      ((Slice.mk ids, none),
        log ++ [⟨.POST, "api/detection_engine/index", .nil⟩,
          ⟨.POST, "api/detection_engine/rules/_bulk_create", rules⟩]) := by
  have hdec := unmarshalRuleIDs_document ids body2.toList hbody
  simp [RulesBulkCreate, Client.post, hrules, hindex, hcreate, statusOK, hdec]

set_option maxRecDepth 100000 in
/-- The literal `a<b\"\u00e9\n\ud83d\ude00` spells the string of `a<b`, a quote,
U+00E9, a line feed and U+1F600: raw characters, both kinds of escape and a surrogate
pair. -/
theorem spells_mixed :
    Spells (bytesOf "a<b\\\"\\u00e9\\n\\ud83d\\ude00")
      (bytesOf "a<b" ++ [0x22, 0xC3, 0xA9, 0x0A, 0xF0, 0x9F, 0x98, 0x80]) :=
  Spells.raw (bytesOf "a<b") _ _ (by decide) (by decide)
    (Spells.short 0x22 0x22 _ _ (by decide)
      (Spells.unit 0x30 0x30 0x65 0x39 0xE9 _ _ (by decide) (by decide)
        (Spells.short 0x6E 0x0A _ _ (by decide)
          (Spells.pair 0x64 0x38 0x33 0x64 0x64 0x65 0x30 0x30 0xD83D 0xDE00 _ _ (by decide)
            (by decide) (by decide) (by decide) Spells.done))))

set_option maxRecDepth 100000 in
/-- C4 at the case of the specification, the identifiers `r1` and `r2` in the body as
the specification writes it; and at a body with blanks between the tokens and an
identifier spelled with raw characters, escapes and a surrogate pair. -/
theorem bulk_create_returns_ids_witness :
    RulesBulkCreate
        (scriptClient [⟨200, .nil, none⟩, ⟨200, .mk (bytesOf "[\x7b\"rule_id\":\"r1\"\x7d,\x7b\"rule_id\":\"r2\"\x7d]"), none⟩]
          ⟨500, .nil, none⟩)
        (.mk (bytesOf "[\x7b\x7d]")) [] =
      ((Slice.mk [⟨bytesOf "r1"⟩, ⟨bytesOf "r2"⟩], none),
        [⟨.POST, "api/detection_engine/index", .nil⟩,
          ⟨.POST, "api/detection_engine/rules/_bulk_create", .mk (bytesOf "[\x7b\x7d]")⟩]) ∧
    RulesBulkCreate
        (scriptClient [⟨200, .nil, none⟩, ⟨200, .mk (bytesOf " [ \x7b\"rule_id\" : \"a<b\\\"\\u00e9\\n\\ud83d\\ude00\"\x7d ,\r\n\t\x7b\"rule_id\":\"r2\"\x7d ]\n"), none⟩]
          ⟨500, .nil, none⟩)
        (.mk (bytesOf "[\x7b\x7d]")) [] =
      ((Slice.mk [⟨bytesOf "a<b" ++ [0x22, 0xC3, 0xA9, 0x0A, 0xF0, 0x9F, 0x98, 0x80]⟩,
          ⟨bytesOf "r2"⟩], none),
        [⟨.POST, "api/detection_engine/index", .nil⟩,
          ⟨.POST, "api/detection_engine/rules/_bulk_create", .mk (bytesOf "[\x7b\x7d]")⟩]) :=
  ⟨bulk_create_returns_ids _ [] (.mk (bytesOf "[\x7b\x7d]")) [⟨bytesOf "r1"⟩, ⟨bytesOf "r2"⟩]
      .nil (.mk (bytesOf "[\x7b\"rule_id\":\"r1\"\x7d,\x7b\"rule_id\":\"r2\"\x7d]")) (by decide)
      (document_tight _ _ (arrayOf_tight _
        [bytesOf "\x7b\"rule_id\":\"r1\"\x7d", bytesOf "\x7b\"rule_id\":\"r2\"\x7d"]
        (List.Forall₂.cons
          (objectOf_one _ _ _ _ (stringOf_raw (bytesOf "rule_id") (by decide) (by decide))
            (stringOf_raw (bytesOf "r1") (by decide) (by decide)))
          (List.Forall₂.cons
            (objectOf_one _ _ _ _ (stringOf_raw (bytesOf "rule_id") (by decide) (by decide))
              (stringOf_raw (bytesOf "r2") (by decide) (by decide)))
            List.Forall₂.nil))))
      rfl rfl,
    bulk_create_returns_ids _ [] (.mk (bytesOf "[\x7b\x7d]"))
      [⟨bytesOf "a<b" ++ [0x22, 0xC3, 0xA9, 0x0A, 0xF0, 0x9F, 0x98, 0x80]⟩, ⟨bytesOf "r2"⟩]
      .nil (.mk (bytesOf " [ \x7b\"rule_id\" : \"a<b\\\"\\u00e9\\n\\ud83d\\ude00\"\x7d ,\r\n\t\x7b\"rule_id\":\"r2\"\x7d ]\n")) (by decide)
      ⟨[0x20], _, [0x0A], by decide,
        Or.inr ⟨_,
          ItemsText.more _ _ [0x20] _ [0x20] _ (by decide)
            (Or.inr ⟨_, ItemsText.last _ [] _ [] Blank.nil
              ⟨quoted (bytesOf "rule_id"), [0x20], [0x20], _,
                stringOf_raw (bytesOf "rule_id") (by decide) (by decide), by decide, by decide,
                ⟨_, spells_mixed, rfl⟩, rfl⟩ Blank.nil, rfl⟩)
            (by decide)
            (ItemsText.last _ [0x0D, 0x0A, 0x09] _ [0x20] (by decide)
              (objectOf_one _ _ _ _ (stringOf_raw (bytesOf "rule_id") (by decide) (by decide))
                (stringOf_raw (bytesOf "r2") (by decide) (by decide)))
              (by decide)), rfl⟩,
        by decide, rfl⟩
      rfl rfl⟩

set_option maxRecDepth 100000 in
/-- C4 as stated fails at an identifier that is not valid UTF-8: for the one-byte
identifier `0xFF`, a body with that byte between the quotes of the `rule_id` is taken
without error and the record returned carries U+FFFD, not the identifier. -/
theorem bulk_create_invalid_utf8_counterexample :
    RulesBulkCreate
        (scriptClient [⟨200, .nil, none⟩,
          ⟨200, .mk (bytesOf "[\x7b\"rule_id\":\"" ++ [0xFF] ++ bytesOf "\"\x7d]"), none⟩]
          ⟨500, .nil, none⟩)
        (.mk (bytesOf "[\x7b\x7d]")) [] =
      ((Slice.mk [⟨[0xEF, 0xBF, 0xBD]⟩], none),
        [⟨.POST, "api/detection_engine/index", .nil⟩,
          ⟨.POST, "api/detection_engine/rules/_bulk_create", .mk (bytesOf "[\x7b\x7d]")⟩]) ∧
    (Slice.mk [(⟨[0xEF, 0xBF, 0xBD]⟩ : RuleIDOnly)]) ≠ Slice.mk [⟨[0xFF]⟩] :=
  ⟨by decide, by decide⟩

/-- C6, amended: for a non-empty list of records whose identifiers are valid UTF-8 and a
transport answering 200 without error, `RulesBulkDelete` makes exactly one request, a
`DELETE` to `api/detection_engine/rules/_bulk_delete`; its body is the JSON array with
one object per record, in order, whose one member is `rule_id` with the identifier (so
the scanner reads it); and no error is returned. -/
theorem bulk_delete_sends_ids (c : Client) (log : List Request) (rules : List RuleIDOnly)
    (hrules : (Slice.mk rules).len ≠ 0)
    (hvalid : ∀ r ∈ rules, validUTF8 r.RuleID = true)
    (hok : ∀ rq, (c.send log rq).statusCode = 200 ∧ (c.send log rq).err = none) :
    RulesBulkDelete c (.mk rules) log =
      (none, log ++ [⟨.DELETE, "api/detection_engine/rules/_bulk_delete",
        .mk (arrayText (rules.map
          (fun r => objectText [(bytesOf "rule_id", appendString r.RuleID)])))⟩]) ∧
    parseJSON (arrayText (rules.map
        (fun r => objectText [(bytesOf "rule_id", appendString r.RuleID)]))) =
      .ok (.arr (rules.map (fun r => ruleIDTree r.RuleID))) := by
  constructor
  · have h := hok ⟨.DELETE, "api/detection_engine/rules/_bulk_delete",
      .mk (arrayText (rules.map
        (fun r => objectText [(bytesOf "rule_id", appendString r.RuleID)])))⟩
    simp [RulesBulkDelete, Client.delete, hrules, marshalRuleIDs_text, h.1, h.2, statusOK]
  · have hparse := parseJSON_marshalRuleIDs rules
    rw [marshalRuleIDs_text] at hparse
    simp only [Slice.toList] at hparse
    rw [hparse]
    congr 2
    exact List.map_congr_left (fun r hr => by rw [coerceUTF8_of_valid _ (hvalid r hr)])

set_option maxRecDepth 100000 in
/-- C6 at the case of the specification: the one record `r1`. -/
theorem bulk_delete_sends_ids_witness :
    RulesBulkDelete (constClient ⟨200, .nil, none⟩) (.mk [⟨bytesOf "r1"⟩]) [] =
      (none, [⟨.DELETE, "api/detection_engine/rules/_bulk_delete",
        .mk (bytesOf "[\x7b\"rule_id\":\"r1\"\x7d]")⟩]) ∧
    parseJSON (bytesOf "[\x7b\"rule_id\":\"r1\"\x7d]") =
      .ok (.arr [ruleIDTree (bytesOf "r1")]) :=
  bulk_delete_sends_ids (constClient ⟨200, .nil, none⟩) [] [⟨bytesOf "r1"⟩] (by decide)
    (by decide) (fun _ => ⟨rfl, rfl⟩)

set_option maxRecDepth 100000 in
/-- C6 as stated fails at an identifier that is not valid UTF-8: for the one-byte
identifier `0xFF` the body carries U+FFFD as the `rule_id`, not the identifier. -/
theorem bulk_delete_invalid_utf8_counterexample :
    RulesBulkDelete (constClient ⟨200, .nil, none⟩) (.mk [⟨[0xFF]⟩]) [] =
      (none, [⟨.DELETE, "api/detection_engine/rules/_bulk_delete",
        .mk (bytesOf "[\x7b\"rule_id\":\"\\ufffd\"\x7d]")⟩]) ∧
    parseJSON (bytesOf "[\x7b\"rule_id\":\"\\ufffd\"\x7d]") =
      .ok (.arr [ruleIDTree [0xEF, 0xBF, 0xBD]]) ∧
    ([0xEF, 0xBF, 0xBD] : Bytes) ≠ [0xFF] :=
  ⟨by decide, rfl, by decide⟩
/-- C7, amended: for every total `n` that fits 64 bits and every list of rule names,
when the transport answers the search request with 200 and a body that is a JSON text
(blanks between the tokens, every string in any spelling, raw or escaped, the total as
a decimal integer) of the response with the total `n` and one
`_source.signal.rule.name` entry per name in order, `RulesGetHits` returns no error
and a `SearchResult` whose total is `n` and whose hits are as many as the names, the
i-th carrying the i-th name. -/
theorem get_hits_decodes (c : Client) (log : List Request) (n : Int) (names : List Bytes)
    (body : Slice Byte) (hlo : -(2 : Int) ^ 63 ≤ n) (hhi : n < (2 : Int) ^ 63)
    (hbody : searchDocument n names body.toList)
    (hreply : c.send log ⟨.POST, "api/detection_engine/signals/search",
        .mk (bytesOf "\x7b\"query\":\x7b\"match\":\x7b\"signal.status\":\"open\"\x7d\x7d\x7d")⟩ =
      ⟨200, body, none⟩) :
    (RulesGetHits c log).1.2 = none ∧
      (RulesGetHits c log).1.1.Hits.Total.Value = n ∧
      (RulesGetHits c log).1.1.Hits.Hits.len = names.length ∧
      (RulesGetHits c log).1.1.Hits.Hits.toList.map (fun h => h.Source.Signal.Rule.Name) =
        names := by
  have hbytes : getHitsBody =
      bytesOf "\x7b\"query\":\x7b\"match\":\x7b\"signal.status\":\"open\"\x7d\x7d\x7d" := rfl
  have hdec := unmarshalSearchResult_document n names body.toList hlo hhi hbody
  have hres : (RulesGetHits c log).1 =
      (⟨⟨⟨n⟩, Slice.mk (names.map hitOfName)⟩⟩, none) := by
    simp [RulesGetHits, Client.post, hbytes, hreply, statusOK, hdec]
  rw [hres]
  refine ⟨rfl, rfl, by simp [Slice.len, Slice.toList], ?_⟩
  simp only [Slice.toList, List.map_map]
  exact (List.map_congr_left (fun s _ => rfl)).trans (List.map_id' names)

set_option maxRecDepth 100000 in
/-- The literal `A\u0026B` spells the string `A&B`. -/
theorem spells_ampersand : Spells (bytesOf "A\\u0026B") (bytesOf "A&B") :=
  Spells.raw [0x41] _ _ (by decide) (by decide)
    (Spells.unit 0x30 0x30 0x32 0x36 0x26 _ _ (by decide) (by decide)
      (Spells.raw [0x42] _ _ (by decide) (by decide) Spells.done))

set_option maxRecDepth 100000 in
/-- C7 at the case of the specification, the total 2 and the names `RuleA`, `RuleB` in
the body as the specification writes it; and at a body with blanks between the tokens,
a negative total and a name spelled with an escape. -/
theorem get_hits_decodes_witness :
    ((RulesGetHits (constClient ⟨200, .mk (bytesOf "\x7b\"hits\":\x7b\"total\":\x7b\"value\":2\x7d,\"hits\":[\x7b\"_source\":\x7b\"signal\":\x7b\"rule\":\x7b\"name\":\"RuleA\"\x7d\x7d\x7d\x7d,\x7b\"_source\":\x7b\"signal\":\x7b\"rule\":\x7b\"name\":\"RuleB\"\x7d\x7d\x7d\x7d]\x7d\x7d"), none⟩) []).1.2 = none ∧
      (RulesGetHits (constClient ⟨200, .mk (bytesOf "\x7b\"hits\":\x7b\"total\":\x7b\"value\":2\x7d,\"hits\":[\x7b\"_source\":\x7b\"signal\":\x7b\"rule\":\x7b\"name\":\"RuleA\"\x7d\x7d\x7d\x7d,\x7b\"_source\":\x7b\"signal\":\x7b\"rule\":\x7b\"name\":\"RuleB\"\x7d\x7d\x7d\x7d]\x7d\x7d"), none⟩) []).1.1.Hits.Total.Value = 2 ∧
      (RulesGetHits (constClient ⟨200, .mk (bytesOf "\x7b\"hits\":\x7b\"total\":\x7b\"value\":2\x7d,\"hits\":[\x7b\"_source\":\x7b\"signal\":\x7b\"rule\":\x7b\"name\":\"RuleA\"\x7d\x7d\x7d\x7d,\x7b\"_source\":\x7b\"signal\":\x7b\"rule\":\x7b\"name\":\"RuleB\"\x7d\x7d\x7d\x7d]\x7d\x7d"), none⟩) []).1.1.Hits.Hits.len = [bytesOf "RuleA", bytesOf "RuleB"].length ∧
      (RulesGetHits (constClient ⟨200, .mk (bytesOf "\x7b\"hits\":\x7b\"total\":\x7b\"value\":2\x7d,\"hits\":[\x7b\"_source\":\x7b\"signal\":\x7b\"rule\":\x7b\"name\":\"RuleA\"\x7d\x7d\x7d\x7d,\x7b\"_source\":\x7b\"signal\":\x7b\"rule\":\x7b\"name\":\"RuleB\"\x7d\x7d\x7d\x7d]\x7d\x7d"), none⟩) []).1.1.Hits.Hits.toList.map
          (fun h => h.Source.Signal.Rule.Name) = [bytesOf "RuleA", bytesOf "RuleB"]) ∧
    ((RulesGetHits (constClient ⟨200, .mk (bytesOf "\x7b \"hits\" : \x7b \"total\" : \x7b \"value\" : -7 \x7d , \"hits\" : [ \x7b\"_source\":\x7b\"signal\":\x7b\"rule\":\x7b\"name\":\"A\\u0026B\"\x7d\x7d\x7d\x7d ] \x7d \x7d"), none⟩) []).1.2 = none ∧
      (RulesGetHits (constClient ⟨200, .mk (bytesOf "\x7b \"hits\" : \x7b \"total\" : \x7b \"value\" : -7 \x7d , \"hits\" : [ \x7b\"_source\":\x7b\"signal\":\x7b\"rule\":\x7b\"name\":\"A\\u0026B\"\x7d\x7d\x7d\x7d ] \x7d \x7d"), none⟩) []).1.1.Hits.Total.Value = -7 ∧
      (RulesGetHits (constClient ⟨200, .mk (bytesOf "\x7b \"hits\" : \x7b \"total\" : \x7b \"value\" : -7 \x7d , \"hits\" : [ \x7b\"_source\":\x7b\"signal\":\x7b\"rule\":\x7b\"name\":\"A\\u0026B\"\x7d\x7d\x7d\x7d ] \x7d \x7d"), none⟩) []).1.1.Hits.Hits.len = [bytesOf "A&B"].length ∧
      (RulesGetHits (constClient ⟨200, .mk (bytesOf "\x7b \"hits\" : \x7b \"total\" : \x7b \"value\" : -7 \x7d , \"hits\" : [ \x7b\"_source\":\x7b\"signal\":\x7b\"rule\":\x7b\"name\":\"A\\u0026B\"\x7d\x7d\x7d\x7d ] \x7d \x7d"), none⟩) []).1.1.Hits.Hits.toList.map
          (fun h => h.Source.Signal.Rule.Name) = [bytesOf "A&B"]) :=
  ⟨get_hits_decodes _ [] 2 [bytesOf "RuleA", bytesOf "RuleB"]
      (.mk (bytesOf "\x7b\"hits\":\x7b\"total\":\x7b\"value\":2\x7d,\"hits\":[\x7b\"_source\":\x7b\"signal\":\x7b\"rule\":\x7b\"name\":\"RuleA\"\x7d\x7d\x7d\x7d,\x7b\"_source\":\x7b\"signal\":\x7b\"rule\":\x7b\"name\":\"RuleB\"\x7d\x7d\x7d\x7d]\x7d\x7d")) (by decide) (by decide)
      (document_tight _ _
        (objectOf_one _ _ _ _ (stringOf_raw (bytesOf "hits") (by decide) (by decide))
          (objectOf_two _ _ _ _ _ _ _ _
            (stringOf_raw (bytesOf "total") (by decide) (by decide))
            (objectOf_one _ _ _ _ (stringOf_raw (bytesOf "value") (by decide) (by decide))
              (intOf_decimal 2))
            (stringOf_raw (bytesOf "hits") (by decide) (by decide))
            (arrayOf_tight _ [hitText (bytesOf "RuleA"), hitText (bytesOf "RuleB")]
              (List.Forall₂.cons (hitOf_tight (bytesOf "RuleA") (by decide) (by decide))
                (List.Forall₂.cons (hitOf_tight (bytesOf "RuleB") (by decide) (by decide))
                  List.Forall₂.nil))))))
      rfl,
    get_hits_decodes _ [] (-7) [bytesOf "A&B"]
      (.mk (bytesOf "\x7b \"hits\" : \x7b \"total\" : \x7b \"value\" : -7 \x7d , \"hits\" : [ \x7b\"_source\":\x7b\"signal\":\x7b\"rule\":\x7b\"name\":\"A\\u0026B\"\x7d\x7d\x7d\x7d ] \x7d \x7d")) (by decide) (by decide)
      (document_tight _ _
        (Or.inr ⟨_, ItemsText.last _ [0x20] _ [0x20] (by decide)
          ⟨quoted (bytesOf "hits"), [0x20], [0x20], _,
            stringOf_raw (bytesOf "hits") (by decide) (by decide), by decide, by decide,
            Or.inr ⟨_, ItemsText.more _ _ [0x20] _ [0x20] _ (by decide)
              ⟨quoted (bytesOf "total"), [0x20], [0x20], _,
                stringOf_raw (bytesOf "total") (by decide) (by decide), by decide, by decide,
                Or.inr ⟨_, ItemsText.last _ [0x20] _ [0x20] (by decide)
                  ⟨quoted (bytesOf "value"), [0x20], [0x20], _,
                    stringOf_raw (bytesOf "value") (by decide) (by decide), by decide,
                    by decide, intOf_decimal (-7), rfl⟩
                  (by decide), rfl⟩, rfl⟩
              (by decide)
              (ItemsText.last _ [0x20] _ [0x20] (by decide)
                ⟨quoted (bytesOf "hits"), [0x20], [0x20], _,
                  stringOf_raw (bytesOf "hits") (by decide) (by decide), by decide, by decide,
                  Or.inr ⟨_, ItemsText.last _ [0x20] _ [0x20] (by decide)
                    (objectOf_one _ _ _ _
                      (stringOf_raw (bytesOf "_source") (by decide) (by decide))
                      (objectOf_one _ _ _ _
                        (stringOf_raw (bytesOf "signal") (by decide) (by decide))
                        (objectOf_one _ _ _ _
                          (stringOf_raw (bytesOf "rule") (by decide) (by decide))
                          (objectOf_one _ _ _ _
                            (stringOf_raw (bytesOf "name") (by decide) (by decide))
                            ⟨_, spells_ampersand, rfl⟩))))
                    (by decide), rfl⟩, rfl⟩
                (by decide)), rfl⟩, rfl⟩
          (by decide), rfl⟩))
      rfl⟩

set_option maxRecDepth 100000 in
/-- C7 as stated fails at the total `2^63`: a JSON text of the response with that
total and the one name `RuleA` is answered with a decode error, and the total
returned is 0. It fails as well at a name that is not valid UTF-8: for the one-byte
name `0xFF`, a body with that byte between the quotes of the `name` is taken without
error and the name returned is U+FFFD. -/
theorem get_hits_total_out_of_range_counterexample :
    searchDocument (2 ^ 63) [bytesOf "RuleA"] (bytesOf "\x7b\"hits\":\x7b\"total\":\x7b\"value\":9223372036854775808\x7d,\"hits\":[\x7b\"_source\":\x7b\"signal\":\x7b\"rule\":\x7b\"name\":\"RuleA\"\x7d\x7d\x7d\x7d]\x7d\x7d") ∧
      (RulesGetHits (constClient ⟨200, .mk (bytesOf "\x7b\"hits\":\x7b\"total\":\x7b\"value\":9223372036854775808\x7d,\"hits\":[\x7b\"_source\":\x7b\"signal\":\x7b\"rule\":\x7b\"name\":\"RuleA\"\x7d\x7d\x7d\x7d]\x7d\x7d"), none⟩) []).1 =
        (⟨⟨⟨0⟩, Slice.mk [hitOfName (bytesOf "RuleA")]⟩⟩,
          some (.withStack (.jsonUnmarshalTypeError (bytesOf "number 9223372036854775808"))
            "could not unmarshal search results")) ∧
      (RulesGetHits (constClient ⟨200, .mk (bytesOf "\x7b\"hits\":\x7b\"total\":\x7b\"value\":1\x7d,\"hits\":[\x7b\"_source\":\x7b\"signal\":\x7b\"rule\":\x7b\"name\":\"" ++ [0xFF] ++ bytesOf "\"\x7d\x7d\x7d\x7d]\x7d\x7d"), none⟩)
          []).1 = (⟨⟨⟨1⟩, Slice.mk [hitOfName [0xEF, 0xBF, 0xBD]]⟩⟩, none) ∧
      hitOfName [0xEF, 0xBF, 0xBD] ≠ hitOfName [0xFF] :=
  ⟨document_tight _ _
      (objectOf_one _ _ _ _ (stringOf_raw (bytesOf "hits") (by decide) (by decide))
        (objectOf_two _ _ _ _ _ _ _ _
          (stringOf_raw (bytesOf "total") (by decide) (by decide))
          (objectOf_one _ _ _ _ (stringOf_raw (bytesOf "value") (by decide) (by decide))
            (intOf_decimal (2 ^ 63)))
          (stringOf_raw (bytesOf "hits") (by decide) (by decide))
          (arrayOf_tight _ [hitText (bytesOf "RuleA")]
            (List.Forall₂.cons (hitOf_tight (bytesOf "RuleA") (by decide) (by decide))
              List.Forall₂.nil)))),
    by decide, by decide, by decide⟩

end Kibana
